import Mathlib

/-!
QStomp: frame parsing and the streaming frame assembler.

A shallow embedding of `src/src/qstomp.cpp`:

* `QByteArray` values are lists of bytes; a byte is a natural number (the
  code never does arithmetic on bytes, it only compares them);
* `int` results of `indexOf` are `Option Nat` (`none` is `-1`);
* `quint32` arithmetic is done modulo `2 ^ 32`;
* member functions that mutate the object return the new object;
* the two `forever` / `while` loops carry a fuel argument, and the
  functions that run them supply enough fuel (see `sanityLoop_isSome`).
-/

namespace QStomp

/-! ## Byte arrays -/

/-- A byte of a `QByteArray`. -/
abbrev Byte := Nat

/-- The model of Qt's `QByteArray`. -/
abbrev QByteArray := List Byte

/-- The bytes of an ASCII string literal. -/
def ascii (s : String) : QByteArray := s.toList.map Char.toNat

/-- The byte `'\n'`. -/
abbrev LF : Byte := 10

/-- The byte `'\0'`. -/
abbrev NUL : Byte := 0

/-- The byte `':'`. -/
abbrev COLON : Byte := 58

/-- Model of `QByteArray::indexOf(pat)`: offset of the first occurrence of `pat`. -/
def indexOf (pat : QByteArray) : QByteArray → Option Nat
  | [] => if pat.isEmpty then some 0 else none
  | c :: cs =>
    if pat.isPrefixOf (c :: cs) then some 0
    else (indexOf pat cs).map (· + 1)

/-- Model of `QByteArray::indexOf(pat, from)`: first occurrence at or after `start`. -/
def indexOfFrom (pat : QByteArray) (b : QByteArray) (start : Nat) : Option Nat :=
  if start ≤ b.length then (indexOf pat (b.drop start)).map (· + start) else none

/-- Model of `QByteArray::left(n)`. -/
def left (b : QByteArray) (n : Nat) : QByteArray := b.take n

/-- Model of `QByteArray::mid(pos)`. -/
def midFrom (b : QByteArray) (pos : Nat) : QByteArray := b.drop pos

/-- Model of `QByteArray::mid(pos, len)`. -/
def mid (b : QByteArray) (pos len : Nat) : QByteArray := (b.drop pos).take len

/-- Model of `QByteArray::remove(0, n)`. -/
def removeFront (b : QByteArray) (n : Nat) : QByteArray := b.drop n

/-- C `isspace` on a byte: tab, newline, vertical tab, form feed, carriage
return and space; the characters `QByteArray::trimmed` strips. -/
def isSpace (c : Byte) : Bool := (9 ≤ c && c ≤ 13) || c == 32

/-- Model of `QByteArray::trimmed()`. -/
def trimmed (b : QByteArray) : QByteArray :=
  ((b.dropWhile isSpace).reverse.dropWhile isSpace).reverse

/-- Lower-casing of one byte (`'A'..'Z'` to `'a'..'z'`). -/
def toLowerByte (c : Byte) : Byte := if 65 ≤ c ∧ c ≤ 90 then c + 32 else c

/-- Model of `QByteArray::toLower()`, on the ASCII letters. -/
def toLower (b : QByteArray) : QByteArray := b.map toLowerByte

/-- Model of `QByteArray::split(sep)`: the pieces between separators; never empty. -/
def split (sep : Byte) : QByteArray → List QByteArray
  | [] => [[]]
  | c :: cs =>
    if c = sep then [] :: split sep cs
    else
      match split sep cs with
      | [] => [[c]]
      | l :: ls => (c :: l) :: ls

/-- Model of `QByteArray::endsWith(suffix)`. -/
def endsWith (b suffix : QByteArray) : Bool := suffix.reverse.isPrefixOf b.reverse

/-- Model of `QByteArray::chop(n)`. -/
def chop (b : QByteArray) (n : Nat) : QByteArray := b.take (b.length - n)

/-- The behaviour of Qt that the repository's code relies on without fixing
it: `toUInt b` is `QByteArray::toUInt(&ok)` (`some n` when `ok`), and
`fresh i` is the content of the `i`-th byte that `QByteArray::resize` adds when
it grows an array (Qt leaves those bytes uninitialised). -/
structure QtLib where
  toUInt : QByteArray → Option Nat
  fresh : Nat → Byte

/-- Model of `QByteArray::resize(int)` called with a `uint` argument: the argument is
converted to `int`, a negative size empties the array, a smaller size
truncates and a larger one appends fresh bytes. -/
def resize (qt : QtLib) (b : QByteArray) (n : Nat) : QByteArray :=
  let size := if n % 2 ^ 32 < 2 ^ 31 then n % 2 ^ 32 else 0
  b.take size ++ (List.range (size - b.length)).map qt.fresh

/-- Value of a run of decimal digits, most significant first. -/
def digitsValue : QByteArray → Nat → Option Nat
  | [], acc => some acc
  | c :: cs, acc => if 48 ≤ c ∧ c ≤ 57 then digitsValue cs (acc * 10 + (c - 48)) else none

/-- A reference instance of `QtLib`: `toUInt` accepts a non-empty run of
decimal digits with surrounding white space when the value fits 32 bits, and
`resize` pads with zero bytes. -/
def qtRef : QtLib where
  toUInt b :=
    match trimmed b with
    | [] => none
    | ds => (digitsValue ds 0).bind fun n => if n < 2 ^ 32 then some n else none
  fresh _ := 0

/-! ## The assembler: `QStompClientPrivate::findMessageBytes` -/

/-- The global list of command tokens. -/
def VALID_COMMANDS : List QByteArray :=
  [ascii "ABORT", ascii "ACK", ascii "BEGIN", ascii "COMMIT", ascii "CONNECT",
   ascii "DISCONNECT", ascii "CONNECTED", ascii "MESSAGE", ascii "SEND",
   ascii "SUBSCRIBE", ascii "UNSUBSCRIBE", ascii "RECEIPT", ascii "ERROR"]

/-- Outcome of one pass through the body of the buffer sanity check loop. -/
inductive SanityStep where
  /-- The buffer is empty: `return 0`. -/
  | ret0
  /-- No newline yet, or the first line is a command token: `break`. -/
  | brk
  /-- The front of the buffer was discarded; loop again on what is left. -/
  | again (rest : QByteArray)
  deriving DecidableEq

/-- The body of the `forever` loop of `findMessageBytes`. -/
def sanityStep (buf : QByteArray) : SanityStep :=
  if buf.isEmpty then .ret0
  else
    match indexOf [LF] buf with
    | none => .brk
    | some nl =>
      let cmd := left buf nl
      if VALID_COMMANDS.contains cmd then .brk
      else
        match indexOf [NUL, LF] buf with
        | some syncPos => .again (removeFront buf (syncPos + 2))
        | none =>
          match indexOf [NUL] buf with
          | some syncPos => .again (removeFront buf (syncPos + 1))
          | none => .again []

/-- The `forever` loop: `some (true, b)` when it leaves through `break` with
buffer `b`, `some (false, b)` when it leaves through `return 0`, and `none`
when the fuel does not suffice. -/
def sanityLoop : Nat → QByteArray → Option (Bool × QByteArray)
  | 0, _ => none
  | fuel + 1, buf =>
    match sanityStep buf with
    | .ret0 => some (false, buf)
    | .brk => some (true, buf)
    | .again rest => sanityLoop fuel rest

/-- The "Look for content-length" block: `some r` when the block returns `r`,
`none` when control falls through to the terminator search. -/
def contentLengthFrame (qt : QtLib) (buf : QByteArray) : Option Nat :=
  match indexOf (ascii "\ncontent-length") buf, indexOf [LF, LF] buf with
  | some clPos, some headerEnd =>
    if clPos < headerEnd then
      match indexOfFrom [COLON] buf clPos, indexOfFrom [LF] buf clPos with
      | some colon, some nl =>
        if nl > colon then
          match qt.toUInt (mid buf colon (nl - colon)) with
          | some n =>
            let cl := (n + headerEnd + 2) % 2 ^ 32
            if buf.length % 2 ^ 32 ≥ cl then some cl else some 0
          | none => none
        else none
      | _, _ => none
    else none
  | _, _ => none

/-- The "No content-length" block: the terminator search. -/
def terminatorFrame (buf : QByteArray) : Nat :=
  match indexOf [NUL, LF] buf with
  | some e => e + 2
  | none =>
    match indexOf [NUL] buf with
    | some e => e + 1
    | none => 0

/-- The model of `QStompClientPrivate::findMessageBytes`: the returned length
(`0` is "none") and the buffer as the call leaves it. -/
def findMessageBytes (qt : QtLib) (buf : QByteArray) : Nat × QByteArray :=
  match sanityLoop (buf.length + 1) buf with
  | none => (0, buf)
  | some (false, b) => (0, b)
  | some (true, b) =>
    match contentLengthFrame qt b with
    | some r => (r, b)
    | none => (terminatorFrame b, b)

/-! ## Frames: `QStompFrame` and `QStompResponseFrame` -/

/-- The ordered header list of a frame (`QStompHeaderList`). -/
abbrev QStompHeaderList := List (QByteArray × QByteArray)

/-- The data of a `QStompFrame` (`QStompFramePrivate` without the codec). -/
structure QStompFrame where
  m_header : QStompHeaderList
  m_valid : Bool
  m_body : QByteArray
  deriving DecidableEq

/-- The default constructor `QStompFrame::QStompFrame()`. -/
def QStompFrame.new : QStompFrame := { m_header := [], m_valid := true, m_body := [] }

/-- Model of `QStompFrame::addHeaderValue`. -/
def QStompFrame.addHeaderValue (f : QStompFrame) (key value : QByteArray) : QStompFrame :=
  { f with m_header := f.m_header ++ [(key, value)] }

/-- Model of `QStompFrame::headerHasKey`. -/
def QStompFrame.headerHasKey (f : QStompFrame) (key : QByteArray) : Bool :=
  f.m_header.any fun kv => toLower kv.1 == toLower key

/-- Model of `QStompFrame::headerValue`. -/
def QStompFrame.headerValue (f : QStompFrame) (key : QByteArray) : QByteArray :=
  match f.m_header.find? fun kv => toLower kv.1 == toLower key with
  | some kv => kv.2
  | none => []

/-- Model of `QStompFrame::hasContentLength`. -/
def QStompFrame.hasContentLength (f : QStompFrame) : Bool :=
  f.headerHasKey (ascii "content-length")

/-- Model of `QStompFrame::contentLength`: `toUInt()` gives `0` when it fails. -/
def QStompFrame.contentLength (qt : QtLib) (f : QStompFrame) : Nat :=
  (qt.toUInt (f.headerValue (ascii "content-length"))).getD 0

/-- Model of `QStompFrame::parseHeaderLine`. -/
def QStompFrame.parseHeaderLine (f : QStompFrame) (line : QByteArray) : Bool × QStompFrame :=
  match indexOf [COLON] line with
  | none => (false, f)
  | some i =>
    let key := trimmed (left line i)
    if toLower key ≠ ascii "passcode" ∧ toLower key ≠ ascii "login" then
      (true, f.addHeaderValue key (trimmed (midFrom line (i + 1))))
    else
      (true, f.addHeaderValue key (midFrom line (i + 1)))

/-- The `for` loop of `QStompFrame::parse` over the header block's lines,
from line number `i` on; `phl` is the virtual `parseHeaderLine` of the
object, whose state is the base frame and the derived part `τ`. -/
def parseLines {τ : Type} (phl : QStompFrame × τ → QByteArray → Nat → Bool × (QStompFrame × τ)) :
    List QByteArray → Nat → QStompFrame × τ → Bool × (QStompFrame × τ)
  | [], _, self => (true, self)
  | line :: rest, i, self =>
    match phl self line i with
    | (false, self1) => (false, self1)
    | (true, self1) => parseLines phl rest (i + 1) self1

/-- Model of `QStompFrame::parse`, with the virtual `parseHeaderLine` as `phl`. -/
def QStompFrame.parse {τ : Type} (qt : QtLib)
    (phl : QStompFrame × τ → QByteArray → Nat → Bool × (QStompFrame × τ))
    (self : QStompFrame × τ) (frame : QByteArray) : Bool × (QStompFrame × τ) :=
  match indexOf [LF, LF] frame with
  | none => (false, self)
  | some headerEnd =>
    let self1 : QStompFrame × τ := ({ self.1 with m_body := midFrom frame (headerEnd + 2) }, self.2)
    let lines := split LF (left frame headerEnd)
    if lines.isEmpty then (false, self1)
    else
      match parseLines phl lines 0 self1 with
      | (false, self2) => (false, self2)
      | (true, self2) =>
        if self2.1.hasContentLength then
          (true, ({ self2.1 with m_body := resize qt self2.1.m_body (self2.1.contentLength qt) }, self2.2))
        else if endsWith self2.1.m_body [NUL, LF] then
          (true, ({ self2.1 with m_body := chop self2.1.m_body 2 }, self2.2))
        else (true, self2)

/-- The enumeration `QStompResponseFrame::ResponseType`. -/
inductive ResponseType where
  | ResponseConnected
  | ResponseMessage
  | ResponseReceipt
  | ResponseError
  | ResponseInvalid
  deriving DecidableEq

/-- A `QStompResponseFrame`: the base frame and `dd->m_type`. -/
structure QStompResponseFrame where
  base : QStompFrame
  m_type : ResponseType
  deriving DecidableEq

/-- Model of `QStompResponseFrame::parseHeaderLine`. -/
def QStompResponseFrame.parseHeaderLine (self : QStompFrame × ResponseType)
    (line : QByteArray) (number : Nat) : Bool × (QStompFrame × ResponseType) :=
  if number ≠ 0 then
    let r := self.1.parseHeaderLine line
    (r.1, (r.2, self.2))
  else if line = ascii "CONNECTED" then (true, (self.1, .ResponseConnected))
  else if line = ascii "MESSAGE" then (true, (self.1, .ResponseMessage))
  else if line = ascii "RECEIPT" then (true, (self.1, .ResponseReceipt))
  else if line = ascii "ERROR" then (true, (self.1, .ResponseError))
  else (false, self)

/-- The constructor `QStompResponseFrame(const QByteArray &frame)`: a default
base frame, then `setValid(parse(frame))`. `parse` reaches the override
`QStompResponseFrame::parseHeaderLine` through virtual dispatch (the
declaration is in `qstomp.h`; the override handles line 0 and delegates the
other lines to the base class). The constructor leaves `m_type` unset until
the command line is parsed; the model starts it as `ResponseInvalid`. -/
def QStompResponseFrame.fromBytes (qt : QtLib) (frame : QByteArray) : QStompResponseFrame :=
  let r := QStompFrame.parse qt QStompResponseFrame.parseHeaderLine
    (QStompFrame.new, ResponseType.ResponseInvalid) frame
  { base := { r.2.1 with m_valid := r.1 }, m_type := r.2.2 }

/-- Model of `QStompFrame::isValid` on a response frame. -/
def QStompResponseFrame.isValid (f : QStompResponseFrame) : Bool := f.base.m_valid

/-! ## The caller protocol: `QStompClient::socketReadyRead` -/

/-- The receive state of `QStompClientPrivate`: the buffer and the queue of
parsed frames. `handed` is a ghost field: the byte ranges passed to the
`QStompResponseFrame` constructor so far, in order. -/
structure QStompClientPrivate where
  m_buffer : QByteArray
  m_framebuffer : List QStompResponseFrame
  handed : List QByteArray
  deriving DecidableEq

/-- The `while ((length = d->findMessageBytes()))` loop of `socketReadyRead`,
with the local `gotOne`; `none` when the fuel does not suffice. -/
def readLoop (qt : QtLib) : Nat → QStompClientPrivate → Bool → Option (QStompClientPrivate × Bool)
  | 0, _, _ => none
  | fuel + 1, d, gotOne =>
    match findMessageBytes qt d.m_buffer with
    | (0, buf) => some ({ d with m_buffer := buf }, gotOne)
    | (length, buf) =>
      let range := left buf length
      let frame := QStompResponseFrame.fromBytes qt range
      let queue := if frame.isValid then d.m_framebuffer ++ [frame] else d.m_framebuffer
      readLoop qt fuel
        { m_buffer := removeFront buf length, m_framebuffer := queue, handed := d.handed ++ [range] }
        (gotOne || frame.isValid)

/-- The model of `QStompClient::socketReadyRead` receiving `data` from the
socket: the new state and whether `frameReceived` is emitted. -/
def socketReadyRead (qt : QtLib) (d : QStompClientPrivate) (data : QByteArray) :
    Option (QStompClientPrivate × Bool) :=
  let d1 := { d with m_buffer := d.m_buffer ++ data }
  readLoop qt (d1.m_buffer.length + 1) d1 false

/-- A client with an empty queue whose buffer holds `buf`. -/
def clientWith (buf : QByteArray) : QStompClientPrivate :=
  { m_buffer := buf, m_framebuffer := [], handed := [] }

/-! ## Frames: header operations, serialisation and `QStompRequestFrame` -/

/-- Model of `QStompFrame::setHeaderValues`. -/
def QStompFrame.setHeaderValues (f : QStompFrame) (values : QStompHeaderList) : QStompFrame :=
  { f with m_header := values }

/-- Model of `QStompFrame::setRawBody`. -/
def QStompFrame.setRawBody (f : QStompFrame) (body : QByteArray) : QStompFrame :=
  { f with m_body := body }

/-- The `while` loop of `QStompFrame::setHeaderValue`: `some` of the list with
the value of the first matching entry replaced (the `return` inside the loop),
`none` when the iterator reaches the end. -/
def setHeaderLoop (lowercaseKey value : QByteArray) : QStompHeaderList → Option QStompHeaderList
  | [] => none
  | kv :: rest =>
    if toLower kv.1 = lowercaseKey then some ((kv.1, value) :: rest)
    else (setHeaderLoop lowercaseKey value rest).map (kv :: ·)

/-- Model of `QStompFrame::setHeaderValue`. -/
def QStompFrame.setHeaderValue (f : QStompFrame) (key value : QByteArray) : QStompFrame :=
  match setHeaderLoop (toLower key) value f.m_header with
  | some header => { f with m_header := header }
  | none => f.addHeaderValue key value

/-- Model of `QStompFrame::allHeaderValues`. -/
def QStompFrame.allHeaderValues (f : QStompFrame) (key : QByteArray) : List QByteArray :=
  f.m_header.foldl
    (fun valueList kv => if toLower kv.1 = toLower key then valueList ++ [kv.2] else valueList) []

/-- The `while` loop of `QStompFrame::removeHeaderValue`: the first matching
entry is erased and the function returns. -/
def removeFirstLoop (lowercaseKey : QByteArray) : QStompHeaderList → QStompHeaderList
  | [] => []
  | kv :: rest =>
    if toLower kv.1 = lowercaseKey then rest
    else kv :: removeFirstLoop lowercaseKey rest

/-- Model of `QStompFrame::removeHeaderValue`. -/
def QStompFrame.removeHeaderValue (f : QStompFrame) (key : QByteArray) : QStompFrame :=
  { f with m_header := removeFirstLoop (toLower key) f.m_header }

/-- The `while` loop of `QStompFrame::removeAllHeaderValues`, from the
iterator position on. On a match the loop calls `d->m_header.erase(it)`,
drops the iterator that `erase` returns and goes on (`continue`) with `it`,
which the removal has invalidated; what the loop does from there on is not
fixed by the source, and the model gives `none`. While nothing matches the
iterator advances, and the list is left as it is. -/
def removeAllLoop (lowercaseKey : QByteArray) : QStompHeaderList → Option QStompHeaderList
  | [] => some []
  | kv :: rest =>
    if toLower kv.1 = lowercaseKey then none
    else (removeAllLoop lowercaseKey rest).map (kv :: ·)

/-- Model of `QStompFrame::removeAllHeaderValues`; `none` when the loop goes
on with an invalidated iterator. -/
def QStompFrame.removeAllHeaderValues (f : QStompFrame) (key : QByteArray) : Option QStompFrame :=
  (removeAllLoop (toLower key) f.m_header).map fun header => { f with m_header := header }

/-- Model of `QStompFrame::toByteArray`: the loop appends one line per header
to `ret`. -/
def QStompFrame.toByteArray (f : QStompFrame) : QByteArray :=
  if !f.m_valid then []
  else
    let ret := f.m_header.foldl
      (fun ret kv =>
        if toLower kv.1 ≠ ascii "login" ∧ toLower kv.1 ≠ ascii "passcode" then
          ret ++ (kv.1 ++ ascii ": " ++ kv.2 ++ ascii "\n")
        else
          ret ++ (kv.1 ++ ascii ":" ++ kv.2 ++ ascii "\n")) []
    (ret ++ [LF]) ++ f.m_body

/-- The base-class `QStompFrame::parseHeaderLine` as the virtual function seen
by `parse`: the line number is ignored, and there is no derived part. -/
def QStompFrame.parseHeaderLineAt (self : QStompFrame × Unit) (line : QByteArray)
    (_number : Nat) : Bool × (QStompFrame × Unit) :=
  ((self.1.parseHeaderLine line).1, ((self.1.parseHeaderLine line).2, ()))

/-- The constructor `QStompFrame(const QByteArray &frame)` of the base class:
inside it `parse` calls `QStompFrame::parseHeaderLine` for every line. -/
def QStompFrame.fromBytes (qt : QtLib) (frame : QByteArray) : QStompFrame :=
  let r := QStompFrame.parse qt QStompFrame.parseHeaderLineAt
    ({ m_header := [], m_valid := true, m_body := [] }, ()) frame
  { r.2.1 with m_valid := r.1 }

/-- Model of `QStompResponseFrame::setType`. -/
def QStompResponseFrame.setType (f : QStompResponseFrame) (type : ResponseType) :
    QStompResponseFrame :=
  { base := { f.base with m_valid := decide (type ≠ .ResponseInvalid) }, m_type := type }

/-- The constructor `QStompResponseFrame(ResponseType type)`. -/
def QStompResponseFrame.ofType (type : ResponseType) : QStompResponseFrame :=
  QStompResponseFrame.setType { base := QStompFrame.new, m_type := .ResponseInvalid } type

/-- Model of `QStompResponseFrame::toByteArray`. -/
def QStompResponseFrame.toByteArray (f : QStompResponseFrame) : QByteArray :=
  if !f.isValid then []
  else
    match f.m_type with
    | .ResponseInvalid => []
    | .ResponseConnected => ascii "CONNECTED\n" ++ f.base.toByteArray
    | .ResponseMessage => ascii "MESSAGE\n" ++ f.base.toByteArray
    | .ResponseReceipt => ascii "RECEIPT\n" ++ f.base.toByteArray
    | .ResponseError => ascii "ERROR\n" ++ f.base.toByteArray

/-- The enumeration `QStompRequestFrame::RequestType`. -/
inductive RequestType where
  | RequestConnect
  | RequestSend
  | RequestSubscribe
  | RequestUnsubscribe
  | RequestBegin
  | RequestCommit
  | RequestAbort
  | RequestAck
  | RequestDisconnect
  | RequestInvalid
  deriving DecidableEq

/-- A `QStompRequestFrame`: the base frame and `dd->m_type`. -/
structure QStompRequestFrame where
  base : QStompFrame
  m_type : RequestType
  deriving DecidableEq

/-- Model of `QStompRequestFrame::parseHeaderLine`. -/
def QStompRequestFrame.parseHeaderLine (self : QStompFrame × RequestType)
    (line : QByteArray) (number : Nat) : Bool × (QStompFrame × RequestType) :=
  if number ≠ 0 then
    let r := self.1.parseHeaderLine line
    (r.1, (r.2, self.2))
  else if line = ascii "CONNECT" then (true, (self.1, .RequestConnect))
  else if line = ascii "SEND" then (true, (self.1, .RequestSend))
  else if line = ascii "SUBSCRIBE" then (true, (self.1, .RequestSubscribe))
  else if line = ascii "UNSUBSCRIBE" then (true, (self.1, .RequestUnsubscribe))
  else if line = ascii "BEGIN" then (true, (self.1, .RequestBegin))
  else if line = ascii "COMMIT" then (true, (self.1, .RequestCommit))
  else if line = ascii "ABORT" then (true, (self.1, .RequestAbort))
  else if line = ascii "ACK" then (true, (self.1, .RequestAck))
  else if line = ascii "DISCONNECT" then (true, (self.1, .RequestDisconnect))
  else (false, self)

/-- The constructor `QStompRequestFrame(const QByteArray &frame)`: a default
base frame, then `setValid(parse(frame))`, with the override
`QStompRequestFrame::parseHeaderLine`; `m_type` starts as `RequestInvalid` in
the model. -/
def QStompRequestFrame.fromBytes (qt : QtLib) (frame : QByteArray) : QStompRequestFrame :=
  let r := QStompFrame.parse qt QStompRequestFrame.parseHeaderLine
    (QStompFrame.new, RequestType.RequestInvalid) frame
  { base := { r.2.1 with m_valid := r.1 }, m_type := r.2.2 }

/-- Model of `QStompFrame::isValid` on a request frame. -/
def QStompRequestFrame.isValid (f : QStompRequestFrame) : Bool := f.base.m_valid

/-- Model of `QStompRequestFrame::setType`. -/
def QStompRequestFrame.setType (f : QStompRequestFrame) (type : RequestType) :
    QStompRequestFrame :=
  { base := { f.base with m_valid := decide (type ≠ .RequestInvalid) }, m_type := type }

/-- The constructor `QStompRequestFrame(RequestType type)`. -/
def QStompRequestFrame.ofType (type : RequestType) : QStompRequestFrame :=
  QStompRequestFrame.setType { base := QStompFrame.new, m_type := .RequestInvalid } type

/-- Model of `QStompRequestFrame::toByteArray`. -/
def QStompRequestFrame.toByteArray (f : QStompRequestFrame) : QByteArray :=
  if !f.isValid then []
  else
    match f.m_type with
    | .RequestInvalid => []
    | .RequestConnect => ascii "CONNECT\n" ++ f.base.toByteArray
    | .RequestSend => ascii "SEND\n" ++ f.base.toByteArray
    | .RequestSubscribe => ascii "SUBSCRIBE\n" ++ f.base.toByteArray
    | .RequestUnsubscribe => ascii "UNSUBSCRIBE\n" ++ f.base.toByteArray
    | .RequestBegin => ascii "BEGIN\n" ++ f.base.toByteArray
    | .RequestCommit => ascii "COMMIT\n" ++ f.base.toByteArray
    | .RequestAbort => ascii "ABORT\n" ++ f.base.toByteArray
    | .RequestAck => ascii "ACK\n" ++ f.base.toByteArray
    | .RequestDisconnect => ascii "DISCONNECT\n" ++ f.base.toByteArray

/-! ## Vocabulary of the statements about frames -/

/-- A response frame built through the public interface: the constructor
taking a type, then `setHeaderValues` and `setRawBody`. -/
def QStompResponseFrame.build (type : ResponseType) (header : QStompHeaderList)
    (body : QByteArray) : QStompResponseFrame :=
  { QStompResponseFrame.ofType type with
    base := ((QStompResponseFrame.ofType type).base.setHeaderValues header).setRawBody body }

/-- A request frame built through the public interface. -/
def QStompRequestFrame.build (type : RequestType) (header : QStompHeaderList)
    (body : QByteArray) : QStompRequestFrame :=
  { QStompRequestFrame.ofType type with
    base := ((QStompRequestFrame.ofType type).base.setHeaderValues header).setRawBody body }

/-- The command tokens of request frames. -/
def REQUEST_COMMANDS : List QByteArray :=
  [ascii "CONNECT", ascii "SEND", ascii "SUBSCRIBE", ascii "UNSUBSCRIBE", ascii "BEGIN",
   ascii "COMMIT", ascii "ABORT", ascii "ACK", ascii "DISCONNECT"]

/-- The request type a command token stands for. -/
def requestTypeOf (cmd : QByteArray) : RequestType :=
  if cmd = ascii "CONNECT" then .RequestConnect
  else if cmd = ascii "SEND" then .RequestSend
  else if cmd = ascii "SUBSCRIBE" then .RequestSubscribe
  else if cmd = ascii "UNSUBSCRIBE" then .RequestUnsubscribe
  else if cmd = ascii "BEGIN" then .RequestBegin
  else if cmd = ascii "COMMIT" then .RequestCommit
  else if cmd = ascii "ABORT" then .RequestAbort
  else if cmd = ascii "ACK" then .RequestAck
  else if cmd = ascii "DISCONNECT" then .RequestDisconnect
  else .RequestInvalid

/-- The key is `login` or `passcode`, in any letter case. -/
def isCredentialKey (key : QByteArray) : Prop :=
  toLower key = ascii "login" ∨ toLower key = ascii "passcode"

instance (key : QByteArray) : Decidable (isCredentialKey key) := by
  unfold isCredentialKey; infer_instance

/-- The header entry `kv` matches `key` without regard to letter case. -/
def matchesKey (key : QByteArray) (kv : QByteArray × QByteArray) : Prop :=
  toLower kv.1 = toLower key

instance (key : QByteArray) (kv : QByteArray × QByteArray) : Decidable (matchesKey key kv) := by
  unfold matchesKey; infer_instance

/-- The line of a header on the wire, without its newline: no space after
the colon for `login` and `passcode`, one space for the other keys. -/
def headerLine (kv : QByteArray × QByteArray) : QByteArray :=
  if isCredentialKey kv.1 then kv.1 ++ [COLON] ++ kv.2 else kv.1 ++ [COLON, 32] ++ kv.2

/-- The kinds of frame objects that can be constructed from a byte range. -/
inductive FrameKind where
  | plain
  | response
  | request
  deriving DecidableEq

/-- The base-class data (headers, validity, raw body) of the frame of kind
`kind` constructed from the byte range `frame`. -/
def parsedBase (qt : QtLib) (kind : FrameKind) (frame : QByteArray) : QStompFrame :=
  match kind with
  | .plain => QStompFrame.fromBytes qt frame
  | .response => (QStompResponseFrame.fromBytes qt frame).base
  | .request => (QStompRequestFrame.fromBytes qt frame).base

/-- A header that serialisation and parsing carry over unchanged: the key has
no colon, no newline and no white space at its ends, the value has no
newline, and, unless the key is `login` or `passcode`, no white space at its
ends. -/
def headerRoundTrips (kv : QByteArray × QByteArray) : Prop :=
  COLON ∉ kv.1 ∧ LF ∉ kv.1 ∧ trimmed kv.1 = kv.1 ∧ LF ∉ kv.2 ∧
    (isCredentialKey kv.1 ∨ trimmed kv.2 = kv.2)

instance (kv : QByteArray × QByteArray) : Decidable (headerRoundTrips kv) := by
  unfold headerRoundTrips; infer_instance

/-- The body length agrees with the `content-length` header, if there is
one: the value of the first such header converts to the length of the body,
which is a valid `int` size. -/
def contentLengthAgrees (qt : QtLib) (header : QStompHeaderList) (body : QByteArray) : Prop :=
  (QStompFrame.hasContentLength { m_header := header, m_valid := true, m_body := body } = true) →
    qt.toUInt (QStompFrame.headerValue { m_header := header, m_valid := true, m_body := body }
      (ascii "content-length")) = some body.length ∧ body.length < 2 ^ 31

instance (qt : QtLib) (header : QStompHeaderList) (body : QByteArray) :
    Decidable (contentLengthAgrees qt header body) := by
  unfold contentLengthAgrees; infer_instance

/-! ## Vocabulary of the statements -/

/-- The pattern `pat` occurs in `b` at offset `i` and at no smaller offset. -/
def firstAt (pat b : QByteArray) (i : Nat) : Prop :=
  pat <+: b.drop i ∧ i ≤ b.length ∧ ∀ j < i, ¬ pat <+: b.drop j

instance (pat b : QByteArray) (i : Nat) : Decidable (firstAt pat b i) := by
  unfold firstAt; infer_instance

/-- The pattern `pat` occurs nowhere in `b`. -/
def absent (pat b : QByteArray) : Prop :=
  ∀ j ≤ b.length, ¬ pat <+: b.drop j

instance (pat b : QByteArray) : Decidable (absent pat b) := by
  unfold absent; infer_instance

/-- The buffer `b` begins with a command token followed by a newline. -/
def beginsWithCommand (b : QByteArray) : Prop :=
  ∃ c ∈ VALID_COMMANDS, (c ++ [LF]) <+: b

instance (b : QByteArray) : Decidable (beginsWithCommand b) := by
  unfold beginsWithCommand; infer_instance

/-- The command tokens of response frames. -/
def RESPONSE_COMMANDS : List QByteArray :=
  [ascii "CONNECTED", ascii "MESSAGE", ascii "RECEIPT", ascii "ERROR"]

/-- The response type a command token stands for. -/
def responseTypeOf (cmd : QByteArray) : ResponseType :=
  if cmd = ascii "CONNECTED" then .ResponseConnected
  else if cmd = ascii "MESSAGE" then .ResponseMessage
  else if cmd = ascii "RECEIPT" then .ResponseReceipt
  else if cmd = ascii "ERROR" then .ResponseError
  else .ResponseInvalid

/-- The header block of a frame: the command line and the header lines,
joined by newlines. -/
def headerBlock : QByteArray → List QByteArray → QByteArray
  | cmd, [] => cmd
  | cmd, l :: ls => cmd ++ LF :: headerBlock l ls

/-- The wire bytes of a frame without its terminator, by the wire grammar:
command line, header lines, blank line, body. -/
def frameBytes (cmd : QByteArray) (lines : List QByteArray) (body : QByteArray) : QByteArray :=
  headerBlock cmd lines ++ LF :: LF :: body

/-- A well-formed response frame: a response command line and header lines
that each contain a colon (and, being lines, no newline). -/
def wellFormedResponse (cmd : QByteArray) (lines : List QByteArray) : Prop :=
  cmd ∈ RESPONSE_COMMANDS ∧ ∀ l ∈ lines, COLON ∈ l ∧ LF ∉ l

instance (cmd : QByteArray) (lines : List QByteArray) : Decidable (wellFormedResponse cmd lines) := by
  unfold wellFormedResponse; infer_instance

/-! ## Content encoding, and chunked delivery -/

/-- Model of `QStompFrame::hasContentEncoding`, which looks up the key
`"content-length"`. -/
def QStompFrame.hasContentEncoding (f : QStompFrame) : Bool :=
  f.headerHasKey (ascii "content-length")

/-- Model of `QStompFrame::contentEncoding`. -/
def QStompFrame.contentEncoding (f : QStompFrame) : QByteArray :=
  f.headerValue (ascii "content-encoding")

/-- Model of `QStompFrame::setContentEncoding(const QByteArray &name)`; the
text codec the function also selects is not part of the model. -/
def QStompFrame.setContentEncoding (f : QStompFrame) (name : QByteArray) : QStompFrame :=
  f.setHeaderValue (ascii "content-encoding") name

/-- The transport delivering `chunks` one after the other, `socketReadyRead`
running on each: the final state, or `none` when a read loop runs out of
fuel. -/
def feedChunks (qt : QtLib) : QStompClientPrivate → List QByteArray → Option QStompClientPrivate
  | d, [] => some d
  | d, c :: cs =>
    match socketReadyRead qt d c with
    | some (d1, _) => feedChunks qt d1 cs
    | none => none

/-- The byte stream of frames that are each followed by the terminator NUL
newline. -/
def streamOf (frames : List QByteArray) : QByteArray :=
  (frames.map fun F => F ++ [NUL, LF]).flatten

/-- The chunk ends with a NUL byte. -/
def endsWithNUL (c : QByteArray) : Prop := c.getLast? = some NUL

instance (c : QByteArray) : Decidable (endsWithNUL c) := by
  unfold endsWithNUL; infer_instance

/-- The command line, header lines and body of a frame on the wire. -/
abbrev WireFrame := QByteArray × List QByteArray × QByteArray

/-- The wire bytes of a frame given by its parts, without the terminator. -/
def WireFrame.bytes (w : WireFrame) : QByteArray := frameBytes w.1 w.2.1 w.2.2

/-! ## Facts about `indexOf` -/

theorem indexOf_cons (pat : QByteArray) (c : Byte) (cs : QByteArray) :
    indexOf pat (c :: cs) =
      if pat <+: c :: cs then some 0 else (indexOf pat cs).map (· + 1) := by
  simp [indexOf]

theorem indexOf_eq_some_iff (pat b : QByteArray) (i : Nat) :
    indexOf pat b = some i ↔ firstAt pat b i := by
  induction b generalizing i with
  | nil =>
    cases pat with
    | nil =>
      simp only [indexOf, List.isEmpty_nil, if_true, Option.some.injEq, firstAt]
      constructor
      · rintro rfl; simp
      · rintro ⟨-, h, -⟩; simp at h; exact h.symm
    | cons p ps =>
      simp [indexOf, firstAt]
  | cons c cs ih =>
    rw [indexOf_cons]
    by_cases hp : pat <+: c :: cs
    · rw [if_pos hp]
      constructor
      · intro h
        cases h
        exact ⟨by simpa using hp, by simp, by simp⟩
      · rintro ⟨-, -, h3⟩
        cases i with
        | zero => rfl
        | succ k => exact absurd hp (by simpa using h3 0 (Nat.succ_pos k))
    · rw [if_neg hp]
      cases i with
      | zero =>
        constructor
        · intro h
          cases hq : indexOf pat cs <;> simp [hq] at h
        · rintro ⟨h1, -, -⟩
          exact absurd (by simpa using h1) hp
      | succ k =>
        constructor
        · intro h
          have hk : indexOf pat cs = some k := by
            cases hq : indexOf pat cs <;> simp [hq] at h
            subst h; rfl
          obtain ⟨h1, h2, h3⟩ := (ih k).1 hk
          refine ⟨by simpa using h1, by simpa using h2, ?_⟩
          intro j hj
          cases j with
          | zero => simpa using hp
          | succ m => simpa using h3 m (by omega)
        · rintro ⟨h1, h2, h3⟩
          have hk : indexOf pat cs = some k := by
            refine (ih k).2 ⟨by simpa using h1, by simpa using h2, ?_⟩
            intro j hj
            simpa using h3 (j + 1) (by omega)
          simp [hk]

theorem indexOf_eq_none_iff (pat b : QByteArray) :
    indexOf pat b = none ↔ absent pat b := by
  induction b with
  | nil =>
    cases pat with
    | nil => simp [indexOf, absent]
    | cons p ps => simp [indexOf, absent]
  | cons c cs ih =>
    rw [indexOf_cons]
    by_cases hp : pat <+: c :: cs
    · rw [if_pos hp]
      simp only [false_iff, absent, reduceCtorEq]
      intro h
      exact absurd hp (by simpa using h 0 (Nat.zero_le _))
    · rw [if_neg hp]
      simp only [Option.map_eq_none', ih, absent]
      constructor
      · intro h j hj
        cases j with
        | zero => simpa using hp
        | succ m => simpa using h m (by simpa using hj)
      · intro h j hj
        simpa using h (j + 1) (by simpa using hj)

theorem indexOf_none_of_not_mem (x : Byte) (ps b : QByteArray) (h : x ∉ b) :
    indexOf (x :: ps) b = none := by
  induction b with
  | nil => simp [indexOf]
  | cons c cs ih =>
    have hc : x ≠ c := fun e => h (by simp [e])
    have hcs : x ∉ cs := fun e => h (by simp [e])
    simp [indexOf_cons, hc, ih hcs]

theorem indexOf_append_of_not_mem (x : Byte) (ps pre rest : QByteArray) (h : x ∉ pre) :
    indexOf (x :: ps) (pre ++ rest) = (indexOf (x :: ps) rest).map (· + pre.length) := by
  induction pre with
  | nil => simp
  | cons c cs ih =>
    have hc : x ≠ c := fun e => h (by simp [e])
    have hcs : x ∉ cs := fun e => h (by simp [e])
    simp only [List.cons_append, indexOf_cons, List.cons_prefix_cons, hc, false_and, if_false,
      ih hcs, Option.map_map, List.length_cons]
    rfl

theorem indexOf_single_append (x : Byte) (pre rest : QByteArray) (h : x ∉ pre) :
    indexOf [x] (pre ++ x :: rest) = some pre.length := by
  rw [indexOf_append_of_not_mem x [] pre _ h]
  simp [indexOf_cons]

theorem indexOf_pair_append (x y : Byte) (pre rest : QByteArray) (h : x ∉ pre) :
    indexOf [x, y] (pre ++ x :: y :: rest) = some pre.length := by
  rw [indexOf_append_of_not_mem x [y] pre _ h]
  simp [indexOf_cons]

theorem indexOf_pair_append_single (x y : Byte) (pre : QByteArray) (h : x ∉ pre) :
    indexOf [x, y] (pre ++ [x]) = none := by
  rw [indexOf_append_of_not_mem x [y] pre _ h]
  simp [indexOf_cons, indexOf]

/-- The length of a match: an occurrence found by `indexOf` lies inside the array. -/
theorem indexOf_add_length_le (pat b : QByteArray) (i : Nat) (h : indexOf pat b = some i) :
    i + pat.length ≤ b.length := by
  obtain ⟨h1, h2, -⟩ := (indexOf_eq_some_iff pat b i).1 h
  have := h1.length_le
  simp only [List.length_drop] at this
  omega

/-- Searching for the first byte of a pattern from the offset where the
pattern was found gives that same offset. -/
theorem indexOfFrom_head_of_indexOf (x : Byte) (ps b : QByteArray) (i : Nat)
    (h : indexOf (x :: ps) b = some i) : indexOfFrom [x] b i = some i := by
  obtain ⟨h1, h2, -⟩ := (indexOf_eq_some_iff _ b i).1 h
  obtain ⟨t, ht⟩ := h1
  unfold indexOfFrom
  rw [if_pos h2, ← ht]
  simp [indexOf_cons]

theorem le_of_indexOfFrom (pat b : QByteArray) (start i : Nat)
    (h : indexOfFrom pat b start = some i) : start ≤ i := by
  unfold indexOfFrom at h
  split at h
  · cases hq : indexOf pat (b.drop start) with
    | none => simp [hq] at h
    | some k => simp [hq] at h; omega
  · cases h

/-- The content-length block of `findMessageBytes` never returns: the search
for the end of the header line starts on the newline that begins
`"\ncontent-length"`, so `nl` is `clPos` and `nl > colon` is false. -/
theorem contentLengthFrame_eq_none (qt : QtLib) (buf : QByteArray) :
    contentLengthFrame qt buf = none := by
  unfold contentLengthFrame
  split
  · rename_i clPos headerEnd hcl hhe
    split
    · have hnl : indexOfFrom [LF] buf clPos = some clPos :=
        indexOfFrom_head_of_indexOf LF _ buf clPos hcl
      split
      · rename_i colon nl hcolon hnl2
        rw [hnl] at hnl2
        cases hnl2
        have := le_of_indexOfFrom _ _ _ _ hcolon
        rw [if_neg (by omega)]
      · rfl
    · rfl
  · rfl

/-! ## Facts about the buffer sanity check loop -/

theorem valid_command_clean : ∀ c ∈ VALID_COMMANDS, LF ∉ c ∧ NUL ∉ c := by
  decide

theorem sanityStep_nil : sanityStep [] = .ret0 := rfl

theorem sanityStep_of_begins (b : QByteArray) (h : beginsWithCommand b) :
    sanityStep b = .brk := by
  obtain ⟨c, hc, t, rfl⟩ := h
  have hlf := (valid_command_clean c hc).1
  have hidx : indexOf [LF] (c ++ [LF] ++ t) = some c.length := by
    simpa using indexOf_single_append LF c t hlf
  unfold sanityStep
  rw [if_neg (by simp)]
  have htake : List.take c.length (c ++ [LF] ++ t) = c := by simp
  simp only [hidx, left, htake]
  rw [if_pos (by simpa using hc)]

theorem sanityStep_of_no_newline (b : QByteArray) (hne : b ≠ []) (h : LF ∉ b) :
    sanityStep b = .brk := by
  unfold sanityStep
  rw [if_neg (by simpa using hne), indexOf_none_of_not_mem LF [] b h]

theorem sanityStep_again_lt (b rest : QByteArray) (h : sanityStep b = .again rest) :
    rest.length < b.length := by
  unfold sanityStep at h
  by_cases hne : b.isEmpty = true
  · simp [hne] at h
  · have hpos : 0 < b.length := by
      cases b with
      | nil => simp at hne
      | cons c cs => simp
    cases h1 : indexOf [LF] b with
    | none => simp [hne, h1] at h
    | some nl =>
      by_cases hv : left b nl ∈ VALID_COMMANDS
      · simp [hne, h1, hv] at h
      · cases h2 : indexOf [NUL, LF] b with
        | some s =>
          simp [hne, h1, hv, h2] at h
          rw [← h]
          simp only [removeFront, List.length_drop]
          omega
        | none =>
          cases h3 : indexOf [NUL] b with
          | some s =>
            simp [hne, h1, hv, h2, h3] at h
            rw [← h]
            simp only [removeFront, List.length_drop]
            omega
          | none =>
            simp [hne, h1, hv, h2, h3] at h
            subst h
            simpa using hpos

theorem sanityLoop_isSome (fuel : Nat) (b : QByteArray) (h : b.length < fuel) :
    ∃ r, sanityLoop fuel b = some r := by
  induction fuel generalizing b with
  | zero => omega
  | succ n ih =>
    unfold sanityLoop
    cases hs : sanityStep b with
    | ret0 => exact ⟨_, rfl⟩
    | brk => exact ⟨_, rfl⟩
    | again rest =>
      have := sanityStep_again_lt b rest hs
      exact ih rest (by omega)

theorem sanityLoop_mono (n k : Nat) (b : QByteArray) (r : Bool × QByteArray)
    (h : sanityLoop n b = some r) : sanityLoop (n + k) b = some r := by
  induction n generalizing b with
  | zero => simp [sanityLoop] at h
  | succ n ih =>
    rw [Nat.succ_add]
    unfold sanityLoop at h ⊢
    cases hs : sanityStep b with
    | ret0 => simpa [hs] using h
    | brk => simpa [hs] using h
    | again rest =>
      simp only [hs] at h ⊢
      exact ih rest h

/-- With enough fuel the loop's result does not depend on the fuel. -/
theorem sanityLoop_eq (fuel : Nat) (b : QByteArray) (h : b.length < fuel) :
    sanityLoop fuel b = sanityLoop (b.length + 1) b := by
  obtain ⟨r, hr⟩ := sanityLoop_isSome (b.length + 1) b (Nat.lt_succ_self _)
  obtain ⟨k, rfl⟩ : ∃ k, fuel = b.length + 1 + k := ⟨fuel - (b.length + 1), by omega⟩
  rw [hr, sanityLoop_mono _ k b r hr]

theorem findMessageBytes_nil (qt : QtLib) : findMessageBytes qt [] = (0, []) := rfl

theorem findMessageBytes_of_brk (qt : QtLib) (b : QByteArray) (h : sanityStep b = .brk) :
    findMessageBytes qt b = (terminatorFrame b, b) := by
  simp [findMessageBytes, sanityLoop, h, contentLengthFrame_eq_none]

theorem findMessageBytes_of_again (qt : QtLib) (b rest : QByteArray)
    (h : sanityStep b = .again rest) :
    findMessageBytes qt b = findMessageBytes qt rest := by
  have hlt := sanityStep_again_lt b rest h
  have : sanityLoop (b.length + 1) b = sanityLoop (rest.length + 1) rest := by
    rw [← sanityLoop_eq b.length rest hlt]
    simp [sanityLoop, h]
  obtain ⟨⟨flag, b1⟩, hr⟩ := sanityLoop_isSome (rest.length + 1) rest (Nat.lt_succ_self _)
  simp only [findMessageBytes, this, hr]
  cases flag <;> rfl

theorem terminatorFrame_pair (pre rest : QByteArray) (h : NUL ∉ pre) :
    terminatorFrame (pre ++ NUL :: LF :: rest) = pre.length + 2 := by
  simp [terminatorFrame, indexOf_pair_append NUL LF pre rest h]

theorem terminatorFrame_lone (pre : QByteArray) (h : NUL ∉ pre) :
    terminatorFrame (pre ++ [NUL]) = pre.length + 1 := by
  simp [terminatorFrame, indexOf_pair_append_single NUL LF pre h,
    indexOf_single_append NUL pre [] h]

theorem terminatorFrame_none (b : QByteArray) (h : NUL ∉ b) : terminatorFrame b = 0 := by
  simp [terminatorFrame, indexOf_none_of_not_mem NUL _ b h]

theorem indexOf_none_of_mem_pat (pat b : QByteArray) (y : Byte) (hy : y ∈ pat) (h : y ∉ b) :
    indexOf pat b = none := by
  rw [indexOf_eq_none_iff]
  intro j _ hp
  exact h (List.mem_of_mem_drop (hp.subset hy))

theorem findMessageBytes_aligned (qt : QtLib) (b : QByteArray) (h : beginsWithCommand b) :
    findMessageBytes qt b = (terminatorFrame b, b) :=
  findMessageBytes_of_brk qt b (sanityStep_of_begins b h)

theorem findMessageBytes_no_newline (qt : QtLib) (b : QByteArray) (h : LF ∉ b) :
    findMessageBytes qt b = (terminatorFrame b, b) := by
  cases b with
  | nil => rfl
  | cons c cs => exact findMessageBytes_of_brk qt _ (sanityStep_of_no_newline _ (by simp) h)

/-- The terminator search, against the first occurrences it looks for. -/
theorem terminatorFrame_spec (b : QByteArray) :
    (∀ e, firstAt [NUL, LF] b e → terminatorFrame b = e + 2) ∧
    (absent [NUL, LF] b → ∀ e, firstAt [NUL] b e → terminatorFrame b = e + 1) ∧
    (absent [NUL, LF] b → absent [NUL] b → terminatorFrame b = 0) := by
  refine ⟨?_, ?_, ?_⟩
  · intro e he
    simp [terminatorFrame, (indexOf_eq_some_iff _ _ _).2 he]
  · intro h e he
    simp [terminatorFrame, (indexOf_eq_none_iff _ _).2 h, (indexOf_eq_some_iff _ _ _).2 he]
  · intro h h0
    simp [terminatorFrame, (indexOf_eq_none_iff _ _).2 h, (indexOf_eq_none_iff _ _).2 h0]

theorem absent_single_iff (x : Byte) (b : QByteArray) : absent [x] b ↔ x ∉ b := by
  constructor
  · intro h hx
    obtain ⟨s, t, rfl⟩ := List.append_of_mem hx
    refine h s.length (by simp) ?_
    simp
  · intro h
    exact (indexOf_eq_none_iff _ _).1 (indexOf_none_of_not_mem x [] b h)

/-- A prefix of a buffer that begins with a command line is empty, or has no
newline yet, or begins with that command line itself. -/
theorem prefix_of_begins (F P : QByteArray) (hF : beginsWithCommand F) (hP : P <+: F) :
    LF ∉ P ∨ beginsWithCommand P := by
  by_cases hlf : LF ∈ P
  · right
    obtain ⟨c, hc, hcF⟩ := hF
    refine ⟨c, hc, ?_⟩
    rcases List.prefix_or_prefix_of_prefix hcF hP with h | h
    · exact h
    · -- `P` is a prefix of `c ++ [LF]` and contains a newline, so it is all of it
      have hclean := (valid_command_clean c hc).1
      obtain ⟨t, ht⟩ := h
      have hlen : P.length ≤ c.length ∨ P.length = c.length + 1 := by
        have := congrArg List.length ht
        simp at this
        omega
      rcases hlen with hl | hl
      · exfalso
        have hPc : P <+: c := by
          have h1 : P <+: c ++ [LF] := ⟨t, ht⟩
          exact List.prefix_of_prefix_length_le h1 (List.prefix_append c [LF]) hl
        exact hclean (hPc.subset hlf)
      · have : t = [] := by
          have := congrArg List.length ht
          simp at this
          exact List.length_eq_zero.1 (by omega)
        subst this
        simp at ht
        rw [ht]
  · exact Or.inl hlf

theorem findMessageBytes_of_prefix_begins (qt : QtLib) (F P : QByteArray) (hF : beginsWithCommand F)
    (hP : P <+: F) : findMessageBytes qt P = (terminatorFrame P, P) := by
  rcases prefix_of_begins F P hF hP with h | h
  · exact findMessageBytes_no_newline qt P h
  · exact findMessageBytes_aligned qt P h

theorem beginsWithCommand_append (b t : QByteArray) (h : beginsWithCommand b) :
    beginsWithCommand (b ++ t) := by
  obtain ⟨c, hc, hp⟩ := h
  exact ⟨c, hc, hp.trans (List.prefix_append b t)⟩

/-! ## Well-formed frames on the wire -/

theorem response_command_valid : ∀ c ∈ RESPONSE_COMMANDS, c ∈ VALID_COMMANDS := by
  decide

theorem headerBlock_eq_append (cmd : QByteArray) (lines : List QByteArray) :
    ∃ t, headerBlock cmd lines = cmd ++ t := by
  cases lines with
  | nil => exact ⟨[], by simp [headerBlock]⟩
  | cons l ls => exact ⟨LF :: headerBlock l ls, rfl⟩

theorem frameBytes_begins (cmd : QByteArray) (lines : List QByteArray) (body : QByteArray)
    (h : cmd ∈ VALID_COMMANDS) : beginsWithCommand (frameBytes cmd lines body) := by
  refine ⟨cmd, h, ?_⟩
  cases lines with
  | nil => exact ⟨LF :: body, by simp [frameBytes, headerBlock]⟩
  | cons l ls => exact ⟨headerBlock l ls ++ LF :: LF :: body, by simp [frameBytes, headerBlock]⟩

theorem split_of_not_mem (sep : Byte) (b : QByteArray) (h : sep ∉ b) : split sep b = [b] := by
  induction b with
  | nil => rfl
  | cons c cs ih =>
    have hc : c ≠ sep := fun e => h (by simp [e])
    have hcs : sep ∉ cs := fun e => h (by simp [e])
    simp [split, hc, ih hcs]

theorem split_append (sep : Byte) (pre rest : QByteArray) (h : sep ∉ pre) :
    split sep (pre ++ sep :: rest) = pre :: split sep rest := by
  induction pre with
  | nil => simp [split]
  | cons c cs ih =>
    have hc : c ≠ sep := fun e => h (by simp [e])
    have hcs : sep ∉ cs := fun e => h (by simp [e])
    simp [split, hc, ih hcs]

theorem split_headerBlock (cmd : QByteArray) (lines : List QByteArray) (hc : LF ∉ cmd)
    (hl : ∀ l ∈ lines, LF ∉ l) : split LF (headerBlock cmd lines) = cmd :: lines := by
  induction lines generalizing cmd with
  | nil => exact split_of_not_mem LF cmd hc
  | cons l ls ih =>
    rw [headerBlock, split_append LF cmd _ hc,
      ih l (hl l (by simp)) (fun m hm => hl m (by simp [hm]))]

theorem indexOf_sep_frameBytes (cmd : QByteArray) (lines : List QByteArray) (body : QByteArray)
    (hc : LF ∉ cmd) (hl : ∀ l ∈ lines, l ≠ [] ∧ LF ∉ l) :
    indexOf [LF, LF] (frameBytes cmd lines body) = some (headerBlock cmd lines).length := by
  unfold frameBytes
  induction lines generalizing cmd with
  | nil => exact indexOf_pair_append LF LF cmd body hc
  | cons l ls ih =>
    obtain ⟨hne, hlf⟩ := hl l (by simp)
    have ih1 := ih l hlf (fun m hm => hl m (by simp [hm]))
    obtain ⟨t, ht⟩ := headerBlock_eq_append l ls
    cases l with
    | nil => exact absurd rfl hne
    | cons x xs =>
      have hx : LF ≠ x := fun e => hlf (by simp [e])
      rw [headerBlock, List.append_assoc, indexOf_append_of_not_mem LF [LF] cmd _ hc,
        List.cons_append, indexOf_cons, ih1]
      rw [ht]
      simp [hx]
      omega

/-! ## Facts about parsing -/

theorem split_ne_nil (sep : Byte) (b : QByteArray) : split sep b ≠ [] := by
  induction b with
  | nil => simp [split]
  | cons c cs ih =>
    unfold split
    split
    · simp
    · split <;> simp

/-- Validity and the derived part of `parse` are those of the loop over the
header lines. -/
theorem parse_eq_parseLines {τ : Type} (qt : QtLib)
    (phl : QStompFrame × τ → QByteArray → Nat → Bool × (QStompFrame × τ))
    (self : QStompFrame × τ) (frame : QByteArray) (h : Nat)
    (hh : indexOf [LF, LF] frame = some h) :
    (QStompFrame.parse qt phl self frame).1 =
        (parseLines phl (split LF (left frame h)) 0
          ({ self.1 with m_body := midFrom frame (h + 2) }, self.2)).1 ∧
      (QStompFrame.parse qt phl self frame).2.2 =
        (parseLines phl (split LF (left frame h)) 0
          ({ self.1 with m_body := midFrom frame (h + 2) }, self.2)).2.2 := by
  unfold QStomp.QStompFrame.parse
  simp only [hh]
  have hne : (split LF (left frame h)).isEmpty = false := by
    cases hs : split LF (left frame h) with
    | nil => exact absurd hs (split_ne_nil _ _)
    | cons a as => rfl
  simp only [hne, Bool.false_eq_true, if_false]
  generalize parseLines phl (split LF (left frame h)) 0
    ({ self.1 with m_body := midFrom frame (h + 2) }, self.2) = r
  obtain ⟨ok, s2⟩ := r
  cases ok
  · exact ⟨rfl, rfl⟩
  · simp only
    split
    · exact ⟨rfl, rfl⟩
    · split <;> exact ⟨rfl, rfl⟩

theorem parse_of_no_separator {τ : Type} (qt : QtLib)
    (phl : QStompFrame × τ → QByteArray → Nat → Bool × (QStompFrame × τ))
    (self : QStompFrame × τ) (frame : QByteArray) (hh : indexOf [LF, LF] frame = none) :
    QStompFrame.parse qt phl self frame = (false, self) := by
  unfold QStomp.QStompFrame.parse
  simp only [hh]

theorem response_parseHeaderLine_zero (s : QStompFrame × ResponseType) (cmd : QByteArray)
    (h : cmd ∈ RESPONSE_COMMANDS) :
    QStompResponseFrame.parseHeaderLine s cmd 0 = (true, (s.1, responseTypeOf cmd)) := by
  simp only [RESPONSE_COMMANDS, List.mem_cons, List.mem_singleton, List.not_mem_nil,
    or_false] at h
  rcases h with rfl | rfl | rfl | rfl <;>
    simp [QStompResponseFrame.parseHeaderLine, responseTypeOf] <;> split_ifs <;> rfl

theorem parseHeaderLine_of_colon (f : QStompFrame) (line : QByteArray) (h : COLON ∈ line) :
    ∃ k v, f.parseHeaderLine line = (true, f.addHeaderValue k v) := by
  unfold QStomp.QStompFrame.parseHeaderLine
  cases hi : indexOf [COLON] line with
  | none =>
    exact absurd h ((absent_single_iff COLON line).1 ((indexOf_eq_none_iff _ _).1 hi))
  | some i =>
    simp only
    split
    · exact ⟨_, _, rfl⟩
    · exact ⟨_, _, rfl⟩

theorem parseLines_response_headers (lines : List QByteArray) (i : Nat) (hi : i ≠ 0)
    (h : ∀ l ∈ lines, COLON ∈ l) (f : QStompFrame) (ty : ResponseType) :
    ∃ f1, parseLines QStompResponseFrame.parseHeaderLine lines i (f, ty) = (true, (f1, ty)) ∧
      f1.m_body = f.m_body := by
  induction lines generalizing i f with
  | nil => exact ⟨f, rfl, rfl⟩
  | cons l ls ih =>
    obtain ⟨k, v, hkv⟩ := parseHeaderLine_of_colon f l (h l (by simp))
    obtain ⟨f1, h1, h2⟩ := ih (i + 1) (by omega) (fun m hm => h m (by simp [hm]))
      (f.addHeaderValue k v)
    refine ⟨f1, ?_, by rw [h2]; rfl⟩
    unfold parseLines
    simp only [QStompResponseFrame.parseHeaderLine, hi, ne_eq, not_false_eq_true, if_true, hkv]
    exact h1

/-- A well-formed response frame parses as valid, with the type of its
command line. -/
theorem fromBytes_wellFormed (qt : QtLib) (cmd : QByteArray) (lines : List QByteArray)
    (body : QByteArray) (h : wellFormedResponse cmd lines) :
    (QStompResponseFrame.fromBytes qt (frameBytes cmd lines body)).isValid = true ∧
      (QStompResponseFrame.fromBytes qt (frameBytes cmd lines body)).m_type =
        responseTypeOf cmd := by
  obtain ⟨hc, hl⟩ := h
  have hclf : LF ∉ cmd := (valid_command_clean cmd (response_command_valid cmd hc)).1
  have hsep := indexOf_sep_frameBytes cmd lines body hclf
    (fun l hm => ⟨fun e => by simpa [e] using (hl l hm).1, (hl l hm).2⟩)
  have hleft : left (frameBytes cmd lines body) (headerBlock cmd lines).length =
      headerBlock cmd lines := by simp [left, frameBytes]
  obtain ⟨p1, p2⟩ := parse_eq_parseLines qt QStompResponseFrame.parseHeaderLine
    (QStompFrame.new, ResponseType.ResponseInvalid) _ _ hsep
  rw [hleft, split_headerBlock cmd lines hclf (fun l hm => (hl l hm).2)] at p1 p2
  obtain ⟨f1, hf1, -⟩ := parseLines_response_headers lines 1 (by omega)
    (fun l hm => (hl l hm).1)
    { QStompFrame.new with
      m_body := (midFrom (frameBytes cmd lines body) ((headerBlock cmd lines).length + 2)) }
    (responseTypeOf cmd)
  have hpl : parseLines QStompResponseFrame.parseHeaderLine (cmd :: lines) 0
      ({ QStompFrame.new with
          m_body := (midFrom (frameBytes cmd lines body) ((headerBlock cmd lines).length + 2)) },
        ResponseType.ResponseInvalid) =
      (true, (f1, responseTypeOf cmd)) := by
    rw [parseLines, response_parseHeaderLine_zero _ cmd hc]
    exact hf1
  rw [hpl] at p1 p2
  exact ⟨p1, p2⟩

theorem indexOf_sep_append_term (X : QByteArray) :
    indexOf [LF, LF] (X ++ [NUL, LF]) = indexOf [LF, LF] X := by
  induction X with
  | nil => decide
  | cons x xs ih =>
    rw [List.cons_append, indexOf_cons, indexOf_cons, ih]
    cases xs with
    | nil => simp
    | cons y ys => simp

theorem parseHeaderLine_fst (f g : QStompFrame) (line : QByteArray) :
    (f.parseHeaderLine line).1 = (g.parseHeaderLine line).1 := by
  unfold QStomp.QStompFrame.parseHeaderLine
  cases indexOf [COLON] line with
  | none => rfl
  | some i => simp only; split <;> rfl

theorem response_parseHeaderLine_fst (s t : QStompFrame × ResponseType) (line : QByteArray)
    (i : Nat) :
    (QStompResponseFrame.parseHeaderLine s line i).1 =
      (QStompResponseFrame.parseHeaderLine t line i).1 := by
  unfold QStomp.QStompResponseFrame.parseHeaderLine
  split
  · exact parseHeaderLine_fst _ _ _
  · split_ifs <;> rfl

/-- Whether the header lines of a response frame parse does not depend on
the frame object they are parsed into. -/
theorem parseLines_response_fst (lines : List QByteArray) (i : Nat)
    (s t : QStompFrame × ResponseType) :
    (parseLines QStompResponseFrame.parseHeaderLine lines i s).1 =
      (parseLines QStompResponseFrame.parseHeaderLine lines i t).1 := by
  induction lines generalizing i s t with
  | nil => rfl
  | cons l ls ih =>
    have h := response_parseHeaderLine_fst s t l i
    unfold parseLines
    cases hs : QStompResponseFrame.parseHeaderLine s l i with
    | mk a s1 =>
      cases ht : QStompResponseFrame.parseHeaderLine t l i with
      | mk b t1 =>
        rw [hs, ht] at h
        simp only at h
        subst h
        cases a
        · rfl
        · exact ih (i + 1) s1 t1

/-- Appending the terminator to a byte range does not change whether the
range parses as a response frame. -/
theorem fromBytes_valid_append_term (qt : QtLib) (X : QByteArray) :
    (QStompResponseFrame.fromBytes qt (X ++ [NUL, LF])).isValid =
      (QStompResponseFrame.fromBytes qt X).isValid := by
  show (QStompFrame.parse qt QStompResponseFrame.parseHeaderLine _ (X ++ [NUL, LF])).1 =
    (QStompFrame.parse qt QStompResponseFrame.parseHeaderLine _ X).1
  cases hh : indexOf [LF, LF] X with
  | none =>
    rw [parse_of_no_separator qt _ _ _ hh,
      parse_of_no_separator qt _ _ _ ((indexOf_sep_append_term X).trans hh)]
  | some h =>
    have hle := indexOf_add_length_le _ _ _ hh
    have hleft : left (X ++ [NUL, LF]) h = left X h := by
      simp only [left]
      exact List.take_append_of_le_length (by omega)
    rw [(parse_eq_parseLines qt _ _ _ h hh).1,
      (parse_eq_parseLines qt _ _ _ h ((indexOf_sep_append_term X).trans hh)).1, hleft]
    exact parseLines_response_fst _ _ _ _

theorem prefix_of_not_mem (P G R : QByteArray) (x : Byte) (hP : P <+: G ++ x :: R)
    (hx : x ∉ P) : P <+: G := by
  rcases List.prefix_or_prefix_of_prefix hP (List.prefix_append G (x :: R)) with h | h
  · exact h
  · obtain ⟨t, rfl⟩ := h
    have ht : t <+: x :: R := (List.prefix_append_right_inj G).1 hP
    cases t with
    | nil => simp
    | cons y ys =>
      have : y = x := (List.cons_prefix_cons.1 ht).1
      exact absurd (by simp [this]) hx

/-- Resynchronisation step on garbage that ends at a terminator: the
garbage and the terminator are discarded. -/
theorem sanityStep_garbage (G R : QByteArray) (h0 : NUL ∉ G) (hG : ¬ beginsWithCommand G) :
    sanityStep (G ++ NUL :: LF :: R) = .again R := by
  have hmem : LF ∈ G ++ NUL :: LF :: R := by simp
  cases hnl : indexOf [LF] (G ++ NUL :: LF :: R) with
  | none =>
    exact absurd hmem ((absent_single_iff LF _).1 ((indexOf_eq_none_iff _ _).1 hnl))
  | some nl =>
    obtain ⟨h1, h2, -⟩ := (indexOf_eq_some_iff _ _ _).1 hnl
    have hcmd : left (G ++ NUL :: LF :: R) nl ∉ VALID_COMMANDS := by
      intro hv
      apply hG
      refine ⟨_, hv, ?_⟩
      have hpre : left (G ++ NUL :: LF :: R) nl ++ [LF] <+: G ++ NUL :: LF :: R := by
        obtain ⟨t, ht⟩ := h1
        refine ⟨t, ?_⟩
        have := List.take_append_drop nl (G ++ NUL :: LF :: R)
        rw [← ht] at this
        simpa [left] using this
      refine prefix_of_not_mem _ G (LF :: R) NUL hpre ?_
      have := (valid_command_clean _ hv).2
      simpa using this
    unfold sanityStep
    rw [if_neg (by simp)]
    simp only [hnl, indexOf_pair_append NUL LF G R h0]
    rw [if_neg (by simpa using hcmd)]
    simp [removeFront]

theorem findMessageBytes_garbage (qt : QtLib) (G R : QByteArray) (h0 : NUL ∉ G)
    (hG : ¬ beginsWithCommand G) :
    findMessageBytes qt (G ++ NUL :: LF :: R) = findMessageBytes qt R :=
  findMessageBytes_of_again qt _ _ (sanityStep_garbage G R h0 hG)

theorem findMessageBytes_frame (qt : QtLib) (F R : QByteArray) (hF : beginsWithCommand F)
    (h0 : NUL ∉ F) :
    findMessageBytes qt (F ++ NUL :: LF :: R) = (F.length + 2, F ++ NUL :: LF :: R) := by
  rw [findMessageBytes_aligned qt _ (beginsWithCommand_append F _ hF), terminatorFrame_pair F R h0]

/-! ## Facts about the read loop -/

theorem readLoop_stop (qt : QtLib) (fuel : Nat) (d : QStompClientPrivate) (g : Bool)
    (buf : QByteArray) (h : findMessageBytes qt d.m_buffer = (0, buf)) :
    readLoop qt (fuel + 1) d g = some ({ d with m_buffer := buf }, g) := by
  simp [readLoop, h]

theorem readLoop_step (qt : QtLib) (fuel : Nat) (d : QStompClientPrivate) (g : Bool)
    (n : Nat) (buf : QByteArray) (h : findMessageBytes qt d.m_buffer = (n + 1, buf)) :
    readLoop qt (fuel + 1) d g =
      readLoop qt fuel
        { m_buffer := removeFront buf (n + 1),
          m_framebuffer :=
            if (QStompResponseFrame.fromBytes qt (left buf (n + 1))).isValid
            then d.m_framebuffer ++ [QStompResponseFrame.fromBytes qt (left buf (n + 1))]
            else d.m_framebuffer,
          handed := d.handed ++ [left buf (n + 1)] }
        (g || (QStompResponseFrame.fromBytes qt (left buf (n + 1))).isValid) := by
  simp [readLoop, h]

/-- One pass of the read loop over a buffer that starts with an aligned,
NUL-free range followed by the terminator. -/
theorem readLoop_frame (qt : QtLib) (fuel : Nat) (F R : QByteArray)
    (q : List QStompResponseFrame) (hd : List QByteArray) (g : Bool)
    (hF : beginsWithCommand F) (h0 : NUL ∉ F) :
    readLoop qt (fuel + 1) { m_buffer := F ++ NUL :: LF :: R, m_framebuffer := q, handed := hd } g =
      readLoop qt fuel
        { m_buffer := R,
          m_framebuffer :=
            if (QStompResponseFrame.fromBytes qt (F ++ [NUL, LF])).isValid
            then q ++ [QStompResponseFrame.fromBytes qt (F ++ [NUL, LF])] else q,
          handed := hd ++ [F ++ [NUL, LF]] }
        (g || (QStompResponseFrame.fromBytes qt (F ++ [NUL, LF])).isValid) := by
  have hl : left (F ++ NUL :: LF :: R) (F.length + 1 + 1) = F ++ [NUL, LF] := by
    have : F ++ NUL :: LF :: R = (F ++ [NUL, LF]) ++ R := by simp
    rw [left, this, List.take_left']
    simp
  have hr : removeFront (F ++ NUL :: LF :: R) (F.length + 1 + 1) = R := by
    have : F ++ NUL :: LF :: R = (F ++ [NUL, LF]) ++ R := by simp
    rw [removeFront, this, List.drop_left']
    simp
  rw [readLoop_step qt fuel _ g (F.length + 1) _ (findMessageBytes_frame qt F R hF h0), hl, hr]

theorem readLoop_nil (qt : QtLib) (fuel : Nat) (q : List QStompResponseFrame)
    (hd : List QByteArray) (g : Bool) :
    readLoop qt (fuel + 1) { m_buffer := [], m_framebuffer := q, handed := hd } g =
      some ({ m_buffer := [], m_framebuffer := q, handed := hd }, g) :=
  readLoop_stop qt fuel _ g [] (findMessageBytes_nil qt)

theorem readLoop_congr (qt : QtLib) (fuel : Nat) (b1 b2 : QByteArray)
    (q : List QStompResponseFrame) (hd : List QByteArray) (g : Bool)
    (h : findMessageBytes qt b1 = findMessageBytes qt b2) :
    readLoop qt fuel { m_buffer := b1, m_framebuffer := q, handed := hd } g =
      readLoop qt fuel { m_buffer := b2, m_framebuffer := q, handed := hd } g := by
  cases fuel with
  | zero => rfl
  | succ n => simp only [readLoop, h]

theorem fromBytes_connected (qt : QtLib) :
    QStompResponseFrame.fromBytes qt (ascii "CONNECTED\n\n\x00\n") =
      { base := { m_header := [], m_valid := true, m_body := [] },
        m_type := .ResponseConnected } := by
  rfl

/-! ## The claims -/

/-- C1 (content-length framing), evaluated on the claim's own example. In
`"MESSAGE\ncontent-length: 5\n\nab\0cd\0\n"` the header `"\ncontent-length"` is
at offset 7, the first blank line at offset `s = 25`, and the buffer holds
`34 ≥ s + 2 + 5` bytes; the claim gives length 32. `findMessageBytes` returns
34, the end of the first NUL newline pair, whatever `toUInt` does: the
content-length block never returns (`contentLengthFrame_eq_none`). -/
theorem content_length_framing_not_applied :
    ∀ qt : QtLib,
      firstAt (ascii "\ncontent-length") (ascii "MESSAGE\ncontent-length: 5\n\nab\x00cd\x00\n") 7 ∧
      firstAt [LF, LF] (ascii "MESSAGE\ncontent-length: 5\n\nab\x00cd\x00\n") 25 ∧
      25 + 2 + 5 ≤ (ascii "MESSAGE\ncontent-length: 5\n\nab\x00cd\x00\n").length ∧
      findMessageBytes qt (ascii "MESSAGE\ncontent-length: 5\n\nab\x00cd\x00\n") =
        (34, ascii "MESSAGE\ncontent-length: 5\n\nab\x00cd\x00\n") := by
  intro qt
  refine ⟨by decide, by decide, by decide, ?_⟩
  rw [findMessageBytes_aligned qt _ (by decide)]
  decide

/-- C2 (content-length is authoritative on a short buffer), evaluated on the
claim's own example. In `"MESSAGE\ncontent-length: 10\n\nab\0cd"` the first
blank line is at offset `s = 26` and the buffer holds `33 < s + 2 + 10` bytes;
the claim gives none. `findMessageBytes` falls through to the NUL search and
returns 31, one past the lone NUL at offset 30, whatever `toUInt` does. -/
theorem short_content_length_falls_through :
    ∀ qt : QtLib,
      firstAt (ascii "\ncontent-length") (ascii "MESSAGE\ncontent-length: 10\n\nab\x00cd") 7 ∧
      firstAt [LF, LF] (ascii "MESSAGE\ncontent-length: 10\n\nab\x00cd") 26 ∧
      (ascii "MESSAGE\ncontent-length: 10\n\nab\x00cd").length < 26 + 2 + 10 ∧
      findMessageBytes qt (ascii "MESSAGE\ncontent-length: 10\n\nab\x00cd") =
        (31, ascii "MESSAGE\ncontent-length: 10\n\nab\x00cd") := by
  intro qt
  refine ⟨by decide, by decide, by decide, ?_⟩
  rw [findMessageBytes_aligned qt _ (by decide)]
  decide

/-- C3, counterexample: `"CONNECTED\n\n\0"` is the wire form
`"CONNECTED\n\n\0\n"` without its last byte, a proper prefix, and
`findMessageBytes` already returns the length 12 on it. -/
theorem partial_arrival_counterexample :
    ascii "CONNECTED\n\n\x00" ++ [LF] = ascii "CONNECTED\n\n\x00\n" ∧
      findMessageBytes qtRef (ascii "CONNECTED\n\n\x00") = (12, ascii "CONNECTED\n\n\x00") := by
  decide

/-- C3, amended (partial arrival under terminator framing): let `F` begin with
a command token and a newline and contain no NUL, so that the wire bytes are
`F ++ NUL '\n'`. On every prefix of `F` (no NUL has arrived yet)
`findMessageBytes` returns none and leaves the buffer as it is; on `F ++ NUL`
it returns `|F| + 1`, and on `F ++ NUL '\n'` it returns `|F| + 2`. -/
theorem partial_arrival_terminator (qt : QtLib) (F : QByteArray) (hF : beginsWithCommand F)
    (h0 : NUL ∉ F) :
    (∀ P, P <+: F → findMessageBytes qt P = (0, P)) ∧
      findMessageBytes qt (F ++ [NUL]) = (F.length + 1, F ++ [NUL]) ∧
      findMessageBytes qt (F ++ [NUL, LF]) = (F.length + 2, F ++ [NUL, LF]) := by
  refine ⟨?_, ?_, ?_⟩
  · intro P hP
    rw [findMessageBytes_of_prefix_begins qt F P hF hP,
      terminatorFrame_none P (fun h => h0 (hP.subset h))]
  · rw [findMessageBytes_aligned qt _ (beginsWithCommand_append F _ hF),
      terminatorFrame_lone F h0]
  · exact findMessageBytes_frame qt F [] hF h0

/-- C3, amended, at `F = "CONNECTED\n\n"`. -/
theorem partial_arrival_terminator_witness :
    beginsWithCommand (ascii "CONNECTED\n\n") ∧ NUL ∉ ascii "CONNECTED\n\n" ∧
      findMessageBytes qtRef (ascii "CONNECTED\n") = (0, ascii "CONNECTED\n") ∧
      findMessageBytes qtRef (ascii "CONNECTED\n\n" ++ [NUL]) =
        ((ascii "CONNECTED\n\n").length + 1, ascii "CONNECTED\n\n" ++ [NUL]) :=
  ⟨by decide, by decide,
    (partial_arrival_terminator qtRef (ascii "CONNECTED\n\n") (by decide) (by decide)).1
      (ascii "CONNECTED\n") (by decide),
    (partial_arrival_terminator qtRef (ascii "CONNECTED\n\n") (by decide) (by decide)).2.1⟩

/-- C4 (multi-frame extraction): for two well-formed response frames `F1`,
`F2` without NUL, `socketReadyRead` on `F1 ++ NUL '\n' ++ F2 ++ NUL '\n'`
hands exactly the two ranges `F1 ++ NUL '\n'` and `F2 ++ NUL '\n'` (lengths
`|F1| + 2`, `|F2| + 2`) to the parser in that order, queues the two parsed
frames in that order, both valid and of the type of their command line,
empties the buffer and emits `frameReceived`. -/
theorem multi_frame_extraction (qt : QtLib) (cmd1 : QByteArray) (lines1 : List QByteArray)
    (body1 : QByteArray) (cmd2 : QByteArray) (lines2 : List QByteArray) (body2 : QByteArray)
    (h1 : wellFormedResponse cmd1 lines1) (h2 : wellFormedResponse cmd2 lines2)
    (n1 : NUL ∉ frameBytes cmd1 lines1 body1) (n2 : NUL ∉ frameBytes cmd2 lines2 body2) :
    socketReadyRead qt (clientWith [])
        (frameBytes cmd1 lines1 body1 ++ [NUL, LF] ++ frameBytes cmd2 lines2 body2 ++ [NUL, LF]) =
      some ({ m_buffer := [],
              m_framebuffer :=
                [QStompResponseFrame.fromBytes qt (frameBytes cmd1 lines1 body1 ++ [NUL, LF]),
                 QStompResponseFrame.fromBytes qt (frameBytes cmd2 lines2 body2 ++ [NUL, LF])],
              handed :=
                [frameBytes cmd1 lines1 body1 ++ [NUL, LF],
                 frameBytes cmd2 lines2 body2 ++ [NUL, LF]] }, true) ∧
      (frameBytes cmd1 lines1 body1 ++ [NUL, LF]).length = (frameBytes cmd1 lines1 body1).length + 2 ∧
      (frameBytes cmd2 lines2 body2 ++ [NUL, LF]).length = (frameBytes cmd2 lines2 body2).length + 2 ∧
      (QStompResponseFrame.fromBytes qt (frameBytes cmd1 lines1 body1 ++ [NUL, LF])).isValid = true ∧
      (QStompResponseFrame.fromBytes qt (frameBytes cmd1 lines1 body1 ++ [NUL, LF])).m_type =
        responseTypeOf cmd1 ∧
      (QStompResponseFrame.fromBytes qt (frameBytes cmd2 lines2 body2 ++ [NUL, LF])).isValid = true ∧
      (QStompResponseFrame.fromBytes qt (frameBytes cmd2 lines2 body2 ++ [NUL, LF])).m_type =
        responseTypeOf cmd2 := by
  have e1 : frameBytes cmd1 lines1 body1 ++ [NUL, LF] = frameBytes cmd1 lines1 (body1 ++ [NUL, LF]) := by
    simp [frameBytes]
  have e2 : frameBytes cmd2 lines2 body2 ++ [NUL, LF] = frameBytes cmd2 lines2 (body2 ++ [NUL, LF]) := by
    simp [frameBytes]
  have v1 := fromBytes_wellFormed qt cmd1 lines1 (body1 ++ [NUL, LF]) h1
  have v2 := fromBytes_wellFormed qt cmd2 lines2 (body2 ++ [NUL, LF]) h2
  rw [← e1] at v1
  rw [← e2] at v2
  have b1 := frameBytes_begins cmd1 lines1 body1 (response_command_valid cmd1 h1.1)
  have b2 := frameBytes_begins cmd2 lines2 body2 (response_command_valid cmd2 h2.1)
  refine ⟨?_, by simp, by simp, v1.1, v1.2, v2.1, v2.2⟩
  generalize frameBytes cmd1 lines1 body1 = F1 at *
  generalize frameBytes cmd2 lines2 body2 = F2 at *
  have hbuf : [] ++ (F1 ++ [NUL, LF] ++ F2 ++ [NUL, LF]) = F1 ++ NUL :: LF :: (F2 ++ NUL :: LF :: []) := by
    simp
  obtain ⟨k, hk⟩ : ∃ k, ([] ++ (F1 ++ [NUL, LF] ++ F2 ++ [NUL, LF])).length + 1 = k + 3 :=
    ⟨F1.length + F2.length + 2, by simp; omega⟩
  unfold socketReadyRead clientWith
  simp only [hk]
  rw [hbuf, readLoop_frame qt _ F1 _ _ _ _ b1 n1, readLoop_frame qt _ F2 _ _ _ _ b2 n2,
    readLoop_nil]
  simp [v1.1, v2.1]

/-- C4 at `"CONNECTED\nsession: 1\n\n"` followed by
`"MESSAGE\ndestination:/q\n\nhello"`. -/
theorem multi_frame_extraction_witness :
    wellFormedResponse (ascii "CONNECTED") [ascii "session: 1"] ∧
      wellFormedResponse (ascii "MESSAGE") [ascii "destination:/q"] ∧
      (socketReadyRead qtRef (clientWith [])
        (frameBytes (ascii "CONNECTED") [ascii "session: 1"] [] ++ [NUL, LF] ++
          frameBytes (ascii "MESSAGE") [ascii "destination:/q"] (ascii "hello") ++ [NUL, LF])).map
        (fun r => (r.1.m_buffer, r.1.m_framebuffer.length, r.1.handed.length)) =
        some ([], 2, 2) :=
  ⟨by decide, by decide, by
    rw [(multi_frame_extraction qtRef (ascii "CONNECTED") [ascii "session: 1"] []
      (ascii "MESSAGE") [ascii "destination:/q"] (ascii "hello")
      (by decide) (by decide) (by decide) (by decide)).1]
    rfl⟩

/-- C5 (resynchronisation): for every garbage `G` without NUL that does not
begin with a command token followed by a newline, `socketReadyRead` on
`G ++ NUL '\n' ++ "CONNECTED\n\n" ++ NUL '\n'` hands exactly one range to the
parser, the CONNECTED frame with its terminator (the garbage is not handed
over), queues exactly the valid CONNECTED frame with no header and an empty
body, and empties the buffer. -/
theorem resync_discards_garbage (qt : QtLib) (G : QByteArray) (h0 : NUL ∉ G)
    (hG : ¬ beginsWithCommand G) :
    socketReadyRead qt (clientWith [])
        (G ++ [NUL, LF] ++ ascii "CONNECTED\n\n" ++ [NUL, LF]) =
      some ({ m_buffer := [],
              m_framebuffer :=
                [{ base := { m_header := [], m_valid := true, m_body := [] },
                   m_type := .ResponseConnected }],
              handed := [ascii "CONNECTED\n\n\x00\n"] }, true) := by
  have hbuf : [] ++ (G ++ [NUL, LF] ++ ascii "CONNECTED\n\n" ++ [NUL, LF]) =
      G ++ NUL :: LF :: (ascii "CONNECTED\n\n" ++ NUL :: LF :: []) := by
    simp
  obtain ⟨k, hk⟩ : ∃ k,
      ([] ++ (G ++ [NUL, LF] ++ ascii "CONNECTED\n\n" ++ [NUL, LF])).length + 1 = k + 2 :=
    ⟨G.length + (ascii "CONNECTED\n\n").length + 3, by simp; omega⟩
  unfold socketReadyRead clientWith
  simp only [hk]
  rw [hbuf, readLoop_congr qt _ _ _ _ _ _ (findMessageBytes_garbage qt G _ h0 hG),
    readLoop_frame qt _ (ascii "CONNECTED\n\n") _ _ _ _ (by decide) (by decide), readLoop_nil]
  have e : ascii "CONNECTED\n\n" ++ [NUL, LF] = ascii "CONNECTED\n\n\x00\n" := by decide
  rw [e, fromBytes_connected]
  rfl

/-- C5 at the garbage `"garbage\nxx"`. -/
theorem resync_discards_garbage_witness :
    NUL ∉ ascii "garbage\nxx" ∧ ¬ beginsWithCommand (ascii "garbage\nxx") ∧
      socketReadyRead qtRef (clientWith [])
        (ascii "garbage\nxx" ++ [NUL, LF] ++ ascii "CONNECTED\n\n" ++ [NUL, LF]) =
      some ({ m_buffer := [],
              m_framebuffer :=
                [{ base := { m_header := [], m_valid := true, m_body := [] },
                   m_type := .ResponseConnected }],
              handed := [ascii "CONNECTED\n\n\x00\n"] }, true) :=
  ⟨by decide, by decide,
    resync_discards_garbage qtRef (ascii "garbage\nxx") (by decide) (by decide)⟩

/-- C6, counterexample: `"abc" ++ NUL` is not empty and has no newline, and
`findMessageBytes` returns 4 on it, not none. -/
theorem no_newline_counterexample :
    ascii "abc\x00" ≠ [] ∧ LF ∉ ascii "abc\x00" ∧
      findMessageBytes qtRef (ascii "abc\x00") = (4, ascii "abc\x00") := by
  decide

/-- C6, amended: on a non-empty buffer `B` without a newline
`findMessageBytes` leaves the buffer as it is; it returns none when `B` has no
NUL byte, and `e + 1` when the first NUL of `B` is at offset `e`. -/
theorem no_newline_buffer (qt : QtLib) (B : QByteArray) (_hne : B ≠ []) (h : LF ∉ B) :
    (findMessageBytes qt B).2 = B ∧
      (NUL ∉ B → (findMessageBytes qt B).1 = 0) ∧
      (∀ e, firstAt [NUL] B e → (findMessageBytes qt B).1 = e + 1) := by
  rw [findMessageBytes_no_newline qt B h]
  have hpair : absent [NUL, LF] B :=
    (indexOf_eq_none_iff _ _).1 (indexOf_none_of_mem_pat [NUL, LF] B LF (by simp) h)
  exact ⟨rfl, fun h0 => terminatorFrame_none B h0,
    fun e he => (terminatorFrame_spec B).2.1 hpair e he⟩

/-- C6, amended, at `"abc" ++ NUL` and at `"abc"`. -/
theorem no_newline_buffer_witness :
    (ascii "abc\x00" ≠ [] ∧ LF ∉ ascii "abc\x00" ∧ firstAt [NUL] (ascii "abc\x00") 3 ∧
      (findMessageBytes qtRef (ascii "abc\x00")).1 = 3 + 1) ∧
    (ascii "abc" ≠ [] ∧ LF ∉ ascii "abc" ∧ NUL ∉ ascii "abc" ∧
      (findMessageBytes qtRef (ascii "abc")).1 = 0) :=
  ⟨⟨by decide, by decide, by decide,
      (no_newline_buffer qtRef (ascii "abc\x00") (by decide) (by decide)).2.2 3 (by decide)⟩,
    ⟨by decide, by decide, by decide,
      (no_newline_buffer qtRef (ascii "abc") (by decide) (by decide)).2.1 (by decide)⟩⟩

/-- C7 (terminator framing): for every buffer `B` that begins with a command
token and a newline and has no `"\ncontent-length"` before its first blank
line, `findMessageBytes` leaves `B` as it is and returns `e + 2` when the
first NUL newline pair is at offset `e`; when there is no such pair, `e + 1`
when the first NUL is at offset `e`; and none when `B` has no NUL. -/
theorem terminator_framing (qt : QtLib) (B : QByteArray) (hB : beginsWithCommand B)
    (_hcl : ¬ ∃ p s, firstAt (ascii "\ncontent-length") B p ∧ firstAt [LF, LF] B s ∧ p < s) :
    (findMessageBytes qt B).2 = B ∧
      (∀ e, firstAt [NUL, LF] B e → (findMessageBytes qt B).1 = e + 2) ∧
      (absent [NUL, LF] B → ∀ e, firstAt [NUL] B e → (findMessageBytes qt B).1 = e + 1) ∧
      (NUL ∉ B → (findMessageBytes qt B).1 = 0) := by
  rw [findMessageBytes_aligned qt B hB]
  exact ⟨rfl, (terminatorFrame_spec B).1, (terminatorFrame_spec B).2.1,
    fun h0 => terminatorFrame_none B h0⟩

/-- C7 at `"MESSAGE\n\nhi" ++ NUL ++ "\n"`: the pair is at offset 11. -/
theorem terminator_framing_witness :
    beginsWithCommand (ascii "MESSAGE\n\nhi\x00\n") ∧
      firstAt [NUL, LF] (ascii "MESSAGE\n\nhi\x00\n") 11 ∧
      (findMessageBytes qtRef (ascii "MESSAGE\n\nhi\x00\n")).1 = 11 + 2 :=
  ⟨by decide, by decide,
    (terminator_framing qtRef (ascii "MESSAGE\n\nhi\x00\n") (by decide)
      (by
        rintro ⟨p, s, hp, -, -⟩
        have hnone : indexOf (ascii "\ncontent-length") (ascii "MESSAGE\n\nhi\x00\n") = none := by
          decide
        rw [(indexOf_eq_some_iff _ _ _).2 hp] at hnone
        cases hnone)).2.1 11 (by decide)⟩

/-- C8 (the resynchronisation loop terminates): every pass of the loop body
that loops again leaves a strictly shorter buffer, and with more fuel than
the buffer has bytes the loop leaves through `return 0` or `break`. -/
theorem sanity_loop_terminates (buf : QByteArray) :
    (∀ rest, sanityStep buf = .again rest → rest.length < buf.length) ∧
      (∀ fuel, buf.length < fuel → ∃ r, sanityLoop fuel buf = some r) :=
  ⟨fun rest h => sanityStep_again_lt buf rest h, fun fuel h => sanityLoop_isSome fuel buf h⟩

/-- C8 at the buffer `"xx" ++ NUL ++ "\nCONNECTED\n\n"`: one pass discards
four bytes. -/
theorem sanity_loop_terminates_witness :
    sanityStep (ascii "xx\x00\nCONNECTED\n\n") = .again (ascii "CONNECTED\n\n") ∧
      (ascii "CONNECTED\n\n").length < (ascii "xx\x00\nCONNECTED\n\n").length ∧
      (ascii "xx\x00\nCONNECTED\n\n").length < 16 ∧
      ∃ r, sanityLoop 16 (ascii "xx\x00\nCONNECTED\n\n") = some r :=
  ⟨by decide,
    (sanity_loop_terminates (ascii "xx\x00\nCONNECTED\n\n")).1 (ascii "CONNECTED\n\n") (by decide),
    by decide,
    (sanity_loop_terminates (ascii "xx\x00\nCONNECTED\n\n")).2 16 (by decide)⟩

/-- C9 (a corrupt frame does not block later frames): let `X` contain no NUL,
begin with a command token and a newline, and fail to parse as a response
frame, and let `G` be a well-formed response frame without NUL. Then
`socketReadyRead` on `X ++ NUL '\n' ++ G ++ NUL '\n'` consumes the range of `X`
without queuing a frame for it, queues exactly the (valid) frame parsed from
the range of `G`, and empties the buffer. -/
theorem corrupt_frame_does_not_block (qt : QtLib) (X cmd : QByteArray) (lines : List QByteArray)
    (body : QByteArray) (hX0 : NUL ∉ X) (hXb : beginsWithCommand X)
    (hXinv : (QStompResponseFrame.fromBytes qt X).isValid = false)
    (hG : wellFormedResponse cmd lines) (hG0 : NUL ∉ frameBytes cmd lines body) :
    socketReadyRead qt (clientWith [])
        (X ++ [NUL, LF] ++ frameBytes cmd lines body ++ [NUL, LF]) =
      some ({ m_buffer := [],
              m_framebuffer :=
                [QStompResponseFrame.fromBytes qt (frameBytes cmd lines body ++ [NUL, LF])],
              handed := [X ++ [NUL, LF], frameBytes cmd lines body ++ [NUL, LF]] }, true) ∧
      (QStompResponseFrame.fromBytes qt (frameBytes cmd lines body ++ [NUL, LF])).isValid = true ∧
      (QStompResponseFrame.fromBytes qt (frameBytes cmd lines body ++ [NUL, LF])).m_type =
        responseTypeOf cmd := by
  have e : frameBytes cmd lines body ++ [NUL, LF] = frameBytes cmd lines (body ++ [NUL, LF]) := by
    simp [frameBytes]
  have v := fromBytes_wellFormed qt cmd lines (body ++ [NUL, LF]) hG
  rw [← e] at v
  have hXt : (QStompResponseFrame.fromBytes qt (X ++ [NUL, LF])).isValid = false := by
    rw [fromBytes_valid_append_term, hXinv]
  have b := frameBytes_begins cmd lines body (response_command_valid cmd hG.1)
  refine ⟨?_, v.1, v.2⟩
  generalize frameBytes cmd lines body = F at *
  have hbuf : [] ++ (X ++ [NUL, LF] ++ F ++ [NUL, LF]) = X ++ NUL :: LF :: (F ++ NUL :: LF :: []) := by
    simp
  obtain ⟨k, hk⟩ : ∃ k, ([] ++ (X ++ [NUL, LF] ++ F ++ [NUL, LF])).length + 1 = k + 3 :=
    ⟨X.length + F.length + 2, by simp; omega⟩
  unfold socketReadyRead clientWith
  simp only [hk]
  rw [hbuf, readLoop_frame qt _ X _ _ _ _ hXb hX0, readLoop_frame qt _ F _ _ _ _ b hG0,
    readLoop_nil]
  simp [hXt, v.1]

/-- C9 at the corrupt `"MESSAGE\nbadheader\n\nbody"` (a header line without a
colon) followed by `"CONNECTED\n\n"`. -/
theorem corrupt_frame_does_not_block_witness :
    NUL ∉ ascii "MESSAGE\nbadheader\n\nbody" ∧
      beginsWithCommand (ascii "MESSAGE\nbadheader\n\nbody") ∧
      (QStompResponseFrame.fromBytes qtRef (ascii "MESSAGE\nbadheader\n\nbody")).isValid = false ∧
      wellFormedResponse (ascii "CONNECTED") [] ∧
      (socketReadyRead qtRef (clientWith [])
        (ascii "MESSAGE\nbadheader\n\nbody" ++ [NUL, LF] ++
          frameBytes (ascii "CONNECTED") [] [] ++ [NUL, LF])).map
        (fun r => (r.1.m_buffer, r.1.m_framebuffer.length, r.1.handed.length)) =
        some ([], 1, 2) :=
  ⟨by decide, by decide, by decide, by decide, by
    rw [(corrupt_frame_does_not_block qtRef (ascii "MESSAGE\nbadheader\n\nbody")
      (ascii "CONNECTED") [] [] (by decide) (by decide) (by decide) (by decide) (by decide)).1]
    rfl⟩

/-- C10 (partial data is never discarded): for every `F` that begins with a
command token and a newline and every prefix `P` of `F`, `findMessageBytes` on
the buffer `P` leaves the buffer equal to `P`. -/
theorem partial_data_not_discarded (qt : QtLib) (F P : QByteArray) (hF : beginsWithCommand F)
    (hP : P <+: F) : (findMessageBytes qt P).2 = P := by
  rw [findMessageBytes_of_prefix_begins qt F P hF hP]

/-- C10 at the prefix `"MESSAGE\ndest"` of `"MESSAGE\ndestination:/q\n\nhi"`
with its terminator. -/
theorem partial_data_not_discarded_witness :
    beginsWithCommand (ascii "MESSAGE\ndestination:/q\n\nhi\x00\n") ∧
      ascii "MESSAGE\ndest" <+: ascii "MESSAGE\ndestination:/q\n\nhi\x00\n" ∧
      (findMessageBytes qtRef (ascii "MESSAGE\ndest")).2 = ascii "MESSAGE\ndest" :=
  ⟨by decide, by decide,
    partial_data_not_discarded qtRef (ascii "MESSAGE\ndestination:/q\n\nhi\x00\n")
      (ascii "MESSAGE\ndest") (by decide) (by decide)⟩


/-! ## Facts about the header operations and serialisation -/

theorem allHeaderValues_foldl (key : QByteArray) (hs : QStompHeaderList) (acc : List QByteArray) :
    hs.foldl
        (fun valueList kv => if toLower kv.1 = toLower key then valueList ++ [kv.2] else valueList)
        acc =
      acc ++ (hs.filter fun kv => decide (matchesKey key kv)).map Prod.snd := by
  induction hs generalizing acc with
  | nil => simp
  | cons kv rest ih =>
    rw [List.foldl_cons, ih]
    by_cases h : toLower kv.1 = toLower key
    · simp [matchesKey, h]
    · simp [matchesKey, h]

/-- The values returned by `allHeaderValues` are those of the matching
entries, in list order. -/
theorem allHeaderValues_eq (f : QStompFrame) (key : QByteArray) :
    f.allHeaderValues key = (f.m_header.filter fun kv => decide (matchesKey key kv)).map Prod.snd := by
  unfold QStomp.QStompFrame.allHeaderValues
  rw [allHeaderValues_foldl]
  simp

theorem find_of_first {α : Type} (p : α → Bool) (pre post : List α) (x : α) (hm : p x = true)
    (hpre : ∀ e ∈ pre, p e = false) : (pre ++ x :: post).find? p = some x := by
  induction pre with
  | nil => simp [hm]
  | cons e es ih =>
    have he := hpre e (by simp)
    simp only [List.cons_append, List.find?_cons, he]
    exact ih (fun y hy => hpre y (by simp [hy]))

theorem headerValue_of_first (f : QStompFrame) (key : QByteArray) (pre post : QStompHeaderList)
    (kv : QByteArray × QByteArray) (hf : f.m_header = pre ++ kv :: post) (hm : matchesKey key kv)
    (hpre : ∀ e ∈ pre, ¬ matchesKey key e) : f.headerValue key = kv.2 := by
  unfold QStomp.QStompFrame.headerValue
  rw [hf, find_of_first _ pre post kv (by simpa [matchesKey] using hm)
    (fun e he => by simpa [matchesKey] using hpre e he)]

theorem headerValue_of_no_match (f : QStompFrame) (key : QByteArray)
    (h : ∀ e ∈ f.m_header, ¬ matchesKey key e) : f.headerValue key = [] := by
  unfold QStomp.QStompFrame.headerValue
  have : f.m_header.find? (fun kv => toLower kv.1 == toLower key) = none := by
    rw [List.find?_eq_none]
    intro x hx
    simpa [matchesKey] using h x hx
  rw [this]

theorem headerHasKey_iff (f : QStompFrame) (key : QByteArray) :
    f.headerHasKey key = true ↔ ∃ e ∈ f.m_header, matchesKey key e := by
  simp [QStomp.QStompFrame.headerHasKey, matchesKey]

theorem setHeaderLoop_of_no_match (lk value : QByteArray) (hs : QStompHeaderList)
    (h : ∀ e ∈ hs, toLower e.1 ≠ lk) : setHeaderLoop lk value hs = none := by
  induction hs with
  | nil => rfl
  | cons e es ih =>
    have he := h e (by simp)
    simp [setHeaderLoop, he, ih (fun x hx => h x (by simp [hx]))]

theorem setHeaderLoop_of_first (lk value : QByteArray) (pre post : QStompHeaderList)
    (k0 v0 : QByteArray) (hm : toLower k0 = lk) (hpre : ∀ e ∈ pre, toLower e.1 ≠ lk) :
    setHeaderLoop lk value (pre ++ (k0, v0) :: post) = some (pre ++ (k0, value) :: post) := by
  induction pre with
  | nil => simp [setHeaderLoop, hm]
  | cons e es ih =>
    have he := hpre e (by simp)
    simp [setHeaderLoop, he, ih (fun x hx => hpre x (by simp [hx]))]

/-- The `setHeaderValue` call on a list without a matching entry appends. -/
theorem setHeaderValue_of_no_match (f : QStompFrame) (key value : QByteArray)
    (h : ∀ e ∈ f.m_header, ¬ matchesKey key e) :
    f.setHeaderValue key value = { f with m_header := f.m_header ++ [(key, value)] } := by
  unfold QStomp.QStompFrame.setHeaderValue
  rw [setHeaderLoop_of_no_match _ _ _ (fun e he => by simpa [matchesKey] using h e he)]
  rfl

/-- The `setHeaderValue` call replaces the value of the first matching entry. -/
theorem setHeaderValue_of_first (f : QStompFrame) (key value : QByteArray)
    (pre post : QStompHeaderList) (k0 v0 : QByteArray) (hf : f.m_header = pre ++ (k0, v0) :: post)
    (hm : matchesKey key (k0, v0)) (hpre : ∀ e ∈ pre, ¬ matchesKey key e) :
    f.setHeaderValue key value = { f with m_header := pre ++ (k0, value) :: post } := by
  unfold QStomp.QStompFrame.setHeaderValue
  rw [hf, setHeaderLoop_of_first _ _ _ _ _ _ hm (fun e he => by simpa [matchesKey] using hpre e he)]

/-- A list with at most one entry that satisfies `p` has none, or splits
around the one that does. -/
theorem at_most_one_cases {α : Type} (p : α → Bool) (l : List α)
    (h : (l.filter p).length ≤ 1) :
    (∀ e ∈ l, p e = false) ∨
      ∃ pre e post, l = pre ++ e :: post ∧ p e = true ∧ (∀ x ∈ pre, p x = false) ∧
        ∀ x ∈ post, p x = false := by
  induction l with
  | nil => left; simp
  | cons a as ih =>
    by_cases ha : p a = true
    · right
      refine ⟨[], a, as, rfl, ha, by simp, ?_⟩
      intro x hx
      by_contra hpx
      have hpx1 : p x = true := by simpa using hpx
      have : x ∈ as.filter p := List.mem_filter.2 ⟨hx, hpx1⟩
      have hlen : 0 < (as.filter p).length := List.length_pos_of_mem this
      have h2 : (as.filter p).length + 1 ≤ 1 := by simpa [List.filter_cons, ha] using h
      omega
    · have ha0 : p a = false := by simpa using ha
      have h1 : (as.filter p).length ≤ 1 := by simpa [List.filter_cons, ha0] using h
      rcases ih h1 with hn | ⟨pre, e, post, rfl, he, hpre, hpost⟩
      · left
        intro e he
        rcases List.mem_cons.1 he with rfl | he
        · exact ha0
        · exact hn e he
      · right
        refine ⟨a :: pre, e, post, rfl, he, ?_, hpost⟩
        intro x hx
        rcases List.mem_cons.1 hx with rfl | hx
        · exact ha0
        · exact hpre x hx

theorem removeFirstLoop_of_no_match (lk : QByteArray) (hs : QStompHeaderList)
    (h : ∀ e ∈ hs, toLower e.1 ≠ lk) : removeFirstLoop lk hs = hs := by
  induction hs with
  | nil => rfl
  | cons e es ih =>
    have he := h e (by simp)
    simp [removeFirstLoop, he, ih (fun x hx => h x (by simp [hx]))]

theorem removeFirstLoop_of_first (lk : QByteArray) (pre post : QStompHeaderList)
    (kv : QByteArray × QByteArray) (hm : toLower kv.1 = lk) (hpre : ∀ e ∈ pre, toLower e.1 ≠ lk) :
    removeFirstLoop lk (pre ++ kv :: post) = pre ++ post := by
  induction pre with
  | nil => simp [removeFirstLoop, hm]
  | cons e es ih =>
    have he := hpre e (by simp)
    simp [removeFirstLoop, he, ih (fun x hx => hpre x (by simp [hx]))]

/-- The `removeHeaderValue` call deletes exactly the first matching entry, and
nothing when no entry matches. -/
theorem removeHeaderValue_spec (f : QStompFrame) (key : QByteArray) :
    ((∀ e ∈ f.m_header, ¬ matchesKey key e) → f.removeHeaderValue key = f) ∧
      ∀ pre kv post, f.m_header = pre ++ kv :: post → matchesKey key kv →
        (∀ e ∈ pre, ¬ matchesKey key e) →
        f.removeHeaderValue key = { f with m_header := pre ++ post } := by
  constructor
  · intro h
    unfold QStomp.QStompFrame.removeHeaderValue
    rw [removeFirstLoop_of_no_match _ _ (fun e he => by simpa [matchesKey] using h e he)]
  · intro pre kv post hf hm hpre
    unfold QStomp.QStompFrame.removeHeaderValue
    rw [hf, removeFirstLoop_of_first _ _ _ _ hm
      (fun e he => by simpa [matchesKey] using hpre e he)]

theorem removeAllLoop_of_no_match (lk : QByteArray) (hs : QStompHeaderList)
    (h : ∀ e ∈ hs, toLower e.1 ≠ lk) : removeAllLoop lk hs = some hs := by
  induction hs with
  | nil => rfl
  | cons e es ih =>
    have he := h e (by simp)
    simp [removeAllLoop, he, ih (fun x hx => h x (by simp [hx]))]

theorem removeAllLoop_of_match (lk : QByteArray) (hs : QStompHeaderList)
    (h : ∃ e ∈ hs, toLower e.1 = lk) : removeAllLoop lk hs = none := by
  induction hs with
  | nil => simp at h
  | cons e es ih =>
    by_cases he : toLower e.1 = lk
    · simp [removeAllLoop, he]
    · have : ∃ x ∈ es, toLower x.1 = lk := by
        obtain ⟨x, hx, hxl⟩ := h
        rcases List.mem_cons.1 hx with rfl | hx
        · exact absurd hxl he
        · exact ⟨x, hx, hxl⟩
      simp [removeAllLoop, he, ih this]

theorem toByteArray_foldl (hs : QStompHeaderList) (acc : QByteArray) :
    hs.foldl
        (fun ret kv =>
          if toLower kv.1 ≠ ascii "login" ∧ toLower kv.1 ≠ ascii "passcode" then
            ret ++ (kv.1 ++ ascii ": " ++ kv.2 ++ ascii "\n")
          else
            ret ++ (kv.1 ++ ascii ":" ++ kv.2 ++ ascii "\n")) acc =
      acc ++ (hs.map fun kv => headerLine kv ++ [LF]).flatten := by
  have e1 : ascii ": " = [COLON, 32] := by decide
  have e2 : ascii ":" = [COLON] := by decide
  have e3 : ascii "\n" = [LF] := by decide
  induction hs generalizing acc with
  | nil => simp
  | cons kv rest ih =>
    rw [List.foldl_cons, ih]
    by_cases h : isCredentialKey kv.1
    · have h1 : ¬ (toLower kv.1 ≠ ascii "login" ∧ toLower kv.1 ≠ ascii "passcode") := by
        unfold isCredentialKey at h
        tauto
      simp [headerLine, h, h1, e2, e3]
    · have h1 : toLower kv.1 ≠ ascii "login" ∧ toLower kv.1 ≠ ascii "passcode" := by
        unfold isCredentialKey at h
        tauto
      simp [headerLine, h, h1, e1, e3]

/-- The bytes `QStompFrame::toByteArray` emits for a valid frame. -/
theorem toByteArray_valid (f : QStompFrame) (h : f.m_valid = true) :
    f.toByteArray = (f.m_header.map fun kv => headerLine kv ++ [LF]).flatten ++ [LF] ++ f.m_body := by
  unfold QStomp.QStompFrame.toByteArray
  simp only [h, Bool.not_true, Bool.false_eq_true, if_false]
  rw [toByteArray_foldl]
  simp

/-! ## Facts about parsing: validity and the body -/

theorem parseHeaderLine_body (f : QStompFrame) (line : QByteArray) :
    (f.parseHeaderLine line).2.m_body = f.m_body := by
  unfold QStomp.QStompFrame.parseHeaderLine
  cases indexOf [COLON] line with
  | none => rfl
  | some i => simp only; split <;> rfl

theorem parseHeaderLine_fst_iff (f : QStompFrame) (line : QByteArray) :
    (f.parseHeaderLine line).1 = true ↔ COLON ∈ line := by
  unfold QStomp.QStompFrame.parseHeaderLine
  cases hi : indexOf [COLON] line with
  | none =>
    have := (absent_single_iff COLON line).1 ((indexOf_eq_none_iff _ _).1 hi)
    simp [this]
  | some i =>
    have hmem : COLON ∈ line := by
      by_contra hc
      rw [indexOf_none_of_not_mem COLON [] line hc] at hi
      cases hi
    simp only [hmem, iff_true]
    split <;> rfl

theorem plain_keeps_body (s : QStompFrame × Unit) (line : QByteArray) (i : Nat) :
    (QStompFrame.parseHeaderLineAt s line i).2.1.m_body = s.1.m_body :=
  parseHeaderLine_body s.1 line

theorem response_keeps_body (s : QStompFrame × ResponseType) (line : QByteArray) (i : Nat) :
    (QStompResponseFrame.parseHeaderLine s line i).2.1.m_body = s.1.m_body := by
  unfold QStomp.QStompResponseFrame.parseHeaderLine
  split
  · exact parseHeaderLine_body s.1 line
  · split_ifs <;> rfl

theorem request_keeps_body (s : QStompFrame × RequestType) (line : QByteArray) (i : Nat) :
    (QStompRequestFrame.parseHeaderLine s line i).2.1.m_body = s.1.m_body := by
  unfold QStomp.QStompRequestFrame.parseHeaderLine
  split
  · exact parseHeaderLine_body s.1 line
  · split_ifs <;> rfl

theorem parseLines_body {τ : Type}
    (phl : QStompFrame × τ → QByteArray → Nat → Bool × (QStompFrame × τ))
    (hkeep : ∀ s line i, (phl s line i).2.1.m_body = s.1.m_body)
    (lines : List QByteArray) (i : Nat) (s : QStompFrame × τ) :
    (parseLines phl lines i s).2.1.m_body = s.1.m_body := by
  induction lines generalizing i s with
  | nil => rfl
  | cons l ls ih =>
    unfold parseLines
    have hk := hkeep s l i
    cases hs : phl s l i with
    | mk ok s1 =>
      rw [hs] at hk
      cases ok
      · exact hk
      · simp only
        rw [ih (i + 1) s1]
        exact hk

/-- The raw body that `parse` leaves when it succeeds. -/
theorem parse_body_eq {τ : Type} (qt : QtLib)
    (phl : QStompFrame × τ → QByteArray → Nat → Bool × (QStompFrame × τ))
    (hkeep : ∀ s line i, (phl s line i).2.1.m_body = s.1.m_body)
    (self : QStompFrame × τ) (frame : QByteArray) (h : Nat)
    (hh : indexOf [LF, LF] frame = some h)
    (hv : (QStompFrame.parse qt phl self frame).1 = true) :
    (QStompFrame.parse qt phl self frame).2.1.m_body =
      if (QStompFrame.parse qt phl self frame).2.1.hasContentLength then
        resize qt (frame.drop (h + 2)) ((QStompFrame.parse qt phl self frame).2.1.contentLength qt)
      else if endsWith (frame.drop (h + 2)) [NUL, LF] then chop (frame.drop (h + 2)) 2
      else frame.drop (h + 2) := by
  have hb := parseLines_body phl hkeep (split LF (left frame h)) 0
    ({ self.1 with m_body := midFrom frame (h + 2) }, self.2)
  revert hv
  unfold QStomp.QStompFrame.parse
  simp only [hh]
  have hne : (split LF (left frame h)).isEmpty = false := by
    cases hs : split LF (left frame h) with
    | nil => exact absurd hs (split_ne_nil _ _)
    | cons a as => rfl
  simp only [hne, Bool.false_eq_true, if_false]
  revert hb
  generalize parseLines phl (split LF (left frame h)) 0
    ({ self.1 with m_body := midFrom frame (h + 2) }, self.2) = r
  obtain ⟨ok, s2⟩ := r
  intro hb hv
  simp only [midFrom] at hb
  have e1 : ∀ b, QStompFrame.hasContentLength
      { m_header := s2.1.m_header, m_valid := s2.1.m_valid, m_body := b } =
      s2.1.hasContentLength := fun _ => rfl
  have e2 : ∀ b, QStompFrame.contentLength qt
      { m_header := s2.1.m_header, m_valid := s2.1.m_valid, m_body := b } =
      s2.1.contentLength qt := fun _ => rfl
  cases ok
  · simp at hv
  · dsimp only
    by_cases hcl : s2.1.hasContentLength = true
    · rw [if_pos hcl]
      dsimp only
      rw [e1, e2, if_pos hcl, hb]
      rfl
    · rw [if_neg hcl]
      by_cases hew : endsWith s2.1.m_body [NUL, LF] = true
      · rw [if_pos hew]
        dsimp only
        rw [e1, if_neg hcl, ← hb, if_pos hew]
      · rw [if_neg hew]
        dsimp only
        rw [if_neg hcl, ← hb, if_neg hew]

/-- The raw body of a frame of any kind constructed from a byte range that
parses: resized to the content length when there is such a header, chopped
by two bytes when it ends with the terminator, and the provisional body
otherwise. -/
theorem parsedBase_body (qt : QtLib) (kind : FrameKind) (frame : QByteArray) (h : Nat)
    (hh : firstAt [LF, LF] frame h) (hv : (parsedBase qt kind frame).m_valid = true) :
    (parsedBase qt kind frame).m_body =
      if (parsedBase qt kind frame).hasContentLength then
        resize qt (frame.drop (h + 2)) ((parsedBase qt kind frame).contentLength qt)
      else if endsWith (frame.drop (h + 2)) [NUL, LF] then chop (frame.drop (h + 2)) 2
      else frame.drop (h + 2) := by
  have hi := (indexOf_eq_some_iff _ _ _).2 hh
  cases kind with
  | plain => exact parse_body_eq qt _ plain_keeps_body _ frame h hi hv
  | response => exact parse_body_eq qt _ response_keeps_body _ frame h hi hv
  | request => exact parse_body_eq qt _ request_keeps_body _ frame h hi hv

theorem parsedBase_valid_separator (qt : QtLib) (kind : FrameKind) (frame : QByteArray)
    (hv : (parsedBase qt kind frame).m_valid = true) : ∃ h, firstAt [LF, LF] frame h := by
  cases hh : indexOf [LF, LF] frame with
  | some h => exact ⟨h, (indexOf_eq_some_iff _ _ _).1 hh⟩
  | none =>
    exfalso
    cases kind with
    | plain =>
      have : (parsedBase qt .plain frame).m_valid = false := by
        show (QStompFrame.parse qt QStompFrame.parseHeaderLineAt _ frame).1 = false
        rw [parse_of_no_separator qt _ _ _ hh]
      rw [this] at hv
      cases hv
    | response =>
      have : (parsedBase qt .response frame).m_valid = false := by
        show (QStompFrame.parse qt QStompResponseFrame.parseHeaderLine _ frame).1 = false
        rw [parse_of_no_separator qt _ _ _ hh]
      rw [this] at hv
      cases hv
    | request =>
      have : (parsedBase qt .request frame).m_valid = false := by
        show (QStompFrame.parse qt QStompRequestFrame.parseHeaderLine _ frame).1 = false
        rw [parse_of_no_separator qt _ _ _ hh]
      rw [this] at hv
      cases hv

theorem endsWith_append (X s : QByteArray) : endsWith (X ++ s) s = true := by
  simp [endsWith]

theorem endsWith_iff (b s : QByteArray) : endsWith b s = true ↔ ∃ X, b = X ++ s := by
  unfold endsWith
  rw [List.isPrefixOf_iff_prefix, List.reverse_prefix]
  constructor
  · rintro ⟨X, hX⟩
    exact ⟨X, hX.symm⟩
  · rintro ⟨X, hX⟩
    exact ⟨X, hX.symm⟩

theorem chop_append (X s : QByteArray) : chop (X ++ s) s.length = X := by
  simp [chop]

theorem resize_of_le (qt : QtLib) (b : QByteArray) (n : Nat) (hn : n < 2 ^ 31)
    (hle : n ≤ b.length) : resize qt b n = b.take n := by
  have h1 : n % 2 ^ 32 = n := Nat.mod_eq_of_lt (by omega)
  unfold resize
  simp only [h1, hn, if_true]
  have : n - b.length = 0 := by omega
  simp [this]

theorem resize_of_gt (qt : QtLib) (b : QByteArray) (n : Nat) (hn : n < 2 ^ 31)
    (hlt : b.length < n) : resize qt b n = b ++ (List.range (n - b.length)).map qt.fresh := by
  have h1 : n % 2 ^ 32 = n := Nat.mod_eq_of_lt (by omega)
  unfold resize
  simp only [h1, hn, if_true]
  rw [List.take_of_length_le (by omega)]

/-! ## Facts about parsing: exact validity -/

theorem parseLines_valid_iff {τ : Type}
    (phl : QStompFrame × τ → QByteArray → Nat → Bool × (QStompFrame × τ))
    (hdel : ∀ s line i, i ≠ 0 → (phl s line i).1 = (s.1.parseHeaderLine line).1)
    (lines : List QByteArray) (i : Nat) (hi : i ≠ 0) (s : QStompFrame × τ) :
    (parseLines phl lines i s).1 = true ↔ ∀ l ∈ lines, COLON ∈ l := by
  induction lines generalizing i s with
  | nil => simp [parseLines]
  | cons l ls ih =>
    have h1 := hdel s l i hi
    have h2 := parseHeaderLine_fst_iff s.1 l
    unfold parseLines
    cases hs : phl s l i with
    | mk ok s1 =>
      rw [hs] at h1
      simp only at h1
      cases ok
      · have : COLON ∉ l := by
          intro hc
          rw [← h1] at h2
          exact absurd (h2.2 hc) (by simp)
        simp [this]
      · have hc : COLON ∈ l := h2.1 h1.symm
        simp only [List.mem_cons, forall_eq_or_imp, hc, true_and]
        exact ih (i + 1) (by omega) s1

/-- The frame that `parse` builds is valid exactly when the byte range has a
blank line, the first line of the header block is accepted as line 0 and
every later line has a colon. -/
theorem parse_valid_iff {τ : Type} (qt : QtLib)
    (phl : QStompFrame × τ → QByteArray → Nat → Bool × (QStompFrame × τ))
    (accepts : QByteArray → Prop)
    (h0 : ∀ s line, (phl s line 0).1 = true ↔ accepts line)
    (hdel : ∀ s line i, i ≠ 0 → (phl s line i).1 = (s.1.parseHeaderLine line).1)
    (self : QStompFrame × τ) (F : QByteArray) :
    (QStompFrame.parse qt phl self F).1 = true ↔
      ∃ h first rest, firstAt [LF, LF] F h ∧ split LF (F.take h) = first :: rest ∧
        accepts first ∧ ∀ l ∈ rest, COLON ∈ l := by
  cases hh : indexOf [LF, LF] F with
  | none =>
    rw [parse_of_no_separator qt _ _ _ hh]
    simp only [Bool.false_eq_true, false_iff]
    rintro ⟨h, -, -, hf, -⟩
    rw [(indexOf_eq_some_iff _ _ _).2 hf] at hh
    cases hh
  | some h =>
    rw [(parse_eq_parseLines qt phl self F h hh).1]
    have hfirst := (indexOf_eq_some_iff _ _ _).1 hh
    cases hs : split LF (left F h) with
    | nil => exact absurd hs (split_ne_nil _ _)
    | cons first rest =>
      have key : (parseLines phl (first :: rest) 0
          ({ self.1 with m_body := midFrom F (h + 2) }, self.2)).1 = true ↔
          accepts first ∧ ∀ l ∈ rest, COLON ∈ l := by
        have h01 := h0 ({ self.1 with m_body := midFrom F (h + 2) }, self.2) first
        unfold parseLines
        cases hp : phl ({ self.1 with m_body := midFrom F (h + 2) }, self.2) first 0 with
        | mk ok s1 =>
          rw [hp] at h01
          simp only at h01
          cases ok
          · have : ¬ accepts first := fun ha => absurd (h01.2 ha) (by simp)
            simp [this]
          · simp only [h01.1 rfl, true_and]
            exact parseLines_valid_iff phl hdel rest 1 (by omega) s1
      rw [key]
      constructor
      · rintro ⟨ha, hr⟩
        exact ⟨h, first, rest, hfirst, hs, ha, hr⟩
      · rintro ⟨h1, first1, rest1, hf1, hs1, ha, hr⟩
        have : h1 = h := by
          have := (indexOf_eq_some_iff _ _ _).2 hf1
          rw [hh] at this
          exact (Option.some.inj this).symm
        subst this
        simp only [left] at hs
        rw [hs] at hs1
        cases hs1
        exact ⟨ha, hr⟩

theorem response_line0_iff (s : QStompFrame × ResponseType) (line : QByteArray) :
    (QStompResponseFrame.parseHeaderLine s line 0).1 = true ↔ line ∈ RESPONSE_COMMANDS := by
  unfold QStomp.QStompResponseFrame.parseHeaderLine RESPONSE_COMMANDS
  simp only [ne_eq, not_true_eq_false, if_false, List.mem_cons, List.mem_singleton,
    List.not_mem_nil, or_false]
  split_ifs <;> simp [*]

theorem request_line0_iff (s : QStompFrame × RequestType) (line : QByteArray) :
    (QStompRequestFrame.parseHeaderLine s line 0).1 = true ↔ line ∈ REQUEST_COMMANDS := by
  unfold QStomp.QStompRequestFrame.parseHeaderLine REQUEST_COMMANDS
  simp only [ne_eq, not_true_eq_false, if_false, List.mem_cons, List.mem_singleton,
    List.not_mem_nil, or_false]
  split_ifs <;> simp [*]

theorem response_delegates (s : QStompFrame × ResponseType) (line : QByteArray) (i : Nat)
    (hi : i ≠ 0) :
    QStompResponseFrame.parseHeaderLine s line i =
      ((s.1.parseHeaderLine line).1, ((s.1.parseHeaderLine line).2, s.2)) := by
  simp [QStomp.QStompResponseFrame.parseHeaderLine, hi]

theorem request_delegates (s : QStompFrame × RequestType) (line : QByteArray) (i : Nat)
    (hi : i ≠ 0) :
    QStompRequestFrame.parseHeaderLine s line i =
      ((s.1.parseHeaderLine line).1, ((s.1.parseHeaderLine line).2, s.2)) := by
  simp [QStomp.QStompRequestFrame.parseHeaderLine, hi]

/-! ## Facts about the round trip through serialisation and parsing -/

theorem trimmed_cons_space (v : QByteArray) : trimmed (32 :: v) = trimmed v := by
  simp [trimmed, List.dropWhile, isSpace]

theorem dropWhile_of_all_false {α : Type} (p : α → Bool) (l : List α)
    (h : ∀ x ∈ l, p x = false) : l.dropWhile p = l := by
  cases l with
  | nil => rfl
  | cons a as => simp [List.dropWhile, h a (by simp)]

theorem trimmed_of_no_space (b : QByteArray) (h : ∀ c ∈ b, isSpace c = false) : trimmed b = b := by
  unfold trimmed
  rw [dropWhile_of_all_false isSpace b h,
    dropWhile_of_all_false isSpace b.reverse (fun c hc => h c (List.mem_reverse.1 hc)),
    List.reverse_reverse]

/-- A byte whose lower-case form is a lower-case letter is a letter. -/
theorem letter_of_toLowerByte (c : Nat) (h : (97 : Nat) ≤ toLowerByte c) : (65 : Nat) ≤ c := by
  unfold toLowerByte at h
  split at h
  · omega
  · omega

theorem isSpace_of_letter (c : Nat) (h : 65 ≤ c) : isSpace c = false := by
  have h1 : ¬ c ≤ 13 := by omega
  have h2 : c ≠ 32 := by omega
  simp [isSpace, h1, h2]

theorem credential_key_letters (key : QByteArray) (h : isCredentialKey key) :
    ∀ c : Nat, c ∈ key → 65 ≤ c := by
  intro c hc
  apply letter_of_toLowerByte
  have hm : toLowerByte c ∈ toLower key := List.mem_map.2 ⟨c, hc, rfl⟩
  rcases h with h | h
  · rw [h] at hm
    revert hm
    generalize toLowerByte c = d
    intro hm
    have : ∀ x : Nat, x ∈ ascii "login" → 97 ≤ x := by decide
    exact this d hm
  · rw [h] at hm
    revert hm
    generalize toLowerByte c = d
    intro hm
    have : ∀ x : Nat, x ∈ ascii "passcode" → 97 ≤ x := by decide
    exact this d hm

/-- A key that is `login` or `passcode` in some letter case has no colon, no
newline and no white space, so that trimming leaves it as it is. -/
theorem credential_key_clean (key : QByteArray) (h : isCredentialKey key) :
    COLON ∉ key ∧ LF ∉ key ∧ trimmed key = key := by
  have hl := credential_key_letters key h
  refine ⟨fun hc => ?_, fun hc => ?_, ?_⟩
  · exact absurd (hl COLON hc) (by decide)
  · exact absurd (hl LF hc) (by decide)
  · apply trimmed_of_no_space
    intro c hc
    exact isSpace_of_letter c (hl c hc)

theorem parseHeaderLine_credential (f : QStompFrame) (key v : QByteArray)
    (hk : isCredentialKey key) :
    f.parseHeaderLine (key ++ [COLON] ++ v) = (true, f.addHeaderValue key v) := by
  obtain ⟨hc, -, ht⟩ := credential_key_clean key hk
  have hi : indexOf [COLON] (key ++ [COLON] ++ v) = some key.length := by
    simpa using indexOf_single_append COLON key v hc
  unfold QStomp.QStompFrame.parseHeaderLine
  have hl : left (key ++ [COLON] ++ v) key.length = key := by simp [left]
  have hm : midFrom (key ++ [COLON] ++ v) (key.length + 1) = v := by
    have : key ++ [COLON] ++ v = (key ++ [COLON]) ++ v := by simp
    rw [midFrom, this, List.drop_left']
    simp
  simp only [hi, hl, hm, ht]
  have : ¬ (toLower key ≠ ascii "passcode" ∧ toLower key ≠ ascii "login") := by
    unfold isCredentialKey at hk
    tauto
  rw [if_neg this]

theorem parseHeaderLine_plain (f : QStompFrame) (key v : QByteArray) (hc : COLON ∉ key)
    (hk : ¬ isCredentialKey (trimmed key)) :
    f.parseHeaderLine (key ++ [COLON] ++ v) =
      (true, f.addHeaderValue (trimmed key) (trimmed v)) := by
  have hi : indexOf [COLON] (key ++ [COLON] ++ v) = some key.length := by
    simpa using indexOf_single_append COLON key v hc
  unfold QStomp.QStompFrame.parseHeaderLine
  have hl : left (key ++ [COLON] ++ v) key.length = key := by simp [left]
  have hm : midFrom (key ++ [COLON] ++ v) (key.length + 1) = v := by
    have : key ++ [COLON] ++ v = (key ++ [COLON]) ++ v := by simp
    rw [midFrom, this, List.drop_left']
    simp
  simp only [hi, hl, hm]
  have : toLower (trimmed key) ≠ ascii "passcode" ∧ toLower (trimmed key) ≠ ascii "login" := by
    unfold isCredentialKey at hk
    tauto
  rw [if_pos this]

/-- Parsing the wire line of a header that round-trips gives that header back. -/
theorem parseHeaderLine_headerLine (f : QStompFrame) (kv : QByteArray × QByteArray)
    (h : headerRoundTrips kv) :
    f.parseHeaderLine (headerLine kv) = (true, f.addHeaderValue kv.1 kv.2) := by
  obtain ⟨hc, -, htk, -, hv⟩ := h
  unfold headerLine
  by_cases hk : isCredentialKey kv.1
  · rw [if_pos hk]
    exact parseHeaderLine_credential f kv.1 kv.2 hk
  · rw [if_neg hk]
    have hv1 : trimmed kv.2 = kv.2 := hv.resolve_left hk
    have e : kv.1 ++ [COLON, 32] ++ kv.2 = kv.1 ++ [COLON] ++ (32 :: kv.2) := by simp
    rw [e, parseHeaderLine_plain f kv.1 (32 :: kv.2) hc (by rw [htk]; exact hk), htk,
      trimmed_cons_space, hv1]

theorem headerLine_clean (kv : QByteArray × QByteArray) (h : headerRoundTrips kv) :
    headerLine kv ≠ [] ∧ LF ∉ headerLine kv := by
  obtain ⟨-, hlk, -, hlv, -⟩ := h
  unfold headerLine
  split
  · refine ⟨by simp, ?_⟩
    simp only [List.mem_append, List.mem_singleton, not_or]
    exact ⟨⟨hlk, by decide⟩, hlv⟩
  · refine ⟨by simp, ?_⟩
    simp only [List.mem_append, List.mem_cons, List.mem_singleton, List.not_mem_nil, or_false,
      not_or]
    exact ⟨⟨hlk, by decide, by decide⟩, hlv⟩

theorem parseLines_headerLines {τ : Type}
    (phl : QStompFrame × τ → QByteArray → Nat → Bool × (QStompFrame × τ))
    (hdel : ∀ s line i, i ≠ 0 →
      phl s line i = ((s.1.parseHeaderLine line).1, ((s.1.parseHeaderLine line).2, s.2)))
    (hs : QStompHeaderList) (hh : ∀ kv ∈ hs, headerRoundTrips kv) (i : Nat) (hi : i ≠ 0)
    (s : QStompFrame × τ) :
    parseLines phl (hs.map headerLine) i s =
      (true, ({ s.1 with m_header := s.1.m_header ++ hs }, s.2)) := by
  induction hs generalizing i s with
  | nil => simp [parseLines]
  | cons kv rest ih =>
    rw [List.map_cons, parseLines, hdel s _ i hi,
      parseHeaderLine_headerLine s.1 kv (hh kv (by simp))]
    simp only
    rw [ih (fun x hx => hh x (by simp [hx])) (i + 1) (by omega)]
    simp [QStomp.QStompFrame.addHeaderValue]

theorem headerBlock_append_newline (cmd : QByteArray) (lines : List QByteArray) :
    headerBlock cmd lines ++ [LF] = cmd ++ [LF] ++ (lines.map fun l => l ++ [LF]).flatten := by
  induction lines generalizing cmd with
  | nil => simp [headerBlock]
  | cons l ls ih =>
    simp only [headerBlock, List.cons_append, List.append_assoc, List.map_cons, List.flatten_cons]
    have := ih l
    simp only [List.append_assoc] at this
    rw [this]
    simp

/-- The bytes of a valid base frame behind a command line are the wire form
of the grammar. -/
theorem command_toByteArray_eq_frameBytes (cmd : QByteArray) (f : QStompFrame)
    (h : f.m_valid = true) :
    cmd ++ [LF] ++ f.toByteArray = frameBytes cmd (f.m_header.map headerLine) f.m_body := by
  rw [toByteArray_valid f h]
  unfold frameBytes
  have := headerBlock_append_newline cmd (f.m_header.map headerLine)
  have e : headerBlock cmd (f.m_header.map headerLine) ++ LF :: LF :: f.m_body =
      (headerBlock cmd (f.m_header.map headerLine) ++ [LF]) ++ LF :: f.m_body := by simp
  rw [e, this]
  simp [List.map_map, Function.comp_def]

/-- The core of the round trip: parsing the wire form of a command line,
headers that round-trip and a body followed by the terminator gives the
headers and the body back. -/
theorem parse_frameBytes {τ : Type} (qt : QtLib)
    (phl : QStompFrame × τ → QByteArray → Nat → Bool × (QStompFrame × τ))
    (hdel : ∀ s line i, i ≠ 0 →
      phl s line i = ((s.1.parseHeaderLine line).1, ((s.1.parseHeaderLine line).2, s.2)))
    (cmd : QByteArray) (ty init : τ) (hcmd : ∀ s, phl s cmd 0 = (true, (s.1, ty)))
    (hclf : LF ∉ cmd) (hs : QStompHeaderList) (body : QByteArray)
    (hh : ∀ kv ∈ hs, headerRoundTrips kv) (hcl : contentLengthAgrees qt hs body) :
    QStompFrame.parse qt phl (QStompFrame.new, init)
        (frameBytes cmd (hs.map headerLine) (body ++ [NUL, LF])) =
      (true, ({ m_header := hs, m_valid := true, m_body := body }, ty)) := by
  have hlines : ∀ l ∈ hs.map headerLine, l ≠ [] ∧ LF ∉ l := by
    intro l hl
    obtain ⟨kv, hkv, rfl⟩ := List.mem_map.1 hl
    exact headerLine_clean kv (hh kv hkv)
  have hsep := indexOf_sep_frameBytes cmd (hs.map headerLine) (body ++ [NUL, LF]) hclf hlines
  have hleft : left (frameBytes cmd (hs.map headerLine) (body ++ [NUL, LF]))
      (headerBlock cmd (hs.map headerLine)).length = headerBlock cmd (hs.map headerLine) := by
    simp [left, frameBytes]
  have hmid : midFrom (frameBytes cmd (hs.map headerLine) (body ++ [NUL, LF]))
      ((headerBlock cmd (hs.map headerLine)).length + 2) = body ++ [NUL, LF] := by
    have e : frameBytes cmd (hs.map headerLine) (body ++ [NUL, LF]) =
        (headerBlock cmd (hs.map headerLine) ++ [LF, LF]) ++ (body ++ [NUL, LF]) := by
      simp [frameBytes]
    rw [midFrom, e, List.drop_left']
    simp
  unfold QStomp.QStompFrame.parse
  simp only [hsep, hleft, hmid,
    split_headerBlock cmd (hs.map headerLine) hclf (fun l hl => (hlines l hl).2)]
  simp only [List.isEmpty_cons, Bool.false_eq_true, if_false]
  rw [parseLines, hcmd]
  simp only
  rw [parseLines_headerLines phl hdel hs hh 1 (by omega)]
  simp only [QStomp.QStompFrame.new, List.nil_append]
  by_cases hc : QStompFrame.hasContentLength { m_header := hs, m_valid := true, m_body := body } = true
  · have hc2 : QStompFrame.hasContentLength
        { m_header := hs, m_valid := true, m_body := body ++ [NUL, LF] } = true := hc
    obtain ⟨hn, hlt⟩ := hcl hc
    have hn2 : QStompFrame.contentLength qt
        { m_header := hs, m_valid := true, m_body := body ++ [NUL, LF] } = body.length := by
      show (qt.toUInt (QStompFrame.headerValue
        { m_header := hs, m_valid := true, m_body := body } (ascii "content-length"))).getD 0 = _
      rw [hn]
      rfl
    rw [if_pos hc2, hn2, resize_of_le qt _ _ hlt (by simp)]
    simp
  · have hc2 : ¬ QStompFrame.hasContentLength
        { m_header := hs, m_valid := true, m_body := body ++ [NUL, LF] } = true := hc
    rw [if_neg hc2, if_pos (endsWith_append body [NUL, LF])]
    have := chop_append body [NUL, LF]
    simp only [List.length_cons, List.length_nil] at this
    simp [this]

/-! ## Facts about frames built through the public interface -/

theorem request_command_valid : ∀ c ∈ REQUEST_COMMANDS, c ∈ VALID_COMMANDS := by
  decide

theorem request_parseHeaderLine_zero (s : QStompFrame × RequestType) (cmd : QByteArray)
    (h : cmd ∈ REQUEST_COMMANDS) :
    QStompRequestFrame.parseHeaderLine s cmd 0 = (true, (s.1, requestTypeOf cmd)) := by
  simp only [REQUEST_COMMANDS, List.mem_cons, List.mem_singleton, List.not_mem_nil,
    or_false] at h
  rcases h with rfl | rfl | rfl | rfl | rfl | rfl | rfl | rfl | rfl <;>
    simp [QStompRequestFrame.parseHeaderLine, requestTypeOf] <;> split_ifs <;> rfl

theorem response_build_eq (ty : ResponseType) (hs : QStompHeaderList) (body : QByteArray)
    (h : ty ≠ .ResponseInvalid) :
    QStompResponseFrame.build ty hs body =
      { base := { m_header := hs, m_valid := true, m_body := body }, m_type := ty } := by
  cases ty <;> first | rfl | exact absurd rfl h

theorem request_build_eq (ty : RequestType) (hs : QStompHeaderList) (body : QByteArray)
    (h : ty ≠ .RequestInvalid) :
    QStompRequestFrame.build ty hs body =
      { base := { m_header := hs, m_valid := true, m_body := body }, m_type := ty } := by
  cases ty <;> first | rfl | exact absurd rfl h

/-- The command line that `QStompResponseFrame::toByteArray` puts before the
bytes of the base class is the token the response parser maps to the type. -/
theorem response_toByteArray_token (f : QStompResponseFrame) (hv : f.isValid = true)
    (hty : f.m_type ≠ .ResponseInvalid) :
    ∃ cmd ∈ RESPONSE_COMMANDS, responseTypeOf cmd = f.m_type ∧
      f.toByteArray = cmd ++ [LF] ++ f.base.toByteArray := by
  obtain ⟨base, ty⟩ := f
  simp only at hty
  cases ty with
  | ResponseInvalid => exact absurd rfl hty
  | ResponseConnected =>
    exact ⟨ascii "CONNECTED", by decide, rfl, by
      simp only [QStomp.QStompResponseFrame.toByteArray, hv]; rfl⟩
  | ResponseMessage =>
    exact ⟨ascii "MESSAGE", by decide, rfl, by
      simp only [QStomp.QStompResponseFrame.toByteArray, hv]; rfl⟩
  | ResponseReceipt =>
    exact ⟨ascii "RECEIPT", by decide, rfl, by
      simp only [QStomp.QStompResponseFrame.toByteArray, hv]; rfl⟩
  | ResponseError =>
    exact ⟨ascii "ERROR", by decide, rfl, by
      simp only [QStomp.QStompResponseFrame.toByteArray, hv]; rfl⟩

/-- The command line that `QStompRequestFrame::toByteArray` puts before the
bytes of the base class is the token the request parser maps to the type. -/
theorem request_toByteArray_token (f : QStompRequestFrame) (hv : f.isValid = true)
    (hty : f.m_type ≠ .RequestInvalid) :
    ∃ cmd ∈ REQUEST_COMMANDS, requestTypeOf cmd = f.m_type ∧
      f.toByteArray = cmd ++ [LF] ++ f.base.toByteArray := by
  obtain ⟨base, ty⟩ := f
  simp only at hty
  cases ty with
  | RequestInvalid => exact absurd rfl hty
  | RequestConnect =>
    exact ⟨ascii "CONNECT", by decide, rfl, by
      simp only [QStomp.QStompRequestFrame.toByteArray, hv]; rfl⟩
  | RequestSend =>
    exact ⟨ascii "SEND", by decide, rfl, by
      simp only [QStomp.QStompRequestFrame.toByteArray, hv]; rfl⟩
  | RequestSubscribe =>
    exact ⟨ascii "SUBSCRIBE", by decide, rfl, by
      simp only [QStomp.QStompRequestFrame.toByteArray, hv]; rfl⟩
  | RequestUnsubscribe =>
    exact ⟨ascii "UNSUBSCRIBE", by decide, rfl, by
      simp only [QStomp.QStompRequestFrame.toByteArray, hv]; rfl⟩
  | RequestBegin =>
    exact ⟨ascii "BEGIN", by decide, rfl, by
      simp only [QStomp.QStompRequestFrame.toByteArray, hv]; rfl⟩
  | RequestCommit =>
    exact ⟨ascii "COMMIT", by decide, rfl, by
      simp only [QStomp.QStompRequestFrame.toByteArray, hv]; rfl⟩
  | RequestAbort =>
    exact ⟨ascii "ABORT", by decide, rfl, by
      simp only [QStomp.QStompRequestFrame.toByteArray, hv]; rfl⟩
  | RequestAck =>
    exact ⟨ascii "ACK", by decide, rfl, by
      simp only [QStomp.QStompRequestFrame.toByteArray, hv]; rfl⟩
  | RequestDisconnect =>
    exact ⟨ascii "DISCONNECT", by decide, rfl, by
      simp only [QStomp.QStompRequestFrame.toByteArray, hv]; rfl⟩

theorem frameBytes_append (cmd : QByteArray) (lines : List QByteArray) (body t : QByteArray) :
    frameBytes cmd lines body ++ t = frameBytes cmd lines (body ++ t) := by
  simp [frameBytes]

/-- Round trip of a response frame whose headers round-trip. -/
theorem response_round_trip (qt : QtLib) (ty : ResponseType) (hs : QStompHeaderList)
    (body : QByteArray) (hty : ty ≠ .ResponseInvalid) (hh : ∀ kv ∈ hs, headerRoundTrips kv)
    (hcl : contentLengthAgrees qt hs body) :
    QStompResponseFrame.fromBytes qt ((QStompResponseFrame.build ty hs body).toByteArray ++ [NUL, LF]) =
      QStompResponseFrame.build ty hs body := by
  rw [response_build_eq ty hs body hty]
  obtain ⟨cmd, hc, hcty, hser⟩ := response_toByteArray_token
    { base := { m_header := hs, m_valid := true, m_body := body }, m_type := ty } rfl hty
  rw [hser, command_toByteArray_eq_frameBytes cmd _ rfl, frameBytes_append]
  simp only at hcty
  have hp := parse_frameBytes qt QStompResponseFrame.parseHeaderLine response_delegates cmd ty
    ResponseType.ResponseInvalid
    (fun s => by rw [response_parseHeaderLine_zero s cmd hc, hcty])
    (valid_command_clean cmd (response_command_valid cmd hc)).1 hs body hh hcl
  unfold QStomp.QStompResponseFrame.fromBytes
  simp only [hp]

/-- Round trip of a request frame whose headers round-trip. -/
theorem request_round_trip (qt : QtLib) (ty : RequestType) (hs : QStompHeaderList)
    (body : QByteArray) (hty : ty ≠ .RequestInvalid) (hh : ∀ kv ∈ hs, headerRoundTrips kv)
    (hcl : contentLengthAgrees qt hs body) :
    QStompRequestFrame.fromBytes qt ((QStompRequestFrame.build ty hs body).toByteArray ++ [NUL, LF]) =
      QStompRequestFrame.build ty hs body := by
  rw [request_build_eq ty hs body hty]
  obtain ⟨cmd, hc, hcty, hser⟩ := request_toByteArray_token
    { base := { m_header := hs, m_valid := true, m_body := body }, m_type := ty } rfl hty
  rw [hser, command_toByteArray_eq_frameBytes cmd _ rfl, frameBytes_append]
  simp only at hcty
  have hp := parse_frameBytes qt QStompRequestFrame.parseHeaderLine request_delegates cmd ty
    RequestType.RequestInvalid
    (fun s => by rw [request_parseHeaderLine_zero s cmd hc, hcty])
    (valid_command_clean cmd (request_command_valid cmd hc)).1 hs body hh hcl
  unfold QStomp.QStompRequestFrame.fromBytes
  simp only [hp]

theorem getElem_replace {α : Type} (pre post : List α) (a b x : α) (i : Nat)
    (h : (pre ++ a :: post)[i]? = some x) (hne : i ≠ pre.length) :
    (pre ++ b :: post)[i]? = some x := by
  induction pre generalizing i with
  | nil =>
    cases i with
    | zero => exact absurd rfl hne
    | succ j => simpa using h
  | cons p ps ih =>
    cases i with
    | zero => simpa using h
    | succ j =>
      simp only [List.cons_append, List.getElem?_cons_succ] at h ⊢
      exact ih j h (by simpa using hne)

theorem getElem_at_length {α : Type} (pre post : List α) (a : α) :
    (pre ++ a :: post)[pre.length]? = some a := by
  rw [List.getElem?_append_right (Nat.le_refl _)]
  simp

/-! ## The claims about frames -/

/-- C11, counterexample: the response frame CONNECTED with the one header
`("k", " v")` (the key has no newline and no colon) and the body `"hello"`
serialises to `"CONNECTED\nk:  v\n\nhello"`; parsing that with the terminator
gives the header `("k", "v")`: the value comes back trimmed. -/
theorem serialise_parse_counterexample :
    COLON ∉ ascii "k" ∧ LF ∉ ascii "k" ∧
      (QStompResponseFrame.build .ResponseConnected [(ascii "k", ascii " v")]
        (ascii "hello")).toByteArray = ascii "CONNECTED\nk:  v\n\nhello" ∧
      (QStompResponseFrame.fromBytes qtRef
        ((QStompResponseFrame.build .ResponseConnected [(ascii "k", ascii " v")]
          (ascii "hello")).toByteArray ++ [NUL, LF])).base.m_header = [(ascii "k", ascii "v")] ∧
      [(ascii "k", ascii "v")] ≠ [(ascii "k", ascii " v")] := by
  decide

/-- C11, amended (serialise and parse round trip): for every response or
request frame built with a type other than INVALID, headers whose keys have
no colon, no newline and no white space at their ends and whose values have
no newline and (except for `login` and `passcode`) no white space at their
ends, and a body whose length agrees with the `content-length` header if
there is one, parsing `toByteArray(frame) ++ NUL '\n'` with the parser of the
same direction gives the frame back: valid, same type, same header list, same
raw body. -/
theorem serialise_parse_round_trip (qt : QtLib) (hs : QStompHeaderList) (body : QByteArray)
    (hh : ∀ kv ∈ hs, headerRoundTrips kv) (hcl : contentLengthAgrees qt hs body) :
    (∀ ty, ty ≠ ResponseType.ResponseInvalid →
      QStompResponseFrame.fromBytes qt
          ((QStompResponseFrame.build ty hs body).toByteArray ++ [NUL, LF]) =
        QStompResponseFrame.build ty hs body ∧
      (QStompResponseFrame.build ty hs body).isValid = true ∧
      (QStompResponseFrame.build ty hs body).m_type = ty ∧
      (QStompResponseFrame.build ty hs body).base.m_header = hs ∧
      (QStompResponseFrame.build ty hs body).base.m_body = body) ∧
    (∀ ty, ty ≠ RequestType.RequestInvalid →
      QStompRequestFrame.fromBytes qt
          ((QStompRequestFrame.build ty hs body).toByteArray ++ [NUL, LF]) =
        QStompRequestFrame.build ty hs body ∧
      (QStompRequestFrame.build ty hs body).isValid = true ∧
      (QStompRequestFrame.build ty hs body).m_type = ty ∧
      (QStompRequestFrame.build ty hs body).base.m_header = hs ∧
      (QStompRequestFrame.build ty hs body).base.m_body = body) := by
  constructor
  · intro ty hty
    refine ⟨response_round_trip qt ty hs body hty hh hcl, ?_⟩
    rw [response_build_eq ty hs body hty]
    exact ⟨rfl, rfl, rfl, rfl⟩
  · intro ty hty
    refine ⟨request_round_trip qt ty hs body hty hh hcl, ?_⟩
    rw [request_build_eq ty hs body hty]
    exact ⟨rfl, rfl, rfl, rfl⟩

/-- C11, amended, at the SEND frame with the headers `("destination", "/q")`
and `("passcode", " pw ")` and the body `"hello"`. -/
theorem serialise_parse_round_trip_witness :
    (∀ kv ∈ [(ascii "destination", ascii "/q"), (ascii "passcode", ascii " pw ")],
        headerRoundTrips kv) ∧
      contentLengthAgrees qtRef
        [(ascii "destination", ascii "/q"), (ascii "passcode", ascii " pw ")] (ascii "hello") ∧
      QStompRequestFrame.fromBytes qtRef
          ((QStompRequestFrame.build .RequestSend
            [(ascii "destination", ascii "/q"), (ascii "passcode", ascii " pw ")]
            (ascii "hello")).toByteArray ++ [NUL, LF]) =
        QStompRequestFrame.build .RequestSend
          [(ascii "destination", ascii "/q"), (ascii "passcode", ascii " pw ")] (ascii "hello") :=
  ⟨by decide, by decide,
    ((serialise_parse_round_trip qtRef [(ascii "destination", ascii "/q"), (ascii "passcode", ascii " pw ")]
      (ascii "hello") (by decide) (by decide)).2 .RequestSend (by decide)).1⟩

/-- C12 (parse validity, exactly): the response frame constructed from `F` is
valid if and only if `F` has a blank line, the first line of the header block
(the bytes before the first blank line, split at newlines) is one of
CONNECTED, MESSAGE, RECEIPT, ERROR byte for byte, and every later line has a
colon; the same for request frames with the nine request tokens. A token of
the other direction, another letter case or extra white space on the first
line gives an invalid frame. -/
theorem parse_validity_exact (qt : QtLib) (F : QByteArray) :
    ((QStompResponseFrame.fromBytes qt F).isValid = true ↔
      ∃ h first rest, firstAt [LF, LF] F h ∧ split LF (F.take h) = first :: rest ∧
        first ∈ RESPONSE_COMMANDS ∧ ∀ l ∈ rest, COLON ∈ l) ∧
    ((QStompRequestFrame.fromBytes qt F).isValid = true ↔
      ∃ h first rest, firstAt [LF, LF] F h ∧ split LF (F.take h) = first :: rest ∧
        first ∈ REQUEST_COMMANDS ∧ ∀ l ∈ rest, COLON ∈ l) ∧
    (QStompResponseFrame.fromBytes qt (ascii "SEND\n\n")).isValid = false ∧
    (QStompResponseFrame.fromBytes qt (ascii "connected\n\n")).isValid = false ∧
    (QStompResponseFrame.fromBytes qt (ascii "CONNECTED \n\n")).isValid = false ∧
    (QStompRequestFrame.fromBytes qt (ascii "MESSAGE\n\n")).isValid = false ∧
    (QStompRequestFrame.fromBytes qt (ascii "Send\n\n")).isValid = false ∧
    (QStompRequestFrame.fromBytes qt (ascii " SEND\n\n")).isValid = false := by
  refine ⟨?_, ?_, rfl, rfl, rfl, rfl, rfl, rfl⟩
  · exact parse_valid_iff qt QStompResponseFrame.parseHeaderLine (· ∈ RESPONSE_COMMANDS)
      response_line0_iff
      (fun s line i hi => by rw [response_delegates s line i hi]) _ F
  · exact parse_valid_iff qt QStompRequestFrame.parseHeaderLine (· ∈ REQUEST_COMMANDS)
      request_line0_iff
      (fun s line i hi => by rw [request_delegates s line i hi]) _ F

/-- C13 (content-length truncates the parsed body): for a byte range `F` (of
a size a `QByteArray` can have) that parses as a frame of any kind, whose
first `content-length` header converts to `n`, and whose provisional body
(the bytes after the first blank line) has at least `n` bytes, the raw body
is the first `n` bytes of the provisional body; nothing else is stripped. -/
theorem content_length_truncates (qt : QtLib) (kind : FrameKind) (F : QByteArray) (n h : Nat)
    (hsize : F.length < 2 ^ 31) (hv : (parsedBase qt kind F).m_valid = true)
    (hh : firstAt [LF, LF] F h) (hcl : (parsedBase qt kind F).hasContentLength = true)
    (hn : qt.toUInt ((parsedBase qt kind F).headerValue (ascii "content-length")) = some n)
    (hle : n ≤ (F.drop (h + 2)).length) :
    (parsedBase qt kind F).m_body = (F.drop (h + 2)).take n := by
  have hcn : (parsedBase qt kind F).contentLength qt = n := by
    unfold QStomp.QStompFrame.contentLength
    rw [hn]
    rfl
  rw [parsedBase_body qt kind F h hh hv, if_pos hcl, hcn]
  have hn31 : n < 2 ^ 31 := by
    have : (F.drop (h + 2)).length ≤ F.length := by simp
    omega
  exact resize_of_le qt _ n hn31 hle

/-- C13 at `"MESSAGE\ncontent-length: 3\n\nabcdef"`: the body is `"abc"`. -/
theorem content_length_truncates_witness :
    (ascii "MESSAGE\ncontent-length: 3\n\nabcdef").length < 2 ^ 31 ∧
      firstAt [LF, LF] (ascii "MESSAGE\ncontent-length: 3\n\nabcdef") 25 ∧
      (parsedBase qtRef .response (ascii "MESSAGE\ncontent-length: 3\n\nabcdef")).m_body =
        ((ascii "MESSAGE\ncontent-length: 3\n\nabcdef").drop (25 + 2)).take 3 ∧
      ((ascii "MESSAGE\ncontent-length: 3\n\nabcdef").drop (25 + 2)).take 3 = ascii "abc" :=
  ⟨by decide, by decide,
    content_length_truncates qtRef .response (ascii "MESSAGE\ncontent-length: 3\n\nabcdef") 3 25
      (by decide) (by decide) (by decide) (by decide) (by decide) (by decide),
    by decide⟩

/-- The raw body when the content length exceeds the provisional body: for a
byte range that parses as a frame of any kind, whose first `content-length`
header converts to `n < 2 ^ 31`, and whose provisional body has `m < n` bytes,
the raw body has exactly `n` bytes: the `m` provisional bytes followed by the
`n - m` bytes that `QByteArray::resize` adds, whose values the code does not
set. They are zero bytes when `resize` leaves zeros. -/
theorem content_length_extends (qt : QtLib) (kind : FrameKind) (F : QByteArray) (n h : Nat)
    (hv : (parsedBase qt kind F).m_valid = true) (hh : firstAt [LF, LF] F h)
    (hcl : (parsedBase qt kind F).hasContentLength = true)
    (hn : qt.toUInt ((parsedBase qt kind F).headerValue (ascii "content-length")) = some n)
    (hn31 : n < 2 ^ 31) (hlt : (F.drop (h + 2)).length < n) :
    (parsedBase qt kind F).m_body =
        F.drop (h + 2) ++ (List.range (n - (F.drop (h + 2)).length)).map qt.fresh ∧
      (parsedBase qt kind F).m_body.length = n ∧
      (parsedBase qt kind F).m_body.take (F.drop (h + 2)).length = F.drop (h + 2) ∧
      ((∀ i, qt.fresh i = 0) →
        (parsedBase qt kind F).m_body =
          F.drop (h + 2) ++ List.replicate (n - (F.drop (h + 2)).length) 0) := by
  have hcn : (parsedBase qt kind F).contentLength qt = n := by
    unfold QStomp.QStompFrame.contentLength
    rw [hn]
    rfl
  have hb : (parsedBase qt kind F).m_body =
      F.drop (h + 2) ++ (List.range (n - (F.drop (h + 2)).length)).map qt.fresh := by
    rw [parsedBase_body qt kind F h hh hv, if_pos hcl, hcn]
    exact resize_of_gt qt _ n hn31 hlt
  refine ⟨hb, ?_, ?_, ?_⟩
  · rw [hb]
    simp only [List.length_append, List.length_map, List.length_range]
    omega
  · rw [hb, List.take_left']
    rfl
  · intro h0
    rw [hb]
    congr 1
    apply List.ext_getElem
    · simp
    · intro i h1 h2
      simp [h0]

/-- C14 (content-length and a short body): `QStompFrame::parse` calls
`d->m_body.resize(this->contentLength())` and writes nothing into the bytes
that the call adds. At the byte range `"MESSAGE\ncontent-length: 10\n\nab"`,
with the decimal `toUInt` and whatever content `fresh` the call leaves in the
added bytes, the frame is valid and its raw body has ten bytes: `"ab"` followed
by the eight added bytes `fresh 0`, ..., `fresh 7`. The body is `"ab"` followed
by eight zero bytes exactly when all eight added bytes happen to be zero;
no statement of the code makes them so. -/
theorem content_length_padding_not_set (fresh : Nat → Byte) :
    (parsedBase { toUInt := qtRef.toUInt, fresh := fresh } .response
        (ascii "MESSAGE\ncontent-length: 10\n\nab")).m_valid = true ∧
      (parsedBase { toUInt := qtRef.toUInt, fresh := fresh } .response
        (ascii "MESSAGE\ncontent-length: 10\n\nab")).m_body =
          ascii "ab" ++ (List.range 8).map fresh ∧
      (parsedBase { toUInt := qtRef.toUInt, fresh := fresh } .response
        (ascii "MESSAGE\ncontent-length: 10\n\nab")).m_body.length = 10 ∧
      ((parsedBase { toUInt := qtRef.toUInt, fresh := fresh } .response
        (ascii "MESSAGE\ncontent-length: 10\n\nab")).m_body =
          ascii "ab" ++ List.replicate 8 0 ↔ ∀ i < 8, fresh i = 0) := by
  have hb : (parsedBase { toUInt := qtRef.toUInt, fresh := fresh } .response
      (ascii "MESSAGE\ncontent-length: 10\n\nab")).m_body =
        ascii "ab" ++ (List.range 8).map fresh :=
    (content_length_extends { toUInt := qtRef.toUInt, fresh := fresh } .response
      (ascii "MESSAGE\ncontent-length: 10\n\nab") 10 26 rfl (by decide) rfl rfl (by decide)
      (by decide)).1
  refine ⟨rfl, hb, ?_, ?_⟩
  · rw [hb]
    rfl
  · rw [hb]
    constructor
    · intro h i hi
      have h2 : (List.range 8).map fresh = List.replicate 8 0 := List.append_cancel_left h
      have h3 := congrArg (fun l => l[i]?) h2
      simp only [List.getElem?_map, List.getElem?_range hi, List.getElem?_replicate, hi,
        if_true, Option.map_some'] at h3
      exact Option.some.inj h3
    · intro h
      congr 1
      apply List.ext_getElem
      · simp
      · intro i h1 h2
        simp only [List.length_map, List.length_range] at h1
        rw [List.getElem_map, List.getElem_range, List.getElem_replicate]
        exact h i h1

/-- C15 (terminator stripping in the parser): for a byte range that parses as
a frame of any kind and has no `content-length` header, a provisional body
`X ++ NUL '\n'` gives the raw body `X` (two bytes are removed, whatever `X`
ends with), and a provisional body that does not end with NUL `'\n'` is the
raw body as it is. -/
theorem terminator_stripping (qt : QtLib) (kind : FrameKind) (F : QByteArray) (h : Nat)
    (hv : (parsedBase qt kind F).m_valid = true) (hh : firstAt [LF, LF] F h)
    (hcl : (parsedBase qt kind F).hasContentLength = false) :
    (∀ X, F.drop (h + 2) = X ++ [NUL, LF] → (parsedBase qt kind F).m_body = X) ∧
      ((¬ ∃ X, F.drop (h + 2) = X ++ [NUL, LF]) →
        (parsedBase qt kind F).m_body = F.drop (h + 2)) := by
  have hb := parsedBase_body qt kind F h hh hv
  rw [hcl] at hb
  simp only [Bool.false_eq_true, if_false] at hb
  constructor
  · intro X hX
    rw [hb, hX, if_pos (endsWith_append X [NUL, LF])]
    exact chop_append X [NUL, LF]
  · intro hX
    rw [hb, if_neg (fun he => hX ((endsWith_iff _ _).1 he))]

/-- C15 at `"MESSAGE\n\nhello" ++ NUL '\n' ++ NUL '\n'`: the body is
`"hello" ++ NUL '\n'`. -/
theorem terminator_stripping_witness :
    firstAt [LF, LF] (ascii "MESSAGE\n\nhello\x00\n\x00\n") 7 ∧
      (ascii "MESSAGE\n\nhello\x00\n\x00\n").drop (7 + 2) = ascii "hello\x00\n" ++ [NUL, LF] ∧
      (parsedBase qtRef .response (ascii "MESSAGE\n\nhello\x00\n\x00\n")).m_body =
        ascii "hello\x00\n" :=
  ⟨by decide, by decide,
    (terminator_stripping qtRef .response (ascii "MESSAGE\n\nhello\x00\n\x00\n") 7
      (by decide) (by decide) (by decide)).1 (ascii "hello\x00\n") (by decide)⟩

/-- C16 (credentials are preserved verbatim): for a key that is `login` or
`passcode` in any letter case and a value `v` without newline, `toByteArray`
emits the header as `key ++ ":" ++ v ++ "\n"` with no space inserted,
`parseHeaderLine` on that line returns exactly `(key, v)`, and parsing the
serialised response or request frame returns exactly `v` for that key; for
any other key the parsed key and value are trimmed of surrounding white
space. -/
theorem credentials_verbatim (qt : QtLib) (key v : QByteArray) (hk : isCredentialKey key)
    (hv : LF ∉ v) :
    (∀ pre post body,
      QStompFrame.toByteArray
          { m_header := pre ++ (key, v) :: post, m_valid := true, m_body := body } =
        (pre.map fun kv => headerLine kv ++ [LF]).flatten ++ (key ++ [COLON] ++ v ++ [LF]) ++
          (post.map fun kv => headerLine kv ++ [LF]).flatten ++ [LF] ++ body) ∧
    (∀ f : QStompFrame, f.parseHeaderLine (key ++ [COLON] ++ v) = (true, f.addHeaderValue key v)) ∧
    (∀ ty body, ty ≠ ResponseType.ResponseInvalid →
      (QStompResponseFrame.fromBytes qt
        ((QStompResponseFrame.build ty [(key, v)] body).toByteArray ++ [NUL, LF])).base.headerValue
          key = v) ∧
    (∀ ty body, ty ≠ RequestType.RequestInvalid →
      (QStompRequestFrame.fromBytes qt
        ((QStompRequestFrame.build ty [(key, v)] body).toByteArray ++ [NUL, LF])).base.headerValue
          key = v) ∧
    (∀ (f : QStompFrame) (k w : QByteArray), COLON ∉ k → ¬ isCredentialKey (trimmed k) →
      f.parseHeaderLine (k ++ [COLON] ++ w) =
        (true, f.addHeaderValue (trimmed k) (trimmed w))) := by
  obtain ⟨hc, hlf, ht⟩ := credential_key_clean key hk
  have hrt : ∀ kv ∈ [(key, v)], headerRoundTrips kv := by
    intro kv hkv
    rw [List.mem_singleton] at hkv
    subst hkv
    exact ⟨hc, hlf, ht, hv, Or.inl hk⟩
  have hnocl : ∀ body, contentLengthAgrees qt [(key, v)] body := by
    intro body hcl
    exfalso
    have e : toLower (ascii "content-length") = ascii "content-length" := by decide
    simp only [QStomp.QStompFrame.hasContentLength, QStomp.QStompFrame.headerHasKey, e,
      List.any_cons, List.any_nil, Bool.or_false, beq_iff_eq] at hcl
    rcases hk with h | h
    · rw [h] at hcl
      revert hcl
      decide
    · rw [h] at hcl
      revert hcl
      decide
  have hval : ∀ body, QStompFrame.headerValue
      { m_header := [(key, v)], m_valid := true, m_body := body } key = v := fun body =>
    headerValue_of_first _ key [] [] (key, v) rfl rfl (by simp)
  refine ⟨?_, fun f => parseHeaderLine_credential f key v hk, ?_, ?_,
    fun f k w hck hnk => parseHeaderLine_plain f k w hck hnk⟩
  · intro pre post body
    rw [toByteArray_valid _ rfl]
    simp [headerLine, hk]
  · intro ty body hty
    rw [response_round_trip qt ty [(key, v)] body hty hrt (hnocl body),
      response_build_eq ty _ body hty]
    exact hval body
  · intro ty body hty
    rw [request_round_trip qt ty [(key, v)] body hty hrt (hnocl body),
      request_build_eq ty _ body hty]
    exact hval body

/-- C16 at the header `("Passcode", "  s3cret ")` of a CONNECT frame. -/
theorem credentials_verbatim_witness :
    isCredentialKey (ascii "Passcode") ∧ LF ∉ ascii "  s3cret " ∧
      QStompFrame.toByteArray
          { m_header := [] ++ (ascii "Passcode", ascii "  s3cret ") :: [], m_valid := true,
            m_body := [] } =
        ascii "Passcode:  s3cret \n\n" ∧
      (QStompRequestFrame.fromBytes qtRef
        ((QStompRequestFrame.build .RequestConnect [(ascii "Passcode", ascii "  s3cret ")]
          []).toByteArray ++ [NUL, LF])).base.headerValue (ascii "Passcode") =
        ascii "  s3cret " :=
  ⟨by decide, by decide,
    ((credentials_verbatim qtRef (ascii "Passcode") (ascii "  s3cret ") (by decide)
      (by decide)).1 [] [] []).trans (by decide),
    (credentials_verbatim qtRef (ascii "Passcode") (ascii "  s3cret ") (by decide)
      (by decide)).2.2.2.1 .RequestConnect [] (by decide)⟩

/-- C17 (serialisation format): an invalid frame, and a response or request
frame that is invalid or of type INVALID, serialises to the empty byte
sequence; a valid response or request frame of another type serialises to its
command token and a newline, then for each header in list order
`key ++ ": " ++ value ++ "\n"` (`key ++ ":" ++ value ++ "\n"` when the key is
`login` or `passcode` in any letter case), then a newline, then the raw
body, and nothing after it. -/
theorem serialisation_format :
    (∀ f : QStompFrame, f.m_valid = false → f.toByteArray = []) ∧
    (∀ f : QStompResponseFrame, f.isValid = false ∨ f.m_type = .ResponseInvalid →
      f.toByteArray = []) ∧
    (∀ f : QStompRequestFrame, f.isValid = false ∨ f.m_type = .RequestInvalid →
      f.toByteArray = []) ∧
    (∀ f : QStompResponseFrame, f.isValid = true → f.m_type ≠ .ResponseInvalid →
      ∃ cmd ∈ RESPONSE_COMMANDS, responseTypeOf cmd = f.m_type ∧
        f.toByteArray =
          cmd ++ [LF] ++ (f.base.m_header.map fun kv => headerLine kv ++ [LF]).flatten ++ [LF] ++
            f.base.m_body) ∧
    (∀ f : QStompRequestFrame, f.isValid = true → f.m_type ≠ .RequestInvalid →
      ∃ cmd ∈ REQUEST_COMMANDS, requestTypeOf cmd = f.m_type ∧
        f.toByteArray =
          cmd ++ [LF] ++ (f.base.m_header.map fun kv => headerLine kv ++ [LF]).flatten ++ [LF] ++
            f.base.m_body) ∧
    (∀ key value : QByteArray,
      headerLine (key, value) ++ [LF] =
        if isCredentialKey key then key ++ ascii ":" ++ value ++ ascii "\n"
        else key ++ ascii ": " ++ value ++ ascii "\n") := by
  refine ⟨?_, ?_, ?_, ?_, ?_, ?_⟩
  · intro f hf
    simp [QStomp.QStompFrame.toByteArray, hf]
  · intro f hf
    unfold QStomp.QStompResponseFrame.toByteArray
    rcases hf with hf | hf
    · simp [hf]
    · rw [hf]
      split <;> rfl
  · intro f hf
    unfold QStomp.QStompRequestFrame.toByteArray
    rcases hf with hf | hf
    · simp [hf]
    · rw [hf]
      split <;> rfl
  · intro f hv hty
    obtain ⟨cmd, hc, hcty, hser⟩ := response_toByteArray_token f hv hty
    refine ⟨cmd, hc, hcty, ?_⟩
    rw [hser, toByteArray_valid f.base hv]
    simp
  · intro f hv hty
    obtain ⟨cmd, hc, hcty, hser⟩ := request_toByteArray_token f hv hty
    refine ⟨cmd, hc, hcty, ?_⟩
    rw [hser, toByteArray_valid f.base hv]
    simp
  · intro key value
    have e1 : ascii ": " = [COLON, 32] := by decide
    have e2 : ascii ":" = [COLON] := by decide
    have e3 : ascii "\n" = [LF] := by decide
    unfold headerLine
    split <;> simp [e1, e2, e3]

/-- C18 (setHeaderValue replaces or appends): on a header list with at most
one entry that matches `k`, `setHeaderValue(k, v1)` followed by
`setHeaderValue(k2, v)` with `k2` equal to `k` up to letter case leaves
exactly one matching entry; its value is `v` and its key is that of the entry
that was there first (the old matching entry, or `k` itself when there was
none); every entry that does not match keeps its position and content, and
the frame's validity and body are untouched. -/
theorem setHeaderValue_replace_or_append (f : QStompFrame) (k k2 v1 v : QByteArray)
    (hk : toLower k2 = toLower k)
    (hdup : (f.m_header.filter fun e => decide (matchesKey k e)).length ≤ 1) :
    (((f.setHeaderValue k v1).setHeaderValue k2 v).m_header.filter
        fun e => decide (matchesKey k e)) =
      [((match f.m_header.find? fun e => decide (matchesKey k e) with
          | some e => e.1
          | none => k), v)] ∧
    (∀ (i : Nat) (e : QByteArray × QByteArray), f.m_header[i]? = some e → ¬ matchesKey k e →
      ((f.setHeaderValue k v1).setHeaderValue k2 v).m_header[i]? = some e) ∧
    (((f.setHeaderValue k v1).setHeaderValue k2 v).m_header.filter
        fun e => !decide (matchesKey k e)) =
      (f.m_header.filter fun e => !decide (matchesKey k e)) ∧
    ((f.setHeaderValue k v1).setHeaderValue k2 v).m_valid = f.m_valid ∧
    ((f.setHeaderValue k v1).setHeaderValue k2 v).m_body = f.m_body := by
  have hmk : ∀ e, matchesKey k2 e ↔ matchesKey k e := by
    intro e
    unfold matchesKey
    rw [hk]
  rcases at_most_one_cases _ _ hdup with hnone | ⟨pre, e, post, hf, he, hpre, hpost⟩
  · have hn : ∀ x ∈ f.m_header, ¬ matchesKey k x := fun x hx => by
      simpa using hnone x hx
    have h1 := setHeaderValue_of_no_match f k v1 hn
    have h2 := setHeaderValue_of_first (f.setHeaderValue k v1) k2 v f.m_header [] k v1
      (by rw [h1]) ((hmk _).2 rfl) (fun x hx => fun hm => hn x hx ((hmk x).1 hm))
    rw [h2, h1]
    have hfind : f.m_header.find? (fun e => decide (matchesKey k e)) = none := by
      rw [List.find?_eq_none]
      intro x hx
      simpa using hn x hx
    have hfil : f.m_header.filter (fun e => decide (matchesKey k e)) = [] := by
      rw [List.filter_eq_nil_iff]
      intro x hx
      simpa using hn x hx
    have hkv : decide (matchesKey k (k, v)) = true := by simp [matchesKey]
    have hfiln : f.m_header.filter (fun e => !decide (matchesKey k e)) = f.m_header := by
      rw [List.filter_eq_self]
      intro x hx
      simpa using hn x hx
    refine ⟨?_, ?_, ?_, rfl, rfl⟩
    · show (f.m_header ++ [(k, v)]).filter _ = _
      rw [List.filter_append, hfil, hfind, List.filter_cons, if_pos hkv]
      rfl
    · intro i x hx _
      have hi : i < f.m_header.length := by
        by_contra hc
        rw [List.getElem?_eq_none (by omega)] at hx
        cases hx
      simp only
      rw [List.getElem?_append_left hi]
      exact hx
    · show (f.m_header ++ [(k, v)]).filter _ = _
      rw [List.filter_append, hfiln, List.filter_cons, if_neg (by simp [hkv])]
      simp
  · have hek : matchesKey k e := by simpa using he
    have hpre1 : ∀ x ∈ pre, ¬ matchesKey k x := fun x hx => by simpa using hpre x hx
    have hpost1 : ∀ x ∈ post, ¬ matchesKey k x := fun x hx => by simpa using hpost x hx
    have h1 := setHeaderValue_of_first f k v1 pre post e.1 e.2 hf hek hpre1
    have h2 := setHeaderValue_of_first (f.setHeaderValue k v1) k2 v pre post e.1 v1
      (by rw [h1]) ((hmk _).2 hek) (fun x hx => fun hm => hpre1 x hx ((hmk x).1 hm))
    rw [h2, h1]
    have hfind : f.m_header.find? (fun e => decide (matchesKey k e)) = some e := by
      rw [hf]
      exact find_of_first _ pre post e he hpre
    have hfpre : pre.filter (fun e => decide (matchesKey k e)) = [] := by
      rw [List.filter_eq_nil_iff]
      intro x hx
      simpa using hpre1 x hx
    have hfpost : post.filter (fun e => decide (matchesKey k e)) = [] := by
      rw [List.filter_eq_nil_iff]
      intro x hx
      simpa using hpost1 x hx
    have hev : decide (matchesKey k (e.1, v)) = true := by simpa [matchesKey] using hek
    refine ⟨?_, ?_, ?_, rfl, rfl⟩
    · show (pre ++ (e.1, v) :: post).filter _ = _
      rw [List.filter_append, List.filter_cons, if_pos hev, hfpre, hfpost, hfind]
      rfl
    · intro i x hx hnx
      simp only
      rw [hf] at hx
      refine getElem_replace pre post e (e.1, v) x i hx ?_
      intro hi
      rw [hi, getElem_at_length] at hx
      cases hx
      exact hnx hek
    · show (pre ++ (e.1, v) :: post).filter _ = _
      rw [hf, List.filter_append, List.filter_append, List.filter_cons, List.filter_cons,
        if_neg (by simp [hev]), if_neg (by simp [he])]

/-- C18 at the header list `[("A", "1"), ("Key", "old"), ("B", "2")]` with
`k = "key"` and `k2 = "KEY"`. -/
theorem setHeaderValue_replace_or_append_witness :
    toLower (ascii "KEY") = toLower (ascii "key") ∧
      (((QStompFrame.setHeaderValue
          { m_header := [(ascii "A", ascii "1"), (ascii "Key", ascii "old"), (ascii "B", ascii "2")],
            m_valid := true, m_body := [] } (ascii "key") (ascii "v1")).setHeaderValue
            (ascii "KEY") (ascii "v")).m_header.filter
          fun e => decide (matchesKey (ascii "key") e)) =
        [(ascii "Key", ascii "v")] :=
  ⟨by decide,
    ((setHeaderValue_replace_or_append
      { m_header := [(ascii "A", ascii "1"), (ascii "Key", ascii "old"), (ascii "B", ascii "2")],
        m_valid := true, m_body := [] } (ascii "key") (ascii "KEY") (ascii "v1") (ascii "v")
      (by decide) (by decide)).1).trans (by decide)⟩

/-- C19 (header lookup is case-insensitive): for two keys that are equal
after lower-casing, `headerValue`, `headerHasKey` and `allHeaderValues` give
the same results; `headerValue` returns the value of the first matching entry
in list order, and the empty byte string when no entry matches. -/
theorem header_lookup_case_insensitive (f : QStompFrame) (k1 k2 : QByteArray)
    (h : toLower k1 = toLower k2) :
    f.headerValue k1 = f.headerValue k2 ∧
    f.headerHasKey k1 = f.headerHasKey k2 ∧
    f.allHeaderValues k1 = f.allHeaderValues k2 ∧
    (∀ pre kv post, f.m_header = pre ++ kv :: post → matchesKey k1 kv →
      (∀ e ∈ pre, ¬ matchesKey k1 e) → f.headerValue k1 = kv.2) ∧
    ((∀ e ∈ f.m_header, ¬ matchesKey k1 e) → f.headerValue k1 = []) := by
  refine ⟨?_, ?_, ?_, ?_, ?_⟩
  · simp only [QStomp.QStompFrame.headerValue, h]
  · simp only [QStomp.QStompFrame.headerHasKey, h]
  · simp only [QStomp.QStompFrame.allHeaderValues, h]
  · intro pre kv post hf hm hpre
    exact headerValue_of_first f k1 pre post kv hf hm hpre
  · intro hn
    exact headerValue_of_no_match f k1 hn

/-- C19 at the keys `"Content-Length"` and `"content-length"`. -/
theorem header_lookup_case_insensitive_witness :
    toLower (ascii "Content-Length") = toLower (ascii "content-length") ∧
      QStompFrame.headerValue
          { m_header := [(ascii "a", ascii "1"), (ascii "CONTENT-length", ascii "7")],
            m_valid := true, m_body := [] } (ascii "Content-Length") =
        QStompFrame.headerValue
          { m_header := [(ascii "a", ascii "1"), (ascii "CONTENT-length", ascii "7")],
            m_valid := true, m_body := [] } (ascii "content-length") :=
  ⟨by decide,
    (header_lookup_case_insensitive
      { m_header := [(ascii "a", ascii "1"), (ascii "CONTENT-length", ascii "7")],
        m_valid := true, m_body := [] } (ascii "Content-Length") (ascii "content-length")
      (by decide)).1⟩

/-- C20 (header removal), evaluated on the header list
`[("k", "1"), ("x", "2")]`: `removeHeaderValue("K")` leaves `[("x", "2")]`,
as the claim says. `removeAllHeaderValues("K")` erases the first entry and
then goes on with the iterator that the removal invalidated, and so does
every call that finds a matching entry: the source does not fix what the
loop does from there, and the model has no result for it. -/
theorem removeAllHeaderValues_continues_with_erased_iterator :
    (QStompFrame.removeHeaderValue
        { m_header := [(ascii "k", ascii "1"), (ascii "x", ascii "2")], m_valid := true,
          m_body := [] } (ascii "K")).m_header = [(ascii "x", ascii "2")] ∧
      QStompFrame.removeAllHeaderValues
        { m_header := [(ascii "k", ascii "1"), (ascii "x", ascii "2")], m_valid := true,
          m_body := [] } (ascii "K") = none ∧
      ∀ (f : QStompFrame) (key : QByteArray),
        f.removeAllHeaderValues key = none ↔ ∃ e ∈ f.m_header, matchesKey key e := by
  refine ⟨by decide, by decide, ?_⟩
  intro f key
  unfold QStomp.QStompFrame.removeAllHeaderValues
  constructor
  · intro h
    by_contra hne
    have hn : ∀ e ∈ f.m_header, toLower e.1 ≠ toLower key := by
      intro e he hm
      exact hne ⟨e, he, hm⟩
    rw [removeAllLoop_of_no_match _ _ hn] at h
    cases h
  · rintro ⟨e, he, hm⟩
    rw [removeAllLoop_of_match _ _ ⟨e, he, hm⟩]
    rfl


/-! ## Facts about extraction lengths and termination of the read loop -/

theorem sanityLoop_length_le (fuel : Nat) (b : QByteArray) (r : Bool × QByteArray)
    (h : sanityLoop fuel b = some r) : r.2.length ≤ b.length := by
  induction fuel generalizing b with
  | zero => simp [sanityLoop] at h
  | succ n ih =>
    unfold sanityLoop at h
    cases hs : sanityStep b with
    | ret0 =>
      simp only [hs] at h
      cases h
      exact Nat.le_refl _
    | brk =>
      simp only [hs] at h
      cases h
      exact Nat.le_refl _
    | again rest =>
      simp only [hs] at h
      have := sanityStep_again_lt b rest hs
      have := ih rest h
      omega

theorem terminatorFrame_le (b : QByteArray) : terminatorFrame b ≤ b.length := by
  unfold terminatorFrame
  cases h2 : indexOf [NUL, LF] b with
  | some e =>
    have := indexOf_add_length_le _ _ _ h2
    simpa using this
  | none =>
    cases h1 : indexOf [NUL] b with
    | some e =>
      have := indexOf_add_length_le _ _ _ h1
      simpa using this
    | none => simp

/-- The length that `findMessageBytes` returns lies inside the buffer it
leaves, which is no longer than the buffer it was given. -/
theorem findMessageBytes_le (qt : QtLib) (buf : QByteArray) :
    (findMessageBytes qt buf).1 ≤ (findMessageBytes qt buf).2.length ∧
      (findMessageBytes qt buf).2.length ≤ buf.length := by
  unfold findMessageBytes
  cases hs : sanityLoop (buf.length + 1) buf with
  | none => simp
  | some r =>
    obtain ⟨flag, b⟩ := r
    have hle := sanityLoop_length_le _ _ _ hs
    cases flag
    · exact ⟨Nat.zero_le _, hle⟩
    · simp only [contentLengthFrame_eq_none]
      exact ⟨terminatorFrame_le b, hle⟩

/-- With more fuel than the buffer has bytes the read loop ends. -/
theorem readLoop_isSome (qt : QtLib) (fuel : Nat) (d : QStompClientPrivate) (g : Bool)
    (h : d.m_buffer.length < fuel) : ∃ r, readLoop qt fuel d g = some r := by
  induction fuel generalizing d g with
  | zero => omega
  | succ n ih =>
    have hle := findMessageBytes_le qt d.m_buffer
    cases hf : findMessageBytes qt d.m_buffer with
    | mk L buf =>
      rw [hf] at hle
      simp only at hle
      cases L with
      | zero => exact ⟨_, readLoop_stop qt n d g buf hf⟩
      | succ m =>
        rw [readLoop_step qt n d g m buf hf]
        apply ih
        simp only [removeFront, List.length_drop]
        omega

/-! ## Facts about chunked delivery -/

theorem streamOf_cons (F : QByteArray) (Fs : List QByteArray) :
    streamOf (F :: Fs) = F ++ NUL :: LF :: streamOf Fs := by
  simp [streamOf]

theorem streamOf_append (Fa Fb : List QByteArray) :
    streamOf (Fa ++ Fb) = streamOf Fa ++ streamOf Fb := by
  simp [streamOf]

theorem streamOf_length_ge (Fs : List QByteArray) : Fs.length ≤ (streamOf Fs).length := by
  induction Fs with
  | nil => simp [streamOf]
  | cons F Fs ih =>
    rw [streamOf_cons]
    simp only [List.length_cons, List.length_append]
    omega

/-- The read loop on a buffer that holds complete frames, each followed by
the terminator, and then a rest on which `findMessageBytes` returns none:
every frame is handed to the parser and queued, and the rest stays. -/
theorem readLoop_frames (qt : QtLib) (Fs : List QByteArray) (R : QByteArray)
    (hF : ∀ F ∈ Fs, beginsWithCommand F ∧ NUL ∉ F ∧
      (QStompResponseFrame.fromBytes qt (F ++ [NUL, LF])).isValid = true)
    (hR : findMessageBytes qt R = (0, R)) (fuel : Nat) (hfuel : Fs.length < fuel)
    (q : List QStompResponseFrame) (hd : List QByteArray) (g : Bool) :
    ∃ g1, readLoop qt fuel { m_buffer := streamOf Fs ++ R, m_framebuffer := q, handed := hd } g =
      some ({ m_buffer := R,
              m_framebuffer := q ++ Fs.map fun F => QStompResponseFrame.fromBytes qt (F ++ [NUL, LF]),
              handed := hd ++ Fs.map fun F => F ++ [NUL, LF] }, g1) := by
  induction Fs generalizing fuel q hd g with
  | nil =>
    obtain ⟨n, rfl⟩ : ∃ n, fuel = n + 1 := ⟨fuel - 1, by simp at hfuel; omega⟩
    refine ⟨g, ?_⟩
    have := readLoop_stop qt n { m_buffer := R, m_framebuffer := q, handed := hd } g R hR
    simpa [streamOf] using this
  | cons F Fs ih =>
    obtain ⟨n, rfl⟩ : ∃ n, fuel = n + 1 := ⟨fuel - 1, by simp at hfuel; omega⟩
    obtain ⟨hb, h0, hv⟩ := hF F (by simp)
    have hrest : ∀ G ∈ Fs, beginsWithCommand G ∧ NUL ∉ G ∧
        (QStompResponseFrame.fromBytes qt (G ++ [NUL, LF])).isValid = true :=
      fun G hG => hF G (by simp [hG])
    have e : streamOf (F :: Fs) ++ R = F ++ NUL :: LF :: (streamOf Fs ++ R) := by
      rw [streamOf_cons]
      simp
    rw [e, readLoop_frame qt n F _ q hd g hb h0, if_pos hv]
    obtain ⟨g1, hg1⟩ := ih hrest n (by simpa using hfuel)
      (q ++ [QStompResponseFrame.fromBytes qt (F ++ [NUL, LF])]) (hd ++ [F ++ [NUL, LF]])
      (g || (QStompResponseFrame.fromBytes qt (F ++ [NUL, LF])).isValid)
    refine ⟨g1, ?_⟩
    rw [hg1]
    simp

theorem getLast_append_of_not_mem (R c : QByteArray) (h0 : NUL ∉ R) (hc : ¬ endsWithNUL c) :
    ¬ endsWithNUL (R ++ c) := by
  unfold endsWithNUL at *
  cases c with
  | nil =>
    simp only [List.append_nil]
    intro h
    exact h0 (List.mem_of_getLast?_eq_some h)
  | cons x xs =>
    rw [List.getLast?_append_of_ne_nil _ (by simp)]
    exact hc

/-- A prefix `W` of a stream of terminated frames that does not end with NUL
is a number of whole terminated frames followed by a rest without NUL. -/
theorem split_stream (Fs : List QByteArray) (hF : ∀ F ∈ Fs, NUL ∉ F) (W Y : QByteArray)
    (h : W ++ Y = streamOf Fs) (hW : ¬ endsWithNUL W) :
    ∃ Fa Fb R, Fs = Fa ++ Fb ∧ W = streamOf Fa ++ R ∧ NUL ∉ R ∧ R ++ Y = streamOf Fb := by
  induction Fs generalizing W with
  | nil =>
    have hW0 : W = [] := by
      have : W ++ Y = [] := by simpa [streamOf] using h
      exact (List.append_eq_nil.1 this).1
    subst hW0
    exact ⟨[], [], [], rfl, by simp [streamOf], by simp, by simpa using h⟩
  | cons F Fs ih =>
    by_cases hn : NUL ∈ W
    · -- the first NUL of the stream is the terminator of `F`
      have h0 := hF F (by simp)
      rw [streamOf_cons] at h
      have hpre : F ++ [NUL] <+: W := by
        have h1 : F ++ [NUL] <+: W ++ Y := ⟨LF :: streamOf Fs, by rw [h]; simp⟩
        rcases List.prefix_or_prefix_of_prefix h1 (List.prefix_append W Y) with hp | hp
        · exact hp
        · -- `W` is a prefix of `F ++ [NUL]` and has a NUL, so it is all of it
          obtain ⟨t, ht⟩ := hp
          cases t with
          | nil => rw [List.append_nil] at ht; rw [ht]
          | cons x xs =>
            exfalso
            have hWF : W <+: F := by
              have : W ++ (x :: xs) = F ++ [NUL] := ht
              have hlen := congrArg List.length this
              simp only [List.length_append, List.length_cons, List.length_nil] at hlen
              exact List.prefix_of_prefix_length_le ⟨_, ht⟩ (List.prefix_append F [NUL])
                (by omega)
            exact h0 (hWF.subset hn)
      obtain ⟨t, ht⟩ := hpre
      cases t with
      | nil =>
        exfalso
        apply hW
        rw [← ht]
        simp [endsWithNUL]
      | cons x W1 =>
        have hx : x = LF ∧ W1 ++ Y = streamOf Fs := by
          rw [← ht] at h
          simp only [List.append_assoc, List.cons_append, List.nil_append,
            List.append_cancel_left_eq, List.cons.injEq, true_and] at h
          exact h
        obtain ⟨rfl, hrest⟩ := hx
        have hW1 : ¬ endsWithNUL W1 := by
          intro he
          apply hW
          rw [← ht]
          unfold endsWithNUL at he ⊢
          cases W1 with
          | nil => simp at he
          | cons y ys =>
            rw [show F ++ [NUL] ++ LF :: y :: ys = (F ++ [NUL, LF]) ++ (y :: ys) by simp,
              List.getLast?_append_of_ne_nil _ (by simp)]
            exact he
        obtain ⟨Fa, Fb, R, hFs, hWs, hR, hRY⟩ :=
          ih (fun G hG => hF G (by simp [hG])) W1 hrest hW1
        refine ⟨F :: Fa, Fb, R, by rw [hFs]; rfl, ?_, hR, hRY⟩
        rw [← ht, hWs, streamOf_cons]
        simp
    · exact ⟨[], F :: Fs, W, rfl, by simp [streamOf], hn, h⟩

/-- On the pending rest of a stream of terminated frames, when it has no
NUL, `findMessageBytes` returns none and leaves the buffer. -/
theorem findMessageBytes_pending (qt : QtLib) (Fb : List QByteArray)
    (hF : ∀ F ∈ Fb, beginsWithCommand F) (R Y : QByteArray) (h0 : NUL ∉ R)
    (h : R ++ Y = streamOf Fb) : findMessageBytes qt R = (0, R) := by
  cases Fb with
  | nil =>
    have : R = [] := by
      have : R ++ Y = [] := by simpa [streamOf] using h
      exact (List.append_eq_nil.1 this).1
    subst this
    rfl
  | cons F Fs =>
    rw [streamOf_cons] at h
    have hp : R <+: F := prefix_of_not_mem R F (LF :: streamOf Fs) NUL ⟨Y, h⟩ h0
    rw [findMessageBytes_of_prefix_begins qt F R (hF F (by simp)) hp, terminatorFrame_none R h0]

theorem socketReadyRead_eq (qt : QtLib) (b : QByteArray) (q : List QStompResponseFrame)
    (hd : List QByteArray) (data : QByteArray) :
    socketReadyRead qt { m_buffer := b, m_framebuffer := q, handed := hd } data =
      readLoop qt ((b ++ data).length + 1)
        { m_buffer := b ++ data, m_framebuffer := q, handed := hd } false := rfl

/-- Chunked delivery of a stream of terminated frames, no chunk ending with
NUL, from a state whose buffer holds the beginning of the stream: every frame
is queued, in order, and the buffer ends empty. -/
theorem feedChunks_stream (qt : QtLib) (cs : List QByteArray) :
    ∀ (Fs : List QByteArray) (R0 : QByteArray) (q : List QStompResponseFrame)
      (hd : List QByteArray),
      (∀ F ∈ Fs, beginsWithCommand F ∧ NUL ∉ F ∧
        (QStompResponseFrame.fromBytes qt (F ++ [NUL, LF])).isValid = true) →
      NUL ∉ R0 → (∀ c ∈ cs, ¬ endsWithNUL c) → R0 ++ cs.flatten = streamOf Fs →
      feedChunks qt { m_buffer := R0, m_framebuffer := q, handed := hd } cs =
        some { m_buffer := [],
               m_framebuffer :=
                 q ++ Fs.map fun F => QStompResponseFrame.fromBytes qt (F ++ [NUL, LF]),
               handed := hd ++ Fs.map fun F => F ++ [NUL, LF] } := by
  induction cs with
  | nil =>
    intro Fs R0 q hd hF h0 _ h
    have hs : R0 = streamOf Fs := by simpa using h
    cases Fs with
    | nil =>
      have : R0 = [] := by simpa [streamOf] using hs
      subst this
      simp [feedChunks]
    | cons F Fs =>
      exfalso
      apply h0
      rw [hs, streamOf_cons]
      simp
  | cons c cs ih =>
    intro Fs R0 q hd hF h0 hcs h
    have hW : ¬ endsWithNUL (R0 ++ c) :=
      getLast_append_of_not_mem R0 c h0 (hcs c (by simp))
    have hsplit : (R0 ++ c) ++ cs.flatten = streamOf Fs := by
      rw [← h]
      simp
    obtain ⟨Fa, Fb, R, hFs, hWs, hR, hRY⟩ :=
      split_stream Fs (fun F hm => (hF F hm).2.1) (R0 ++ c) cs.flatten hsplit hW
    subst hFs
    have hFa : ∀ F ∈ Fa, beginsWithCommand F ∧ NUL ∉ F ∧
        (QStompResponseFrame.fromBytes qt (F ++ [NUL, LF])).isValid = true :=
      fun F hm => hF F (by simp [hm])
    have hFb : ∀ F ∈ Fb, beginsWithCommand F ∧ NUL ∉ F ∧
        (QStompResponseFrame.fromBytes qt (F ++ [NUL, LF])).isValid = true :=
      fun F hm => hF F (by simp [hm])
    have hpend := findMessageBytes_pending qt Fb (fun F hm => (hFb F hm).1) R cs.flatten hR hRY
    have hfuel : Fa.length < (streamOf Fa ++ R).length + 1 := by
      have := streamOf_length_ge Fa
      simp only [List.length_append]
      omega
    obtain ⟨g1, hg1⟩ := readLoop_frames qt Fa R hFa hpend _ hfuel q hd false
    unfold feedChunks
    rw [socketReadyRead_eq, hWs, hg1]
    simp only
    rw [ih Fb R _ _ hFb hR (fun x hx => hcs x (by simp [hx])) hRY]
    simp

/-! ## Facts about repeated `addHeaderValue` and about a lone NUL terminator -/

theorem foldl_addHeaderValue (k : QByteArray) (vs : List QByteArray) (f : QStompFrame) :
    (vs.foldl (fun g w => g.addHeaderValue k w) f).m_header =
      f.m_header ++ vs.map fun w => (k, w) := by
  induction vs generalizing f with
  | nil => simp
  | cons w ws ih =>
    rw [List.foldl_cons, ih]
    simp [QStomp.QStompFrame.addHeaderValue]

theorem not_endsWith_terminator (X : QByteArray) : endsWith (X ++ [NUL]) [NUL, LF] = false := by
  cases h : endsWith (X ++ [NUL]) [NUL, LF] with
  | false => rfl
  | true =>
    exfalso
    obtain ⟨Y, hY⟩ := (endsWith_iff _ _).1 h
    have h1 := congrArg List.getLast? hY
    rw [List.getLast?_append_of_ne_nil _ (by simp),
      List.getLast?_append_of_ne_nil _ (by simp)] at h1
    revert h1
    decide

/-- The frame parsed from a well-formed response frame without
`content-length` header that is followed by a lone NUL: it is valid, and its
raw body is the body on the wire with the NUL still at its end. -/
theorem lone_nul_body (qt : QtLib) (cmd : QByteArray) (lines : List QByteArray) (X : QByteArray)
    (hw : wellFormedResponse cmd lines)
    (hcl : (QStompResponseFrame.fromBytes qt
      (frameBytes cmd lines X ++ [NUL])).base.hasContentLength = false) :
    (QStompResponseFrame.fromBytes qt (frameBytes cmd lines X ++ [NUL])).isValid = true ∧
      (QStompResponseFrame.fromBytes qt (frameBytes cmd lines X ++ [NUL])).base.m_body =
        X ++ [NUL] := by
  rw [frameBytes_append] at hcl ⊢
  have hv := (fromBytes_wellFormed qt cmd lines (X ++ [NUL]) hw).1
  refine ⟨hv, ?_⟩
  have hclf : LF ∉ cmd := (valid_command_clean cmd (response_command_valid cmd hw.1)).1
  have hsep := indexOf_sep_frameBytes cmd lines (X ++ [NUL]) hclf
    (fun l hm => ⟨fun e => by simpa [e] using (hw.2 l hm).1, (hw.2 l hm).2⟩)
  have hb := parsedBase_body qt .response _ _ ((indexOf_eq_some_iff _ _ _).1 hsep) hv
  have hdrop : (frameBytes cmd lines (X ++ [NUL])).drop ((headerBlock cmd lines).length + 2) =
      X ++ [NUL] := by
    have e : frameBytes cmd lines (X ++ [NUL]) =
        (headerBlock cmd lines ++ [LF, LF]) ++ (X ++ [NUL]) := by
      simp [frameBytes]
    rw [e, List.drop_left']
    simp
  have hcl2 : (parsedBase qt .response (frameBytes cmd lines (X ++ [NUL]))).hasContentLength =
      false := hcl
  rw [hcl2, hdrop, not_endsWith_terminator] at hb
  exact hb

/-! ## The claims about appended headers, chunked delivery and content encoding -/

/-- C21 (addHeaderValue always appends): after `addHeaderValue(k, v)` the
header list is the old list followed by `(k, v)`, and `allHeaderValues(k)` is
the old result followed by `v`; calls with the values `vs` and the same key on
a frame with no entry for `k` give one entry per call, and `allHeaderValues(k)`
returns exactly `vs`, in insertion order. -/
theorem addHeaderValue_appends (f : QStompFrame) (k v : QByteArray) :
    (f.addHeaderValue k v).m_header = f.m_header ++ [(k, v)] ∧
    (f.addHeaderValue k v).allHeaderValues k = f.allHeaderValues k ++ [v] ∧
    (∀ vs : List QByteArray, (∀ e ∈ f.m_header, ¬ matchesKey k e) →
      (vs.foldl (fun g w => g.addHeaderValue k w) f).m_header =
          f.m_header ++ vs.map (fun w => (k, w)) ∧
        (vs.foldl (fun g w => g.addHeaderValue k w) f).allHeaderValues k = vs ∧
        ((vs.foldl (fun g w => g.addHeaderValue k w) f).m_header.filter
          fun e => decide (matchesKey k e)).length = vs.length) := by
  have hfil : ∀ ws : List QByteArray,
      (ws.map fun w => (k, w)).filter (fun e => decide (matchesKey k e)) =
        ws.map fun w => (k, w) := by
    intro ws
    rw [List.filter_eq_self]
    intro e he
    obtain ⟨w, -, rfl⟩ := List.mem_map.1 he
    simp [matchesKey]
  refine ⟨rfl, ?_, ?_⟩
  · rw [allHeaderValues_eq, allHeaderValues_eq]
    show ((f.m_header ++ [(k, v)]).filter _).map Prod.snd = _
    have := hfil [v]
    simp only [List.map_cons, List.map_nil] at this
    rw [List.filter_append, this]
    simp
  · intro vs hn
    have hnone : f.m_header.filter (fun e => decide (matchesKey k e)) = [] := by
      rw [List.filter_eq_nil_iff]
      intro e he
      simpa using hn e he
    refine ⟨foldl_addHeaderValue k vs f, ?_, ?_⟩
    · rw [allHeaderValues_eq, foldl_addHeaderValue, List.filter_append, hnone, hfil]
      simp [List.map_map, Function.comp_def]
    · rw [foldl_addHeaderValue, List.filter_append, hnone, hfil]
      simp

/-- C21 at three calls with the key `"k"` on a frame that has the header
`("a", "0")`. -/
theorem addHeaderValue_appends_witness :
    (∀ e ∈ [(ascii "a", ascii "0")], ¬ matchesKey (ascii "k") e) ∧
      QStompFrame.allHeaderValues
          ([ascii "1", ascii "2", ascii "3"].foldl (fun g w => g.addHeaderValue (ascii "k") w)
            { m_header := [(ascii "a", ascii "0")], m_valid := true, m_body := [] })
          (ascii "k") =
        [ascii "1", ascii "2", ascii "3"] :=
  ⟨by decide,
    ((addHeaderValue_appends
      { m_header := [(ascii "a", ascii "0")], m_valid := true, m_body := [] } (ascii "k")
      (ascii "x")).2.2 [ascii "1", ascii "2", ascii "3"] (by decide)).2.1⟩

/-- C23 (a lone NUL terminator and the body), evaluated on the buffer
`"MESSAGE\n\nhello" ++ NUL`: `findMessageBytes` returns 15, the whole buffer,
and the frame parsed from that range is valid with the six-byte raw body
`"hello" ++ NUL`; the claim gives the body `"hello"`. The parser strips the
two bytes NUL `'\n'` only. -/
theorem lone_nul_stays_in_body :
    ∀ qt : QtLib,
      findMessageBytes qt (ascii "MESSAGE\n\nhello\x00") = (15, ascii "MESSAGE\n\nhello\x00") ∧
      left (ascii "MESSAGE\n\nhello\x00") 15 = ascii "MESSAGE\n\nhello\x00" ∧
      QStompResponseFrame.fromBytes qt (ascii "MESSAGE\n\nhello\x00") =
        { base := { m_header := [], m_valid := true, m_body := ascii "hello\x00" },
          m_type := .ResponseMessage } ∧
      ascii "hello\x00" ≠ ascii "hello" := by
  intro qt
  refine ⟨?_, by decide, rfl, by decide⟩
  rw [findMessageBytes_aligned qt _ (by decide)]
  decide

/-- C24 (extraction lengths are in range): a non-zero length `L` returned by
`findMessageBytes` satisfies `1 ≤ L ≤` the size of the buffer as the call
leaves it, so that removing `L` bytes from the front strictly shrinks the
buffer; the call never makes the buffer longer; and the read loop of
`socketReadyRead` ends, for every state and every data received. -/
theorem extraction_lengths_in_range (qt : QtLib) (buf : QByteArray) :
    ((findMessageBytes qt buf).1 ≠ 0 →
      1 ≤ (findMessageBytes qt buf).1 ∧
        (findMessageBytes qt buf).1 ≤ (findMessageBytes qt buf).2.length ∧
        (removeFront (findMessageBytes qt buf).2 (findMessageBytes qt buf).1).length <
          (findMessageBytes qt buf).2.length) ∧
    (findMessageBytes qt buf).2.length ≤ buf.length ∧
    (∀ (d : QStompClientPrivate) (data : QByteArray), ∃ r, socketReadyRead qt d data = some r) ∧
    (∀ (fuel : Nat) (d : QStompClientPrivate) (g : Bool), d.m_buffer.length < fuel →
      ∃ r, readLoop qt fuel d g = some r) := by
  obtain ⟨h1, h2⟩ := findMessageBytes_le qt buf
  refine ⟨?_, h2, ?_, fun fuel d g h => readLoop_isSome qt fuel d g h⟩
  · intro hL
    refine ⟨by omega, h1, ?_⟩
    simp only [removeFront, List.length_drop]
    omega
  · intro d data
    exact readLoop_isSome qt _ _ false (Nat.lt_succ_self _)

/-- C24 at the buffer `"xx" ++ NUL ++ "\nMESSAGE\n\nhi" ++ NUL ++ "\nrest"`:
the call discards four bytes and returns 13 of the remaining 17. -/
theorem extraction_lengths_in_range_witness :
    findMessageBytes qtRef (ascii "xx\x00\nMESSAGE\n\nhi\x00\nrest") =
        (13, ascii "MESSAGE\n\nhi\x00\nrest") ∧
      1 ≤ (findMessageBytes qtRef (ascii "xx\x00\nMESSAGE\n\nhi\x00\nrest")).1 ∧
      (findMessageBytes qtRef (ascii "xx\x00\nMESSAGE\n\nhi\x00\nrest")).1 ≤
        (findMessageBytes qtRef (ascii "xx\x00\nMESSAGE\n\nhi\x00\nrest")).2.length :=
  ⟨by decide,
    ((extraction_lengths_in_range qtRef (ascii "xx\x00\nMESSAGE\n\nhi\x00\nrest")).1
      (by decide)).1,
    ((extraction_lengths_in_range qtRef (ascii "xx\x00\nMESSAGE\n\nhi\x00\nrest")).1
      (by decide)).2.1⟩

/-- C25 (hasContentEncoding), evaluated: `hasContentEncoding()` gives the
same answer as `hasContentLength()` on every frame. On a frame whose only
header is `("content-length", "5")` it returns true although no entry has the
key `content-encoding`, and after `setContentEncoding("utf-8")` on a new frame
it returns false although `contentEncoding()` reads the header `"utf-8"`. -/
theorem hasContentEncoding_reads_content_length :
    (∀ f : QStompFrame, f.hasContentEncoding = f.hasContentLength) ∧
    QStompFrame.hasContentEncoding
        { m_header := [(ascii "content-length", ascii "5")], m_valid := true, m_body := [] } =
      true ∧
    QStompFrame.headerHasKey
        { m_header := [(ascii "content-length", ascii "5")], m_valid := true, m_body := [] }
        (ascii "content-encoding") = false ∧
    (QStompFrame.new.setContentEncoding (ascii "utf-8")).hasContentEncoding = false ∧
    (QStompFrame.new.setContentEncoding (ascii "utf-8")).headerHasKey (ascii "content-encoding") =
      true ∧
    (QStompFrame.new.setContentEncoding (ascii "utf-8")).contentEncoding = ascii "utf-8" := by
  refine ⟨fun _ => rfl, ?_, ?_, ?_, ?_, ?_⟩ <;> decide

end QStomp
